import Mathlib

/-!
# Ledger REST backend: parser, formatter and splice engine

A shallow embedding of `app/cpp_backend/src/ledger_manager.cpp`
(`LedgerManager`) together with the properties of its transaction parser,
formatter and line-range splice.

Conventions of the embedding

* a `std::string` is a list of characters (`Str`), one `Char` per `char`;
* `std::isspace` and `\s` are the six white-space characters of the "C" locale;
* `int` line numbers are kept as `Int` (the sentinel `-1` is preserved), the
  loop counter `lineNum` is a natural number that is cast when it is stored;
  files are taken to have fewer than `2 ^ 31` lines, so that no `int` overflows;
* `size_t` arithmetic is done modulo `2 ^ 64`;
* a C++ exception is the `error` branch of `Except Exn`.
-/

namespace Ledger

/-! ## Strings -/

/-- A `std::string`: a sequence of `char`. -/
abbrev Str := List Char

/-- The predicate `std::isspace` in the "C" locale (also the regex class `\s`
and the predicate of `boost::trim`): space, `\t`, `\n`, `\v`, `\f`, `\r`. -/
def isspace (c : Char) : Bool :=
  c == ' ' || c == '\t' || c == '\n' || c == Char.ofNat 11 || c == Char.ofNat 12 || c == '\r'

/-- The regex class `\d`. -/
def isdigit (c : Char) : Bool :=
  decide ('0'.toNat ≤ c.toNat ∧ c.toNat ≤ '9'.toNat)

/-- The function `boost::trim_right`. -/
def trimRight (s : Str) : Str := (s.reverse.dropWhile isspace).reverse

/-- The function `boost::trim_left`. -/
def trimLeft (s : Str) : Str := s.dropWhile isspace

/-- The function `boost::trim`: `trim_right` followed by `trim_left`. -/
def trim (s : Str) : Str := trimLeft (trimRight s)

/-- The loop `while (std::getline(stream, line))`: the successive lines of a
content. A line ends at `\n` (which is dropped) or at the end of the content; no
line is produced for the empty remainder after a final `\n`. -/
def getlines : Str → List Str
  | [] => []
  | c :: cs =>
    if c = '\n' then [] :: getlines cs
    else
      match getlines cs with
      | [] => [[c]]
      | l :: ls => (c :: l) :: ls

/-- Each line followed by `"\n"`, concatenated: what the rebuilding loops
`newContent += lines[i] + "\n"` produce. -/
def unlines : List Str → Str
  | [] => []
  | l :: ls => l ++ '\n' :: unlines ls

/-- The call `std::string::find(c)`: position of the first `c`, `none` for `npos`. -/
def findChar (c : Char) : Str → Option Nat
  | [] => none
  | x :: xs => if x = c then some 0 else (findChar c xs).map (· + 1)

/-! ## Data model (`ledger_manager.h`) -/

/-- The struct `Posting`. -/
structure Posting where
  account : Str
  amount : Str
  comment : Str
deriving DecidableEq, Repr

/-- The struct `Transaction`; `startLine` defaults to the sentinel `-1`. -/
structure Transaction where
  startLine : Int
  date : Str
  cleared : Bool
  pending : Bool
  payee : Str
  postings : List Posting
deriving DecidableEq, Repr

/-- The default-constructed `Transaction()`. -/
def Transaction.default : Transaction :=
  { startLine := -1, date := [], cleared := false, pending := false, payee := [], postings := [] }

/-- The exceptions the code throws. -/
inductive Exn where
  | runtime_error
  | out_of_range
  | invalid_argument
  | type_error
  | length_error
deriving DecidableEq, Repr

/-! ## Parser (`LedgerManager::parseTransactions`) -/

/-- The line terminators that the regex atom `.` does not match (ECMAScript). -/
def isLineTerminator (c : Char) : Bool := c == '\n' || c == '\r'

/-- Whether the first ten characters are `\d{4}/\d{2}/\d{2}`. -/
def matchDate : Str → Bool
  | y1 :: y2 :: y3 :: y4 :: s1 :: m1 :: m2 :: s2 :: d1 :: d2 :: _ =>
    isdigit y1 && isdigit y2 && isdigit y3 && isdigit y4 && s1 == '/' &&
    isdigit m1 && isdigit m2 && s2 == '/' && isdigit d1 && isdigit d2
  | _ => false

/-- The call `std::regex_match(s, matches, transactionRegex)` for
`^(\d{4}/\d{2}/\d{2})\s+(\*|\!)?\s*(.*)`, returning the groups 1, 2, 3.

After the date, `\s+` must take at least one white-space character and greedily
takes the whole run; the optional group takes a `*` or `!` that follows; `\s*`
takes the next run; `.*` must then reach the end of the string, which it does
iff no line terminator remains. Backtracking never helps: every alternative
leaves `.*` a remainder that still ends with the same characters. -/
def matchHeader (s : Str) : Option (Str × Str × Str) :=
  if matchDate s then
    let r := s.drop 10
    match r with
    | [] => none
    | c :: _ =>
      if isspace c then
        match r.dropWhile isspace with
        | [] => some (s.take 10, [], [])
        | m :: r2 =>
          if m = '*' ∨ m = '!' then
            let r3 := r2.dropWhile isspace
            if r3.any isLineTerminator then none else some (s.take 10, [m], r3)
          else
            if (m :: r2).any isLineTerminator then none else some (s.take 10, [], m :: r2)
      else none
  else none

/-- The loop looking for two adjacent white-space characters, started at
position `i` on the remainder of the string: the position found, or `0` (the
initial value of `spacePos`) when the loop ends without a `break`. -/
def spaceRunFrom : Nat → Str → Nat
  | _, [] => 0
  | _, [_] => 0
  | i, a :: b :: rest =>
    if isspace a && isspace b then i else spaceRunFrom (i + 1) (b :: rest)

/-- The variable `splitPos` (`none` is `npos`) from `dollarPos` and `spacePos`. -/
def splitPos (dollarPos : Option Nat) (spacePos : Nat) : Option Nat :=
  match dollarPos with
  | some d =>
    if spacePos = 0 ∨ d < spacePos then some d
    else if spacePos ≠ 0 then some spacePos else none
  | none => if spacePos ≠ 0 then some spacePos else none

/-- The posting built from a trimmed, non-comment posting line. -/
def parsePosting (trimmedLine : Str) : Posting :=
  match splitPos (findChar '$' trimmedLine) (spaceRunFrom 0 trimmedLine) with
  | none => { account := trimmedLine, amount := [], comment := [] }
  | some p =>
    let rest := trimmedLine.drop p
    let amount :=
      match findChar ';' rest with
      | some commentPos => rest.take commentPos
      | none => rest
    { account := trim (trimmedLine.take p), amount := trim amount, comment := [] }

/-- The transaction started by a header line at `lineNum`. -/
def newTransaction (lineNum : Nat) (g : Str × Str × Str) : Transaction :=
  { startLine := (lineNum : Int), date := g.1,
    cleared := g.2.1 == ['*'], pending := g.2.1 == ['!'],
    payee := g.2.2, postings := [] }

/-- The vector `transactions` after `push_back(cur)` guarded by
`cur.startLine != -1`. -/
def pushOpen (txs : List Transaction) (cur : Transaction) : List Transaction :=
  if cur.startLine ≠ -1 then txs ++ [cur] else txs

/-- The body of the `while (std::getline …)` loop of `parseTransactions`, run
over the remaining lines with the loop state `lineNum`, `currentTransaction`,
`transactions`; at the end the open transaction is pushed. -/
def parseLoop : List Str → Nat → Transaction → List Transaction → List Transaction
  | [], _, cur, txs => pushOpen txs cur
  | line :: rest, lineNum, cur, txs =>
    let trimmedLine := trim line
    if trimmedLine = [] then parseLoop rest (lineNum + 1) cur txs
    else
      match matchHeader trimmedLine with
      | some g => parseLoop rest (lineNum + 1) (newTransaction lineNum g) (pushOpen txs cur)
      | none =>
        if (line.head?.map isspace).getD false then
          if cur.startLine = -1 then parseLoop rest (lineNum + 1) cur txs
          else if trimmedLine.head? = some ';' then parseLoop rest (lineNum + 1) cur txs
          else
            parseLoop rest (lineNum + 1)
              { cur with postings := cur.postings ++ [parsePosting trimmedLine] } txs
        else parseLoop rest (lineNum + 1) cur txs

/-- The function `LedgerManager::parseTransactions`. -/
def parseTransactions (content : Str) : List Transaction :=
  parseLoop (getlines content) 0 Transaction.default []

/-- The function `LedgerManager::getTransaction`. -/
def getTransaction (content : Str) (index : Int) : Except Exn Transaction :=
  let transactions := parseTransactions content
  if index < 0 ∨ index ≥ (transactions.length : Int) then .error .out_of_range
  else
    match transactions.get? index.toNat with
    | some t => .ok t
    | none => .error .out_of_range

/-! ## Formatter (`LedgerManager::formatTransaction`) -/

/-- The number of values of `size_t`. -/
def sizeModulus : Nat := 2 ^ 64

/-- The value `std::string::max_size()`. -/
def stringMaxSize : Nat := 2 ^ 62 - 1

/-- The expression `std::max<size_t>(2, 50 - posting.account.length())`, the
subtraction being unsigned. -/
def amountPadding (len : Nat) : Nat :=
  max 2 ((50 + sizeModulus - len % sizeModulus) % sizeModulus)

/-- The constructor `std::string(n, ' ')`, which throws `std::length_error`
above `max_size()`. -/
def spaces (n : Nat) : Except Exn Str :=
  if n > stringMaxSize then .error .length_error else .ok (List.replicate n ' ')

/-- The text appended to `result` for one posting. -/
def formatPosting (p : Posting) : Except Exn Str :=
  let tail : Str := (if p.comment ≠ [] then "  ; ".toList ++ p.comment else []) ++ ['\n']
  if p.amount ≠ [] then
    match spaces (amountPadding p.account.length) with
    | .error e => .error e
    | .ok pad => .ok ("  ".toList ++ p.account ++ (pad ++ p.amount) ++ tail)
  else .ok ("  ".toList ++ p.account ++ tail)

/-- The `for` loop over the postings. -/
def formatPostings : List Posting → Except Exn Str
  | [] => .ok []
  | p :: ps =>
    match formatPosting p with
    | .error e => .error e
    | .ok s =>
      match formatPostings ps with
      | .error e => .error e
      | .ok r => .ok (s ++ r)

/-- The header line `date + " " + marker + payee + "\n"`. -/
def formatHeader (t : Transaction) : Str :=
  t.date ++ " ".toList ++
    (if t.cleared then "* ".toList else if t.pending then "! ".toList else []) ++
    t.payee ++ ['\n']

/-- The function `LedgerManager::formatTransaction`. -/
def formatTransaction (t : Transaction) : Except Exn Str :=
  match formatPostings t.postings with
  | .error e => .error e
  | .ok body => .ok (formatHeader t ++ body)

/-! ## JSON payloads (`nlohmann::json`) -/

/-- A JSON value. -/
inductive Json where
  | null
  | bool (b : Bool)
  | num (n : Int)
  | str (s : Str)
  | arr (items : List Json)
  | obj (fields : List (Str × Json))

/-- The first value stored under `key` in a field list. -/
def lookupField (key : Str) : List (Str × Json) → Option Json
  | [] => none
  | (k, v) :: rest => if k = key then some v else lookupField key rest

/-- The member `find(key)`: the value under `key` of an object, `none` for a
missing key or a value that is not an object. -/
def Json.find (key : Str) : Json → Option Json
  | .obj fields => lookupField key fields
  | _ => none

/-- The member `contains(key)`. -/
def Json.contains (j : Json) (key : Str) : Bool := (j.find key).isSome

/-- The member `operator[](key)` on an object that contains `key`. -/
def Json.at (j : Json) (key : Str) : Json := (j.find key).getD .null

/-- The member `is_array()`. -/
def Json.isArray : Json → Bool
  | .arr _ => true
  | _ => false

/-- The member `empty()`. -/
def Json.empty : Json → Bool
  | .null => true
  | .arr items => items.isEmpty
  | .obj fields => fields.isEmpty
  | _ => false

/-- The elements visited by a range-`for` over the value. -/
def Json.elements : Json → List Json
  | .arr items => items
  | .obj fields => fields.map Prod.snd
  | .null => []
  | j => [j]

/-- The conversion `get<std::string>()`, a `type_error` unless a string. -/
def Json.getString : Json → Except Exn Str
  | .str s => .ok s
  | _ => .error .type_error

/-- The conversion `get<bool>()`, a `type_error` unless a boolean. -/
def Json.getBool : Json → Except Exn Bool
  | .bool b => .ok b
  | _ => .error .type_error

/-- The member `value(key, default)` with a string default. -/
def Json.valueString (j : Json) (key : Str) (dflt : Str) : Except Exn Str :=
  match j with
  | .obj fields =>
    match lookupField key fields with
    | some v => v.getString
    | none => .ok dflt
  | _ => .error .type_error

/-- The member `value(key, default)` with a boolean default. -/
def Json.valueBool (j : Json) (key : Str) (dflt : Bool) : Except Exn Bool :=
  match j with
  | .obj fields =>
    match lookupField key fields with
    | some v => v.getBool
    | none => .ok dflt
  | _ => .error .type_error

/-- The first check of `addTransaction` and `updateTransaction`: true when
`invalid_argument("… missing required fields")` is thrown. -/
def missingRequired (transactionData : Json) : Bool :=
  !transactionData.contains "date".toList || !transactionData.contains "payee".toList ||
  !transactionData.contains "postings".toList ||
  !(transactionData.at "postings".toList).isArray ||
  (transactionData.at "postings".toList).empty

/-- The body of the loop `for (const auto& postingData : …)`. -/
def readPosting (postingData : Json) : Except Exn Posting :=
  if !postingData.contains "account".toList then .error .invalid_argument
  else
    match (postingData.at "account".toList).getString with
    | .error e => .error e
    | .ok account =>
      match postingData.valueString "amount".toList [] with
      | .error e => .error e
      | .ok amount =>
        match postingData.valueString "comment".toList [] with
        | .error e => .error e
        | .ok comment => .ok { account := account, amount := amount, comment := comment }

/-- The loop over the postings of the payload; the first exception ends it. -/
def readPostings : List Json → Except Exn (List Posting)
  | [] => .ok []
  | pd :: rest =>
    match readPosting pd with
    | .error e => .error e
    | .ok p =>
      match readPostings rest with
      | .error e => .error e
      | .ok ps => .ok (p :: ps)

/-- The block "Create transaction object … Add postings" shared by
`addTransaction` and `updateTransaction`. -/
def readTransaction (transactionData : Json) : Except Exn Transaction :=
  match (transactionData.at "date".toList).getString with
  | .error e => .error e
  | .ok date =>
    match (transactionData.at "payee".toList).getString with
    | .error e => .error e
    | .ok payee =>
      match transactionData.valueBool "isCleared".toList false with
      | .error e => .error e
      | .ok cleared =>
        match readPostings (transactionData.at "postings".toList).elements with
        | .error e => .error e
        | .ok postings =>
          .ok { Transaction.default with
                date := date, payee := payee, cleared := cleared, postings := postings }

/-- The JSON object built for one posting. -/
def postingToJson (p : Posting) : Json :=
  .obj [("account".toList, .str p.account), ("amount".toList, .str p.amount),
        ("comment".toList, .str p.comment)]

/-- The JSON object built for one transaction. -/
def transactionToJson (t : Transaction) : Json :=
  .obj [("date".toList, .str t.date), ("cleared".toList, .bool t.cleared),
        ("pending".toList, .bool t.pending), ("payee".toList, .str t.payee),
        ("postings".toList, .arr (t.postings.map postingToJson))]

/-! ## The ledger file -/

/-- The part of the file system the manager touches: the ledger file (`none`
when it cannot be opened for reading), its `.bak` sibling, and whether
`copy_file` and the opening of the ledger for writing succeed. -/
structure FileSystem where
  ledger : Option Str
  backup : Option Str
  copyOk : Bool
  openOk : Bool

/-- The function `LedgerManager::parseLedgerFile`. -/
def parseLedgerFile (fs : FileSystem) : Except Exn Str :=
  match fs.ledger with
  | some content => .ok content
  | none => .error .runtime_error

/-- The function `LedgerManager::writeLedgerFile`: the new file system and the
value returned or exception thrown. -/
def writeLedgerFile (fs : FileSystem) (content : Str) : FileSystem × Except Exn Bool :=
  match fs.ledger with
  | none => (fs, .error .runtime_error)
  | some previous =>
    if fs.copyOk then
      let fs1 := { fs with backup := some previous }
      if fs.openOk then ({ fs1 with ledger := some content }, .ok true)
      else (fs1, .error .runtime_error)
    else (fs, .error .runtime_error)

/-! ## Read and write operations -/

/-- The function `LedgerManager::getAllTransactions` (the debug log apart). -/
def getAllTransactions (fs : FileSystem) (limit : Int) : Except Exn Json :=
  match parseLedgerFile fs with
  | .error e => .error e
  | .ok content =>
    let reversed := (parseTransactions content).reverse
    let transactions :=
      if limit > 0 ∧ limit < (reversed.length : Int) then reversed.take limit.toNat
      else reversed
    .ok (.arr (transactions.map transactionToJson))

/-- The element `transactions[i]` of the vector. -/
def nth (transactions : List Transaction) (i : Int) : Transaction :=
  transactions.getD i.toNat Transaction.default

/-- The variable `endLine` of `updateTransaction` and `deleteTransaction`. -/
def endLineOf (transactions : List Transaction) (index : Int) : Int :=
  if index < (transactions.length : Int) - 1 then (nth transactions (index + 1)).startLine - 1
  else -1

/-- The loop `for (int i = 0; i < startLine; i++) newContent += lines[i] + "\n"`. -/
def linesBefore (lines : List Str) (startLine : Int) : Str :=
  unlines (lines.take startLine.toNat)

/-- The loop `for (size_t i = endLine + 1; i < lines.size(); i++)
newContent += lines[i] + "\n"`. -/
def linesAfter (lines : List Str) (endLine : Int) : Str :=
  if endLine + 1 < 0 then [] else unlines (lines.drop (endLine + 1).toNat)

/-- The string `newContent` of `updateTransaction`. -/
def updateContent (content : Str) (transactions : List Transaction) (index : Int)
    (formattedTransaction : Str) : Str :=
  let startLine := (nth transactions index).startLine
  let endLine := endLineOf transactions index
  let lines := getlines content
  if endLine = -1 then linesBefore lines startLine ++ formattedTransaction
  else linesBefore lines startLine ++ formattedTransaction ++ linesAfter lines endLine

/-- The string `newContent` of `deleteTransaction`. -/
def deleteContent (content : Str) (transactions : List Transaction) (index : Int) : Str :=
  let startLine := (nth transactions index).startLine
  let endLine := endLineOf transactions index
  let lines := getlines content
  if endLine = -1 then linesBefore lines startLine
  else linesBefore lines startLine ++ linesAfter lines endLine

/-- The function `LedgerManager::addTransaction` (`updateReports` apart). -/
def addTransaction (fs : FileSystem) (transactionData : Json) : FileSystem × Except Exn Bool :=
  if missingRequired transactionData then (fs, .error .invalid_argument)
  else
    match readTransaction transactionData with
    | .error e => (fs, .error e)
    | .ok transaction =>
      match formatTransaction transaction with
      | .error e => (fs, .error e)
      | .ok formattedTransaction =>
        match parseLedgerFile fs with
        | .error e => (fs, .error e)
        | .ok content => writeLedgerFile fs (content ++ '\n' :: formattedTransaction)

/-- The function `LedgerManager::updateTransaction` (`updateReports` apart). -/
def updateTransaction (fs : FileSystem) (index : Int) (transactionData : Json) :
    FileSystem × Except Exn Bool :=
  if missingRequired transactionData then (fs, .error .invalid_argument)
  else
    match parseLedgerFile fs with
    | .error e => (fs, .error e)
    | .ok content =>
      let transactions := parseTransactions content
      if index < 0 ∨ index ≥ (transactions.length : Int) then (fs, .error .out_of_range)
      else
        match readTransaction transactionData with
        | .error e => (fs, .error e)
        | .ok transaction =>
          match formatTransaction transaction with
          | .error e => (fs, .error e)
          | .ok formattedTransaction =>
            writeLedgerFile fs (updateContent content transactions index formattedTransaction)

/-- The function `LedgerManager::deleteTransaction` (`updateReports` apart). -/
def deleteTransaction (fs : FileSystem) (index : Int) : FileSystem × Except Exn Bool :=
  match parseLedgerFile fs with
  | .error e => (fs, .error e)
  | .ok content =>
    let transactions := parseTransactions content
    if index < 0 ∨ index ≥ (transactions.length : Int) then (fs, .error .out_of_range)
    else writeLedgerFile fs (deleteContent content transactions index)

/-! ## Auxiliary notions used in the statements -/

/-- Whether a line starts a transaction: its trimmed text matches the header
pattern. -/
def isHeaderLine (line : Str) : Bool := (matchHeader (trim line)).isSome

/-- The value of `currentTransaction` after a line that is not a header. -/
def addLine (cur : Transaction) (line : Str) : Transaction :=
  if trim line = [] then cur
  else if (line.head?.map isspace).getD false then
    if cur.startLine = -1 then cur
    else if (trim line).head? = some ';' then cur
    else { cur with postings := cur.postings ++ [parsePosting (trim line)] }
  else cur

/-- The content of a transaction: every field but `startLine`. -/
def Transaction.body (t : Transaction) : Str × Bool × Bool × Str × List Posting :=
  (t.date, t.cleared, t.pending, t.payee, t.postings)

/-- The byte offset of the first byte of line `k` in a content whose lines are
`lines`. -/
def lineOffset (lines : List Str) (k : Nat) : Nat := (unlines (lines.take k)).length

/-- The content without the bytes at offsets `a ≤ · < b`. -/
def removeRange (content : Str) (a b : Nat) : Str := content.take a ++ content.drop b

/-- The final newline that rebuilding from lines adds to a non-empty content
that does not end with one. -/
def missingNewline (content : Str) : Str :=
  if content = [] ∨ content.getLast? = some '\n' then [] else ['\n']

/-- A ledger with two transactions, the first followed by a blank line. -/
def sampleLedger : Str :=
  "2024/01/01 * Grocery\n  Expenses:Food  $50\n  Assets:Checking\n\n2024/01/02 Rent\n  Expenses:Rent  $900\n  Assets:Checking\n".toList

/-- A file system holding `sampleLedger`, on which copying and writing succeed. -/
def sampleFs : FileSystem :=
  { ledger := some sampleLedger, backup := none, copyOk := true, openOk := true }

/-- A ledger with two transactions and no final newline. -/
def unterminatedLedger : Str := "2024/01/01 a\n2024/01/02 b".toList

/-- A write payload: groceries paid from the checking account. -/
def samplePayload : Json :=
  .obj [("date".toList, .str "2024/02/03".toList), ("payee".toList, .str "Market".toList),
        ("isCleared".toList, .bool true),
        ("postings".toList, .arr [
          .obj [("account".toList, .str "Expenses:Food".toList),
                ("amount".toList, .str "$12".toList)],
          .obj [("account".toList, .str "Assets:Checking".toList)]])]

/-- The transaction read from `samplePayload`. -/
def sampleTransaction : Transaction :=
  { startLine := -1, date := "2024/02/03".toList, cleared := true, pending := false,
    payee := "Market".toList,
    postings := [{ account := "Expenses:Food".toList, amount := "$12".toList, comment := [] },
                 { account := "Assets:Checking".toList, amount := [], comment := [] }] }

/-- The text `formatTransaction` gives for `sampleTransaction`. -/
def sampleFormatted : Str :=
  "2024/02/03 * Market\n  Expenses:Food                                     $12\n  Assets:Checking\n".toList

/-- A transaction whose first posting has an account of 51 characters. -/
def longAccountTransaction : Transaction :=
  { startLine := -1, date := "2024/02/03".toList, cleared := false, pending := false,
    payee := "Market".toList,
    postings := [{ account := List.replicate 51 'a', amount := "$1".toList, comment := [] }] }

/-- Whether a payload has a posting without `account`. -/
def hasPostingWithoutAccount (data : Json) : Bool :=
  (data.at "postings".toList).elements.any (fun p => !p.contains "account".toList)

/-- Whether the loop over the postings gets as far as a posting without
`account`: every posting before the first such one is read without exception. -/
def reachesMissingAccount : List Json → Bool
  | [] => false
  | pd :: rest =>
    if !pd.contains "account".toList then true
    else
      match readPosting pd with
      | .ok _ => reachesMissingAccount rest
      | .error _ => false

/-- Whether the fields read before the postings have the types the code
converts them to: `date` and `payee` strings, `isCleared` absent or a boolean. -/
def headerFieldsTyped (data : Json) : Bool :=
  (match (data.at "date".toList).getString with | .ok _ => true | .error _ => false) &&
  (match (data.at "payee".toList).getString with | .ok _ => true | .error _ => false) &&
  (match data.valueBool "isCleared".toList false with | .ok _ => true | .error _ => false)

/-- A payload whose second posting has no `account`. -/
def missingAccountPayload : Json :=
  .obj [("date".toList, .str "2024/02/03".toList), ("payee".toList, .str "Market".toList),
        ("postings".toList, .arr [
          .obj [("account".toList, .str "Expenses:Food".toList)],
          .obj [("amount".toList, .str "$12".toList)]])]

/-- A payload without `account` in its posting and with a `date` that is not a
string. -/
def untypedDatePayload : Json :=
  .obj [("date".toList, .num 20240203), ("payee".toList, .str "Market".toList),
        ("postings".toList, .arr [.obj [("amount".toList, .str "$12".toList)]])]

/-- The character classes of the date pattern `\d{4}/\d{2}/\d{2}`. -/
def dateClasses : List (Char → Bool) :=
  [isdigit, isdigit, isdigit, isdigit, (· == '/'), isdigit, isdigit, (· == '/'), isdigit, isdigit]

/-- Whether a string starts with one character of each class in turn. -/
def matchClasses : List (Char → Bool) → Str → Bool
  | [], _ => true
  | _ :: _, [] => false
  | p :: ps, c :: cs => p c && matchClasses ps cs

/-- No white space at either end of the string. -/
def noEdgeSpace (s : Str) : Bool :=
  !(s.head?.map isspace).getD false && !(s.getLast?.map isspace).getD false

/-- No two adjacent white-space characters in the string. -/
def noAdjacentSpaces : Str → Bool
  | [] => true
  | [_] => true
  | a :: b :: rest => !(isspace a && isspace b) && noAdjacentSpaces (b :: rest)

/-- A posting that survives formatting and re-parsing: the account is
non-empty, has no white space at its ends, no `$`, no line break, no two
adjacent white-space characters, does not begin with `;` or with a date, and has
at most 50 characters when an amount follows; the amount has no white space at
its ends, no `;` and no line break; the comment has no line break. -/
def wellFormedPosting (p : Posting) : Bool :=
  !p.account.isEmpty && noEdgeSpace p.account && !p.account.contains '$' &&
  !p.account.contains '\n' && noAdjacentSpaces p.account &&
  p.account.head? != some ';' && !matchDate p.account &&
  (p.amount.isEmpty || decide (p.account.length ≤ 50)) &&
  noEdgeSpace p.amount && !p.amount.contains ';' && !p.amount.contains '\n' &&
  !p.comment.contains '\n'

/-- A transaction that survives formatting and re-parsing: the date is
`dddd/dd/dd`, `cleared` and `pending` are not both set, the payee is non-empty,
has no white space at its ends, no line terminator (`\n`, `\r`), does not begin
with `*` or `!` when neither flag is set, and every posting is well formed. -/
def wellFormedTransaction (t : Transaction) : Bool :=
  decide (t.date.length = 10) && matchDate t.date && !(t.cleared && t.pending) &&
  !t.payee.isEmpty && noEdgeSpace t.payee && !t.payee.any isLineTerminator &&
  (t.cleared || t.pending || (t.payee.head? != some '*' && t.payee.head? != some '!')) &&
  t.postings.all wellFormedPosting

/-- A posting without its comment. -/
def Posting.stripComment (p : Posting) : Posting := { p with comment := [] }

/-- What parsing the formatted text of `t` at line `n` yields: `t` starting at
line `n`, its posting comments dropped. -/
def reparsed (n : Nat) (t : Transaction) : Transaction :=
  { t with startLine := (n : Int), postings := t.postings.map Posting.stripComment }

/-- The header line of a formatted transaction, without its newline. -/
def headerLine (t : Transaction) : Str :=
  t.date ++ " ".toList ++
    (if t.cleared then "* ".toList else if t.pending then "! ".toList else []) ++ t.payee

/-- The line of a formatted posting with a short account, without its newline. -/
def postingLine (p : Posting) : Str :=
  "  ".toList ++ p.account ++
    (if p.amount ≠ [] then List.replicate (max 2 (50 - p.account.length)) ' ' ++ p.amount
     else []) ++
    (if p.comment ≠ [] then "  ; ".toList ++ p.comment else [])

/-- The text from the split point with a trailing comment cut off: the string
`amount` of the parser before it is trimmed. -/
def cutComment (rest : Str) : Str :=
  match findChar ';' rest with
  | some commentPos => rest.take commentPos
  | none => rest

/-- What follows the account on a posting line. -/
def postingRest (p : Posting) : Str :=
  (if p.amount ≠ [] then List.replicate (max 2 (50 - p.account.length)) ' ' ++ p.amount
   else []) ++
  (if p.comment ≠ [] then "  ; ".toList ++ p.comment else [])

/-- A transaction with a well-formed date, one posting and an empty payee. -/
def emptyPayeeTransaction : Transaction :=
  { startLine := -1, date := "2024/01/01".toList, cleared := false, pending := false,
    payee := [], postings := [{ account := "A".toList, amount := [], comment := [] }] }

/-- A transaction with a well-formed date whose posting has a `$` in its
account. -/
def dollarAccountTransaction : Transaction :=
  { startLine := -1, date := "2024/01/01".toList, cleared := false, pending := false,
    payee := "Shop".toList,
    postings := [{ account := "Cash$".toList, amount := "5".toList, comment := [] }] }

/-- A payload that passes the validation and whose date is not `dddd/dd/dd`. -/
def badDatePayload : Json :=
  .obj [("date".toList, .str "tomorrow".toList), ("payee".toList, .str "Market".toList),
        ("postings".toList, .arr [
          .obj [("account".toList, .str "Expenses:Food".toList),
                ("amount".toList, .str "$12".toList)]])]

/-- The account and the amount of a posting. -/
def Posting.accountAmount (p : Posting) : Str × Str := (p.account, p.amount)

/-- The 0-based indices of the header lines among `lines`, in file order, the
first line of `lines` having index `n`. -/
def headerIndices : Nat → List Str → List Nat
  | _, [] => []
  | n, l :: ls =>
    if isHeaderLine l then n :: headerIndices (n + 1) ls else headerIndices (n + 1) ls

/-- The split rule as the specification words it: the position of the first
pair of adjacent white-space characters of the text, if there is one. -/
def specFirstSpaceRun : Str → Option Nat
  | [] => none
  | [_] => none
  | a :: b :: rest =>
    if isspace a && isspace b then some 0 else (specFirstSpaceRun (b :: rest)).map (· + 1)

/-- The split rule as the specification words it: with `d` the position of the
first `$` and `w` the position of the first pair of adjacent white-space
characters, the split point is `d` if `d` exists and `w` does not exist or
`d < w`, else `w` if `w` exists. -/
def specSplitPoint (s : Str) : Option Nat :=
  match findChar '$' s, specFirstSpaceRun s with
  | some d, none => some d
  | some d, some w => if d < w then some d else some w
  | none, some w => some w
  | none, none => none

/-- The split rule as the specification words it: with a split point `p` the
account is `trim(s[0..p))` and the amount is `trim` of `s[p..]` cut before its
first `;`; without split point the account is `s` and the amount is empty. -/
def specPosting (s : Str) : Posting :=
  match specSplitPoint s with
  | some p =>
    { account := trim (s.take p), amount := trim ((s.drop p).takeWhile (· != ';')),
      comment := [] }
  | none => { account := s, amount := [], comment := [] }

/-- A ledger whose only posting line has no account before the `$`. -/
def dollarFirstLedger : Str := "2024/01/01 Shop\n  $50\n".toList

/-- A transaction whose posting carries a comment. -/
def commentedTransaction : Transaction :=
  { startLine := -1, date := "2024/02/03".toList, cleared := false, pending := true,
    payee := "Market".toList,
    postings := [{ account := "Expenses:Food".toList, amount := "$12".toList,
                   comment := "weekly".toList }] }

/-- The conditions (4) to (6) of the round-trip claim on one posting, as
worded, a line break being `\n`: the account is non-empty, has at most 50
characters, no white space at its ends, no `$`, no two adjacent white-space
characters, no line break, and does not begin with `;` or with a date; the
amount has no white space at its ends, no `;` and no line break; the comment has
no line break. -/
def statedPostingConditions (p : Posting) : Bool :=
  !p.account.isEmpty && decide (p.account.length ≤ 50) && noEdgeSpace p.account &&
  !p.account.contains '$' && noAdjacentSpaces p.account && !p.account.contains '\n' &&
  p.account.head? != some ';' && !matchDate p.account &&
  noEdgeSpace p.amount && !p.amount.contains ';' && !p.amount.contains '\n' &&
  !p.comment.contains '\n'

/-- The conditions (1) to (6) of the round-trip claim, as worded, a line break
being `\n`: the date has the form `dddd/dd/dd`; `cleared` and `pending` are not
both set; the payee is non-empty, has no white space at its ends, no line break,
and does not begin with `*` or `!` when neither flag is set; every posting
satisfies `statedPostingConditions`. -/
def statedConditions (t : Transaction) : Bool :=
  decide (t.date.length = 10) && matchDate t.date && !(t.cleared && t.pending) &&
  !t.payee.isEmpty && noEdgeSpace t.payee && !t.payee.contains '\n' &&
  (t.cleared || t.pending || (t.payee.head? != some '*' && t.payee.head? != some '!')) &&
  t.postings.all statedPostingConditions

/-- A transaction whose payee has a carriage return between two letters. -/
def carriageReturnTransaction : Transaction :=
  { startLine := -1, date := "2024/01/01".toList, cleared := false, pending := false,
    payee := "A\rB".toList,
    postings := [{ account := "Cash".toList, amount := "5".toList, comment := [] }] }

/-- The body `newContent += lines[i] + "\n"` run for `count` successive values
of `i` from `i` on, every element access `lines[i]` being checked: `none` as
soon as an access is out of bounds. -/
def copyLinesChecked (lines : List Str) (i : Nat) : Nat → Option Str
  | 0 => some []
  | count + 1 =>
    match lines[i]? with
    | none => none
    | some l => (copyLinesChecked lines (i + 1) count).map (fun r => l ++ '\n' :: r)

/-- The loop `for (int i = 0; i < startLine; i++) newContent += lines[i] + "\n"`
with checked accesses. -/
def linesBeforeChecked (lines : List Str) (startLine : Int) : Option Str :=
  copyLinesChecked lines 0 startLine.toNat

/-- The loop `for (size_t i = endLine + 1; i < lines.size(); i++)
newContent += lines[i] + "\n"` with checked accesses. -/
def linesAfterChecked (lines : List Str) (endLine : Int) : Option Str :=
  if endLine + 1 < 0 then some []
  else copyLinesChecked lines (endLine + 1).toNat (lines.length - (endLine + 1).toNat)

/-! ## HTTP surface (`api_handler.cpp`) -/

/-- What a handler writes as the body of a response: nothing, `x.dump()` of a
JSON value, a JSON object holding a literal message, the object holding
`e.what()` of a caught exception, or the object holding `"Invalid JSON: "`
followed by the message of a caught `json::exception`. -/
inductive Body where
  | empty
  | json (j : Json)
  | message (text : Str)
  | what (e : Exn)
  | invalidJson

/-- A `crow::response`: status code, body and headers. -/
structure Response where
  code : Nat
  body : Body
  headers : List (Str × Str)

/-- The member `set_header(key, value)`: the header replaces any header of the
same key. -/
def Response.setHeader (res : Response) (key value : Str) : Response :=
  { res with headers := res.headers.filter (fun kv => kv.1 != key) ++ [(key, value)] }

/-- The value of the header `key`, if the response has one. -/
def Response.header (res : Response) (key : Str) : Option Str :=
  (res.headers.find? (fun kv => kv.1 == key)).map Prod.snd

/-- The function `ApiHandler::setCorsHeaders`. -/
def setCorsHeaders (res : Response) : Response :=
  ((res.setHeader "Access-Control-Allow-Origin".toList "*".toList).setHeader
      "Access-Control-Allow-Methods".toList "GET, POST, PUT, DELETE, OPTIONS".toList).setHeader
    "Access-Control-Allow-Headers".toList
    "X-Requested-With, Content-Type, Accept, Authorization".toList

/-- Whether a response carries the three CORS headers with the values
`setCorsHeaders` gives them. -/
def hasCors (res : Response) : Bool :=
  res.header "Access-Control-Allow-Origin".toList == some "*".toList &&
  res.header "Access-Control-Allow-Methods".toList ==
    some "GET, POST, PUT, DELETE, OPTIONS".toList &&
  res.header "Access-Control-Allow-Headers".toList ==
    some "X-Requested-With, Content-Type, Accept, Authorization".toList

/-- The tail common to the handlers: `Content-Type: application/json`, then the
CORS headers. -/
def jsonResponse (code : Nat) (body : Body) : Response :=
  setCorsHeaders
    (({ code := code, body := body, headers := [] } : Response).setHeader
      "Content-Type".toList "application/json".toList)

/-- The function `ApiHandler::getTransaction`; an exception of the manager
propagates. -/
def ApiHandler.getTransaction (fs : FileSystem) (index : Int) : Except Exn Response :=
  match parseLedgerFile fs with
  | .error e => .error e
  | .ok content =>
    match Ledger.getTransaction content index with
    | .error e => .error e
    | .ok transaction => .ok (jsonResponse 200 (.json (transactionToJson transaction)))

/-- The function `ApiHandler::getTransactions`, `limit` being the value read
from the query (0 when absent or not a number). -/
def ApiHandler.getTransactions (fs : FileSystem) (limit : Int) : Except Exn Response :=
  match getAllTransactions fs limit with
  | .error e => .error e
  | .ok transactionsData => .ok (jsonResponse 200 (.json transactionsData))

/-- The function `ApiHandler::addTransaction`; `body` is the JSON value the
request body parses to, `none` when `json::parse` throws. A `json::exception`
(here `type_error`) thrown by the manager is caught as well; other exceptions
propagate. -/
def ApiHandler.addTransaction (fs : FileSystem) (body : Option Json) :
    FileSystem × Except Exn Response :=
  match body with
  | none => (fs, .ok (jsonResponse 400 .invalidJson))
  | some jsonData =>
    match Ledger.addTransaction fs jsonData with
    | (fs1, .ok true) =>
      (fs1, .ok (jsonResponse 201 (.message "Transaction added successfully".toList)))
    | (fs1, .ok false) =>
      (fs1, .ok (jsonResponse 500 (.message "Failed to add transaction".toList)))
    | (fs1, .error e) =>
      if e = .type_error then (fs1, .ok (jsonResponse 400 .invalidJson)) else (fs1, .error e)

/-- The function `ApiHandler::updateTransaction`. -/
def ApiHandler.updateTransaction (fs : FileSystem) (index : Int) (body : Option Json) :
    FileSystem × Except Exn Response :=
  match body with
  | none => (fs, .ok (jsonResponse 400 .invalidJson))
  | some jsonData =>
    match Ledger.updateTransaction fs index jsonData with
    | (fs1, .ok true) =>
      (fs1, .ok (jsonResponse 200 (.message "Transaction updated successfully".toList)))
    | (fs1, .ok false) =>
      (fs1, .ok (jsonResponse 500 (.message "Failed to update transaction".toList)))
    | (fs1, .error e) =>
      if e = .type_error then (fs1, .ok (jsonResponse 400 .invalidJson)) else (fs1, .error e)

/-- The function `ApiHandler::deleteTransaction`. -/
def ApiHandler.deleteTransaction (fs : FileSystem) (index : Int) :
    FileSystem × Except Exn Response :=
  match Ledger.deleteTransaction fs index with
  | (fs1, .ok true) =>
    (fs1, .ok (jsonResponse 200 (.message "Transaction deleted successfully".toList)))
  | (fs1, .ok false) =>
    (fs1, .ok (jsonResponse 500 (.message "Failed to delete transaction".toList)))
  | (fs1, .error e) => (fs1, .error e)

/-- The response `res(404)` with the body "Transaction not found" built in the
`catch` blocks of `initRoutes`. -/
def notFoundResponse : Response :=
  { code := 404, body := .message "Transaction not found".toList, headers := [] }

/-- The response `res(code)` with the body holding `e.what()` built in the
`catch` blocks of `initRoutes`. -/
def caughtResponse (code : Nat) (e : Exn) : Response :=
  { code := code, body := .what e, headers := [] }

/-- The route `GET /api/transactions/<int>` of `initRoutes`. -/
def routeGetTransaction (fs : FileSystem) (index : Int) : Response :=
  match ApiHandler.getTransaction fs index with
  | .ok res => res
  | .error e => if e = .out_of_range then notFoundResponse else caughtResponse 500 e

/-- The route `GET /api/transactions` of `initRoutes`. -/
def routeGetTransactions (fs : FileSystem) (limit : Int) : Response :=
  match ApiHandler.getTransactions fs limit with
  | .ok res => res
  | .error e => caughtResponse 500 e

/-- The route `POST /api/transactions` of `initRoutes`. -/
def routePostTransaction (fs : FileSystem) (body : Option Json) : FileSystem × Response :=
  match ApiHandler.addTransaction fs body with
  | (fs1, .ok res) => (fs1, res)
  | (fs1, .error e) =>
    if e = .invalid_argument then (fs1, caughtResponse 400 e) else (fs1, caughtResponse 500 e)

/-- The route `PUT /api/transactions/<int>` of `initRoutes`. -/
def routePutTransaction (fs : FileSystem) (index : Int) (body : Option Json) :
    FileSystem × Response :=
  match ApiHandler.updateTransaction fs index body with
  | (fs1, .ok res) => (fs1, res)
  | (fs1, .error e) =>
    if e = .out_of_range then (fs1, notFoundResponse)
    else if e = .invalid_argument then (fs1, caughtResponse 400 e)
    else (fs1, caughtResponse 500 e)

/-- The route `DELETE /api/transactions/<int>` of `initRoutes`. -/
def routeDeleteTransaction (fs : FileSystem) (index : Int) : FileSystem × Response :=
  match ApiHandler.deleteTransaction fs index with
  | (fs1, .ok res) => (fs1, res)
  | (fs1, .error e) =>
    if e = .out_of_range then (fs1, notFoundResponse) else (fs1, caughtResponse 500 e)

/-- The seven report routes of `initRoutes` (`/api/summary`, `/api/accounts`,
`/api/balance`, `/api/register`, `/api/budget`, `/api/cleared`), given what the
report function of the manager returns or throws. -/
def routeReport (report : Except Exn Json) : Response :=
  match report with
  | .ok data => jsonResponse 200 (.json data)
  | .error e => caughtResponse 500 e

/-- The route `OPTIONS /api/<path>` of `initRoutes`. -/
def routeOptions : Response :=
  setCorsHeaders { code := 200, body := .empty, headers := [] }

/-- A payload without `postings`. -/
def noPostingsPayload : Json :=
  .obj [("date".toList, .str "2024/02/03".toList), ("payee".toList, .str "Market".toList)]

/-! ## Report adapter (`LedgerManager::serializeAccountData`) -/

/-- The call `line.find_first_not_of(" ")`: the position of the first
character that is not a space, `none` for `npos`. -/
def findFirstNotSpace : Str → Option Nat
  | [] => none
  | c :: cs => if c = ' ' then (findFirstNotSpace cs).map (· + 1) else some 0

/-- The expression `firstNonSpace > 0 ? static_cast<int>(firstNonSpace) / 2 : 0`
(lines being shorter than `2 ^ 31`; `npos` is positive and casts to `-1`; the
division truncates). -/
def indentLevel (firstNonSpace : Option Nat) : Int :=
  match firstNonSpace with
  | some n => if n > 0 then Int.tdiv (n : Int) 2 else 0
  | none => Int.tdiv (-1) 2

/-- The call `boost::split(parts, s, pred, boost::token_compress_on)`: the
tokens between the characters that satisfy `pred`, adjacent such characters
counting as one separator; the flag tells whether the previous character was a
separator. -/
def splitCompressed (pred : Char → Bool) : Bool → Str → List Str
  | _, [] => [[]]
  | afterSeparator, c :: cs =>
    if pred c then
      if afterSeparator then splitCompressed pred true cs
      else [] :: splitCompressed pred true cs
    else
      match splitCompressed pred false cs with
      | [] => [[c]]
      | t :: ts => (c :: t) :: ts

/-- The predicate `boost::is_any_of("  ")`: membership in the set of the
characters of the string, here the space alone. -/
def isAnyOfTwoSpaces (c : Char) : Bool := "  ".toList.contains c

/-- One element of the array built by `serializeAccountData`. -/
structure AccountItem where
  amount : Str
  account : Str
  level : Int
deriving DecidableEq, Repr

/-- The body of the loop of `serializeAccountData` for one line: the item
pushed, if any. -/
def serializeLine (line : Str) : Option AccountItem :=
  let line := trim line
  if line = [] then none
  else
    let level := indentLevel (findFirstNotSpace line)
    match splitCompressed isAnyOfTwoSpaces false line with
    | p0 :: p1 :: _ => some { amount := trim p0, account := trim p1, level := level }
    | _ => none

/-- The items pushed by `serializeAccountData`, in order. -/
def serializeAccountItems (ledgerOutput : Str) : List AccountItem :=
  (getlines ledgerOutput).filterMap serializeLine

/-- The JSON object built for one item. -/
def accountItemToJson (item : AccountItem) : Json :=
  .obj [("amount".toList, .str item.amount), ("account".toList, .str item.account),
        ("level".toList, .num item.level)]

/-- The function `LedgerManager::serializeAccountData`. -/
def serializeAccountData (ledgerOutput : Str) : Json :=
  .arr ((serializeAccountItems ledgerOutput).map accountItemToJson)

/-- The number of leading spaces of a line. -/
def leadingSpaces (line : Str) : Nat := (line.takeWhile (· == ' ')).length

/-- A balance-report line with four leading spaces, two spaces between amount
and account, and one space inside the account name. -/
def indentedReportLine : Str := "    $50  Assets:My Bank".toList

/-- An indented line whose trimmed text matches the header pattern. -/
def indentedHeaderLine : Str := "  2024/01/02 Rent".toList

/-- An indented line of white space only. -/
def indentedBlankLine : Str := "   ".toList

/-- An open transaction without posting, started at line 0. -/
def openTransaction : Transaction :=
  newTransaction 0 ("2024/01/01".toList, ['*'], "Grocery".toList)

/-! ## Lines -/

theorem unlines_append (a b : List Str) : unlines (a ++ b) = unlines a ++ unlines b := by
  induction a with
  | nil => rfl
  | cons l ls ih => simp [unlines, ih]

theorem getlines_line (l rest : Str) (hl : '\n' ∉ l) :
    getlines (l ++ '\n' :: rest) = l :: getlines rest := by
  induction l with
  | nil => simp [getlines]
  | cons c cs ih =>
    have hc : c ≠ '\n' := fun h => hl (by simp [h])
    have hcs : '\n' ∉ cs := fun h => hl (by simp [h])
    simp [getlines, hc, ih hcs]

theorem getlines_unlines_append (ls : List Str) (rest : Str) (h : ∀ l ∈ ls, '\n' ∉ l) :
    getlines (unlines ls ++ rest) = ls ++ getlines rest := by
  induction ls with
  | nil => rfl
  | cons l ls ih =>
    have h1 : '\n' ∉ l := h l (by simp)
    have h2 : ∀ x ∈ ls, '\n' ∉ x := fun x hx => h x (by simp [hx])
    simp only [unlines, List.append_assoc, List.cons_append]
    rw [getlines_line l _ h1, ih h2]

theorem getlines_unlines (ls : List Str) (h : ∀ l ∈ ls, '\n' ∉ l) :
    getlines (unlines ls) = ls := by
  have := getlines_unlines_append ls [] h
  simpa [getlines] using this

theorem getlines_no_newline (s : Str) : ∀ l ∈ getlines s, '\n' ∉ l := by
  induction s with
  | nil => simp [getlines]
  | cons c cs ih =>
    intro l hl
    by_cases hc : c = '\n'
    · simp only [getlines, hc, if_true, List.mem_cons] at hl
      rcases hl with rfl | hl
      · simp
      · exact ih l hl
    · simp only [getlines, hc, if_false] at hl
      cases hg : getlines cs with
      | nil =>
        simp only [hg, List.mem_singleton] at hl
        subst hl
        simpa using fun h => hc h.symm
      | cons x xs =>
        simp only [hg, List.mem_cons] at hl
        rw [hg] at ih
        rcases hl with rfl | hl
        · have hx := ih x (by simp)
          intro hmem
          rcases List.mem_cons.mp hmem with h | h
          · exact hc h.symm
          · exact hx h
        · exact ih l (by simp [hl])

/-- Re-joining the lines gives the content back, with a final `\n` added when
the content is non-empty and does not end with one. -/
theorem unlines_getlines (s : Str) :
    unlines (getlines s) = if s = [] ∨ s.getLast? = some '\n' then s else s ++ ['\n'] := by
  induction s with
  | nil => simp [getlines, unlines]
  | cons c cs ih =>
    by_cases hc : c = '\n'
    · subst hc
      simp only [getlines, if_true, unlines, List.nil_append, ih]
      cases cs with
      | nil => simp
      | cons d ds =>
        by_cases h : (d :: ds).getLast? = some '\n' <;> simp [h, List.getLast?_cons_cons]
    · simp only [getlines, hc, if_false]
      cases hg : getlines cs with
      | nil =>
        cases cs with
        | nil => simp [unlines, hc]
        | cons d ds =>
          exfalso
          by_cases hd : d = '\n'
          · simp [getlines, hd] at hg
          · simp only [getlines, hd, if_false] at hg
            split at hg <;> simp at hg
      | cons x xs =>
        rw [hg] at ih
        simp only [unlines, List.cons_append] at ih ⊢
        rw [ih]
        cases cs with
        | nil => simp [getlines] at hg
        | cons d ds =>
        by_cases h : (d :: ds).getLast? = some '\n' <;> simp [h, List.getLast?_cons_cons]

/-! ## Structure of the parsing loop -/

theorem matchHeader_nil : matchHeader [] = none := by
  simp [matchHeader, matchDate]

theorem parseLoop_cons_header (line : Str) (rest : List Str) (n : Nat) (cur : Transaction)
    (txs : List Transaction) (g : Str × Str × Str) (h : matchHeader (trim line) = some g) :
    parseLoop (line :: rest) n cur txs =
      parseLoop rest (n + 1) (newTransaction n g) (pushOpen txs cur) := by
  have hne : trim line ≠ [] := by
    intro h0
    rw [h0, matchHeader_nil] at h
    cases h
  simp [parseLoop, hne, h]

theorem parseLoop_cons_other (line : Str) (rest : List Str) (n : Nat) (cur : Transaction)
    (txs : List Transaction) (h : matchHeader (trim line) = none) :
    parseLoop (line :: rest) n cur txs = parseLoop rest (n + 1) (addLine cur line) txs := by
  unfold addLine
  by_cases h0 : trim line = []
  · simp [parseLoop, h0]
  · simp only [parseLoop, h0, h, if_false]
    split
    · split
      · rfl
      · split <;> rfl
    · rfl

theorem isHeaderLine_iff (line : Str) :
    isHeaderLine line = true ↔ ∃ g, matchHeader (trim line) = some g := by
  simp [isHeaderLine, Option.isSome_iff_exists]

theorem isHeaderLine_false (line : Str) :
    isHeaderLine line = false ↔ matchHeader (trim line) = none := by
  simp [isHeaderLine]

theorem addLine_startLine (cur : Transaction) (line : Str) :
    (addLine cur line).startLine = cur.startLine := by
  unfold addLine
  split
  · rfl
  · split
    · split
      · rfl
      · split <;> rfl
    · rfl

theorem pushOpen_eq_append (txs : List Transaction) (cur : Transaction) :
    pushOpen txs cur = txs ++ pushOpen [] cur := by
  unfold pushOpen
  split <;> simp

theorem pushOpen_default : pushOpen [] Transaction.default = [] := by
  simp [pushOpen, Transaction.default]

theorem pushOpen_newTransaction (n : Nat) (g : Str × Str × Str) :
    pushOpen [] (newTransaction n g) = [newTransaction n g] := by
  have : ((n : Int) ≠ -1) := by omega
  simp [pushOpen, newTransaction, this]

/-- The vector `transactions` only grows: the loop started with `txs` yields
`txs` followed by what it yields started with the empty vector. -/
theorem parseLoop_acc (lines : List Str) (n : Nat) (cur : Transaction) (txs : List Transaction) :
    parseLoop lines n cur txs = txs ++ parseLoop lines n cur [] := by
  induction lines generalizing n cur txs with
  | nil => simpa [parseLoop] using pushOpen_eq_append txs cur
  | cons l ls ih =>
    cases h : matchHeader (trim l) with
    | none => rw [parseLoop_cons_other _ _ _ _ _ h, parseLoop_cons_other _ _ _ _ _ h, ih]
    | some g =>
      rw [parseLoop_cons_header _ _ _ _ _ g h, parseLoop_cons_header _ _ _ _ _ g h, ih,
        ih (n + 1) _ (pushOpen [] cur), pushOpen_eq_append txs cur, List.append_assoc]

/-- Parsing splits at a header line: the lines before it and the lines from it
on are parsed independently. -/
theorem parseLoop_append (a b : List Str) (n : Nat) (cur : Transaction)
    (hb : b = [] ∨ ∃ h t, b = h :: t ∧ isHeaderLine h = true) :
    parseLoop (a ++ b) n cur [] =
      parseLoop a n cur [] ++ parseLoop b (n + a.length) Transaction.default [] := by
  induction a generalizing n cur with
  | nil =>
    rcases hb with rfl | ⟨h, t, rfl, hh⟩
    · simp [parseLoop, pushOpen_default]
    · obtain ⟨g, hg⟩ := (isHeaderLine_iff h).mp hh
      simp only [List.nil_append, List.length_nil, Nat.add_zero]
      rw [parseLoop_cons_header _ _ _ _ _ g hg, parseLoop_cons_header _ _ _ _ _ g hg,
        pushOpen_default, parseLoop_acc]
      simp [parseLoop]
  | cons l ls ih =>
    have hlen : n + (l :: ls).length = n + 1 + ls.length := by simp; omega
    rw [hlen]
    cases h : matchHeader (trim l) with
    | none =>
      rw [List.cons_append, parseLoop_cons_other _ _ _ _ _ h, parseLoop_cons_other _ _ _ _ _ h, ih]
    | some g =>
      rw [List.cons_append, parseLoop_cons_header _ _ _ _ _ g h,
        parseLoop_cons_header _ _ _ _ _ g h, parseLoop_acc, ih,
        parseLoop_acc ls (n + 1) _ (pushOpen [] cur), List.append_assoc]

theorem addLine_body (c1 c2 : Transaction) (line : Str) (hb : c1.body = c2.body)
    (ho : c1.startLine = -1 ↔ c2.startLine = -1) :
    (addLine c1 line).body = (addLine c2 line).body := by
  simp only [Transaction.body, Prod.mk.injEq] at hb
  obtain ⟨h1, h2, h3, h4, h5⟩ := hb
  unfold addLine
  by_cases ht : trim line = []
  · simp [ht, Transaction.body, h1, h2, h3, h4, h5]
  · by_cases hs : (line.head?.map isspace).getD false = true
    · by_cases hc : c1.startLine = -1
      · have hc2 := ho.mp hc
        simp [ht, hs, hc, hc2, Transaction.body, h1, h2, h3, h4, h5]
      · have hc2 : ¬ c2.startLine = -1 := fun h => hc (ho.mpr h)
        by_cases hsemi : (trim line).head? = some ';'
        · simp [ht, hs, hc, hc2, hsemi, Transaction.body, h1, h2, h3, h4, h5]
        · simp [ht, hs, hc, hc2, hsemi, Transaction.body, h1, h2, h3, h4, h5]
    · simp [ht, hs, Transaction.body, h1, h2, h3, h4, h5]

/-- The contents of the parsed transactions do not depend on the line number
at which the loop starts. -/
theorem parseLoop_body (lines : List Str) (n m : Nat) (c1 c2 : Transaction)
    (hb : c1.body = c2.body) (ho : c1.startLine = -1 ↔ c2.startLine = -1) :
    (parseLoop lines n c1 []).map Transaction.body =
      (parseLoop lines m c2 []).map Transaction.body := by
  induction lines generalizing n m c1 c2 with
  | nil =>
    by_cases hc : c1.startLine = -1
    · have hc2 := ho.mp hc
      simp [parseLoop, pushOpen, hc, hc2]
    · have hc2 : ¬ c2.startLine = -1 := fun h => hc (ho.mpr h)
      simp [parseLoop, pushOpen, hc, hc2, hb]
  | cons l ls ih =>
    cases h : matchHeader (trim l) with
    | none =>
      rw [parseLoop_cons_other _ _ _ _ _ h, parseLoop_cons_other _ _ _ _ _ h]
      apply ih
      · exact addLine_body c1 c2 l hb ho
      · rw [addLine_startLine, addLine_startLine]; exact ho
    | some g =>
      rw [parseLoop_cons_header _ _ _ _ _ g h, parseLoop_cons_header _ _ _ _ _ g h,
        parseLoop_acc, parseLoop_acc ls (m + 1)]
      simp only [List.map_append]
      congr 1
      · by_cases hc : c1.startLine = -1
        · have hc2 := ho.mp hc
          simp [pushOpen, hc, hc2]
        · have hc2 : ¬ c2.startLine = -1 := fun h => hc (ho.mpr h)
          simp [pushOpen, hc, hc2, hb]
      · apply ih
        · simp [newTransaction, Transaction.body]
        · simp only [newTransaction]; constructor <;> intro hx <;> omega

/-- What the loop yields: possibly the transaction that was open at its start
(same `startLine`), then transactions that start at or after line `n`. -/
theorem parseLoop_shape (lines : List Str) (n : Nat) (cur : Transaction) :
    ∃ c rest, parseLoop lines n cur [] = pushOpen [] c ++ rest ∧
      c.startLine = cur.startLine ∧ ∀ t ∈ rest, (n : Int) ≤ t.startLine := by
  induction lines generalizing n cur with
  | nil => exact ⟨cur, [], by simp [parseLoop], rfl, by simp⟩
  | cons l ls ih =>
    cases h : matchHeader (trim l) with
    | none =>
      obtain ⟨c, rest, h1, h2, h3⟩ := ih (n + 1) (addLine cur l)
      refine ⟨c, rest, ?_, ?_, ?_⟩
      · rw [parseLoop_cons_other _ _ _ _ _ h, h1]
      · rw [h2, addLine_startLine]
      · intro t ht
        have := h3 t ht
        push_cast at this
        omega
    | some g =>
      obtain ⟨c, rest, h1, h2, h3⟩ := ih (n + 1) (newTransaction n g)
      refine ⟨cur, pushOpen [] c ++ rest, ?_, rfl, ?_⟩
      · rw [parseLoop_cons_header _ _ _ _ _ g h, parseLoop_acc, h1]
      · intro t ht
        rcases List.mem_append.mp ht with ht | ht
        · have hc : c.startLine = (n : Int) := by rw [h2]; rfl
          unfold pushOpen at ht
          split at ht
          · simp only [List.nil_append, List.mem_singleton] at ht
            subst ht
            omega
          · simp at ht
        · have := h3 t ht
          push_cast at this
          omega

/-- Every transaction found by the loop (the one open at its start apart)
starts at a header line, and the lines before that header yield exactly the
transactions before it. -/
theorem parseLoop_index (lines : List Str) (n : Nat) (cur : Transaction) (i : Nat)
    (t : Transaction) (hcur : cur.startLine < (n : Int))
    (ht : (parseLoop lines n cur [])[i]? = some t) (hn : (n : Int) ≤ t.startLine) :
    ∃ k : Nat, t.startLine = ((n + k : Nat) : Int) ∧ k < lines.length ∧
      (∃ h, lines[k]? = some h ∧ isHeaderLine h = true) ∧
      (parseLoop (lines.take k) n cur []).length = i := by
  induction lines generalizing n cur i with
  | nil =>
    exfalso
    simp only [parseLoop, pushOpen] at ht
    split at ht
    · cases i with
      | zero =>
        simp only [List.nil_append, List.getElem?_cons_zero, Option.some.injEq] at ht
        subst ht
        omega
      | succ j => simp at ht
    · simp at ht
  | cons l ls ih =>
    cases h : matchHeader (trim l) with
    | none =>
      rw [parseLoop_cons_other _ _ _ _ _ h] at ht
      obtain ⟨c, rest, h1, h2, h3⟩ := parseLoop_shape ls (n + 1) (addLine cur l)
      have hcur1 : (addLine cur l).startLine < ((n + 1 : Nat) : Int) := by
        rw [addLine_startLine]; push_cast; omega
      have hn1 : ((n + 1 : Nat) : Int) ≤ t.startLine := by
        have hmem : t ∈ parseLoop ls (n + 1) (addLine cur l) [] := List.getElem?_mem ht
        rw [h1] at hmem
        rcases List.mem_append.mp hmem with hm | hm
        · exfalso
          unfold pushOpen at hm
          split at hm
          · simp only [List.nil_append, List.mem_singleton] at hm
            subst hm
            rw [addLine_startLine] at h2
            omega
          · simp at hm
        · exact h3 t hm
      obtain ⟨k, hk1, hk2, hk3, hk4⟩ := ih (n + 1) (addLine cur l) i hcur1 ht hn1
      refine ⟨k + 1, ?_, ?_, ?_, ?_⟩
      · rw [hk1]; push_cast; omega
      · simp; omega
      · simpa using hk3
      · rw [List.take_succ_cons, parseLoop_cons_other _ _ _ _ _ h]
        exact hk4
    | some g =>
      rw [parseLoop_cons_header _ _ _ _ _ g h, parseLoop_acc] at ht
      obtain ⟨c, rest, h1, h2, h3⟩ := parseLoop_shape ls (n + 1) (newTransaction n g)
      have hcn : c.startLine = (n : Int) := by rw [h2]; rfl
      have hpc : pushOpen [] c = [c] := by
        have : c.startLine ≠ -1 := by omega
        simp [pushOpen, this]
      by_cases hi : i < (pushOpen [] cur).length
      · exfalso
        rw [List.getElem?_append_left hi] at ht
        have hmem : t ∈ pushOpen [] cur := List.getElem?_mem ht
        unfold pushOpen at hmem
        split at hmem
        · simp only [List.nil_append, List.mem_singleton] at hmem
          subst hmem
          omega
        · simp at hmem
      · have hi2 : (pushOpen [] cur).length ≤ i := Nat.le_of_not_lt hi
        rw [List.getElem?_append_right hi2] at ht
        by_cases hj : i - (pushOpen [] cur).length = 0
        · refine ⟨0, ?_, by simp, ⟨l, by simp, (isHeaderLine_iff l).mpr ⟨g, h⟩⟩, ?_⟩
          · rw [hj, h1, hpc] at ht
            simp only [List.singleton_append, List.getElem?_cons_zero, Option.some.injEq] at ht
            subst ht
            simpa using hcn
          · simp only [List.take_zero, parseLoop]
            omega
        · have hn1 : ((n + 1 : Nat) : Int) ≤ t.startLine := by
            rw [h1, hpc] at ht
            obtain ⟨j, hjj⟩ : ∃ j, i - (pushOpen [] cur).length = j + 1 :=
              Nat.exists_eq_succ_of_ne_zero hj
            rw [hjj] at ht
            simp only [List.singleton_append, List.getElem?_cons_succ] at ht
            exact h3 t (List.getElem?_mem ht)
          have hcur1 : (newTransaction n g).startLine < ((n + 1 : Nat) : Int) := by
            simp only [newTransaction]; push_cast; omega
          obtain ⟨k, hk1, hk2, hk3, hk4⟩ := ih (n + 1) (newTransaction n g) _ hcur1 ht hn1
          refine ⟨k + 1, ?_, ?_, ?_, ?_⟩
          · rw [hk1]; push_cast; omega
          · simp; omega
          · simpa using hk3
          · rw [List.take_succ_cons, parseLoop_cons_header _ _ _ _ _ g h, parseLoop_acc,
              List.length_append, hk4]
            omega

/-- The `i`-th parsed transaction starts at a header line `k`; the lines before
`k` parse to the transactions before `i` and the lines from `k` on (numbered from
`k`) to the transactions from `i` on. -/
theorem parse_split_at (lines : List Str) (i : Nat) (t : Transaction)
    (ht : (parseLoop lines 0 Transaction.default [])[i]? = some t) :
    ∃ k : Nat, t.startLine = (k : Int) ∧ k < lines.length ∧
      (∃ h r, lines.drop k = h :: r ∧ isHeaderLine h = true) ∧
      parseLoop (lines.take k) 0 Transaction.default [] =
        (parseLoop lines 0 Transaction.default []).take i ∧
      parseLoop (lines.drop k) k Transaction.default [] =
        (parseLoop lines 0 Transaction.default []).drop i := by
  obtain ⟨c, rest, h1, h2, h3⟩ := parseLoop_shape lines 0 Transaction.default
  have hpc : pushOpen [] c = [] := by
    have : c.startLine = -1 := by rw [h2]; rfl
    simp [pushOpen, this]
  have hn : ((0 : Nat) : Int) ≤ t.startLine := by
    have hmem := List.getElem?_mem ht
    rw [h1, hpc] at hmem
    exact h3 t (by simpa using hmem)
  have hcur : Transaction.default.startLine < ((0 : Nat) : Int) := by
    simp [Transaction.default]
  obtain ⟨k, hk1, hk2, ⟨h, hk3, hk3b⟩, hk4⟩ :=
    parseLoop_index lines 0 Transaction.default i t hcur ht hn
  have hdrop : lines.drop k = h :: lines.drop (k + 1) := by
    rw [List.getElem?_eq_some_iff] at hk3
    obtain ⟨hlt, hget⟩ := hk3
    rw [← hget]
    exact List.drop_eq_getElem_cons hlt
  have hsplit := parseLoop_append (lines.take k) (lines.drop k) 0 Transaction.default
    (Or.inr ⟨h, _, hdrop, hk3b⟩)
  rw [List.take_append_drop] at hsplit
  have hlen : (lines.take k).length = k := by simp; omega
  rw [hlen, Nat.zero_add] at hsplit
  refine ⟨k, by simpa using hk1, hk2, ⟨h, _, hdrop, hk3b⟩, ?_, ?_⟩
  · rw [hsplit, ← hk4, List.take_left']
    rfl
  · rw [hsplit, ← hk4, List.drop_left']
    rfl

/-! ## Line positions used by the splice -/

theorem nth_natCast (txs : List Transaction) (i : Nat) (t : Transaction)
    (h : txs[i]? = some t) : nth txs (i : Int) = t := by
  simp [nth, List.getD, h]

theorem nth_natCast_succ (txs : List Transaction) (i : Nat) (t : Transaction)
    (h : txs[i + 1]? = some t) : nth txs ((i : Int) + 1) = t := by
  have : ((i : Int) + 1).toNat = i + 1 := by omega
  simp [nth, List.getD, this, h]

/-- The line range of the transaction at a valid index `i`: its header is line
`k = startLine`, and either it is the last transaction and `endLine` is `-1`, or
the next header is line `k2 > k` and `endLine = k2 - 1`. -/
theorem splice_positions (content : Str) (i : Nat)
    (hi : i < (parseTransactions content).length) :
    ∃ k : Nat, (nth (parseTransactions content) (i : Int)).startLine = (k : Int) ∧
      k < (getlines content).length ∧
      parseLoop ((getlines content).take k) 0 Transaction.default [] =
        (parseTransactions content).take i ∧
      ((i + 1 = (parseTransactions content).length ∧
          endLineOf (parseTransactions content) (i : Int) = -1) ∨
       (i + 1 < (parseTransactions content).length ∧
          ∃ k2 : Nat, (nth (parseTransactions content) ((i : Int) + 1)).startLine = (k2 : Int) ∧
            k < k2 ∧ k2 < (getlines content).length ∧
            endLineOf (parseTransactions content) (i : Int) = (k2 : Int) - 1 ∧
            (∃ h r, (getlines content).drop k2 = h :: r ∧ isHeaderLine h = true) ∧
            parseLoop ((getlines content).drop k2) k2 Transaction.default [] =
              (parseTransactions content).drop (i + 1))) := by
  obtain ⟨t, ht⟩ : ∃ t, (parseTransactions content)[i]? = some t :=
    ⟨_, List.getElem?_eq_getElem hi⟩
  obtain ⟨k, hk1, hk2, ⟨h, r, hk3, hk3b⟩, hk4, hk5⟩ := parse_split_at (getlines content) i t ht
  refine ⟨k, ?_, hk2, hk4, ?_⟩
  · rw [nth_natCast _ i t ht]; exact hk1
  · by_cases hlast : i + 1 = (parseTransactions content).length
    · left
      refine ⟨hlast, ?_⟩
      unfold endLineOf
      have : ¬ ((i : Int) < ((parseTransactions content).length : Int) - 1) := by omega
      simp [this]
    · right
      have hi2 : i + 1 < (parseTransactions content).length := by omega
      refine ⟨hi2, ?_⟩
      obtain ⟨t2, ht2⟩ : ∃ t2, (parseTransactions content)[i + 1]? = some t2 :=
        ⟨_, List.getElem?_eq_getElem hi2⟩
      obtain ⟨k2, hq1, hq2, hq3, _, hq5⟩ := parse_split_at (getlines content) (i + 1) t2 ht2
      have hlt : k < k2 := by
        obtain ⟨g, hg⟩ := (isHeaderLine_iff h).mp hk3b
        have hd : parseLoop (h :: r) k Transaction.default [] =
            (parseTransactions content).drop i := by rw [← hk3]; exact hk5
        rw [parseLoop_cons_header _ _ _ _ _ g hg, pushOpen_default] at hd
        obtain ⟨c, rest, h1, h2, h3⟩ := parseLoop_shape r (k + 1) (newTransaction k g)
        have hc : c.startLine = (k : Int) := by rw [h2]; rfl
        have hpc : pushOpen [] c = [c] := by
          have : c.startLine ≠ -1 := by omega
          simp [pushOpen, this]
        have hmem : t2 ∈ rest := by
          have h4 : ((parseTransactions content).drop i)[1]? = some t2 := by
            rw [List.getElem?_drop]; exact ht2
          rw [← hd, h1, hpc] at h4
          simp only [List.singleton_append, List.getElem?_cons_succ] at h4
          exact List.getElem?_mem h4
        have := h3 t2 hmem
        push_cast at this
        omega
      refine ⟨k2, ?_, hlt, hq2, ?_, hq3, hq5⟩
      · rw [nth_natCast_succ _ i t2 ht2]; exact hq1
      · unfold endLineOf
        have : (i : Int) < ((parseTransactions content).length : Int) - 1 := by omega
        simp only [this, if_true]
        rw [nth_natCast_succ _ i t2 ht2, hq1]

/-- The content computed by `deleteTransaction`, in terms of the two header
positions. -/
theorem deleteContent_eq (content : Str) (i : Nat)
    (hi : i < (parseTransactions content).length) :
    ∃ k : Nat, (nth (parseTransactions content) (i : Int)).startLine = (k : Int) ∧
      k < (getlines content).length ∧
      parseLoop ((getlines content).take k) 0 Transaction.default [] =
        (parseTransactions content).take i ∧
      ((i + 1 = (parseTransactions content).length ∧
          deleteContent content (parseTransactions content) (i : Int) =
            unlines ((getlines content).take k)) ∨
       (i + 1 < (parseTransactions content).length ∧
          ∃ k2 : Nat, (nth (parseTransactions content) ((i : Int) + 1)).startLine = (k2 : Int) ∧
            k < k2 ∧ k2 < (getlines content).length ∧
            deleteContent content (parseTransactions content) (i : Int) =
              unlines ((getlines content).take k) ++ unlines ((getlines content).drop k2) ∧
            (∃ h r, (getlines content).drop k2 = h :: r ∧ isHeaderLine h = true) ∧
            parseLoop ((getlines content).drop k2) k2 Transaction.default [] =
              (parseTransactions content).drop (i + 1))) := by
  obtain ⟨k, hk1, hk2, hk3, hk4⟩ := splice_positions content i hi
  refine ⟨k, hk1, hk2, hk3, ?_⟩
  rcases hk4 with ⟨hl, he⟩ | ⟨hl, k2, hq1, hq2, hq3, he, hq4, hq5⟩
  · left
    refine ⟨hl, ?_⟩
    simp [deleteContent, he, hk1, linesBefore]
  · right
    refine ⟨hl, k2, hq1, hq2, hq3, ?_, hq4, hq5⟩
    have hne : ¬ ((k2 : Int) - 1 = -1) := by omega
    have hnn : ¬ ((k2 : Int) - 1 + 1 < 0) := by omega
    simp [deleteContent, he, hk1, linesBefore, linesAfter, hne, hnn]

/-- The content computed by `updateTransaction`, in terms of the two header
positions. -/
theorem updateContent_eq (content : Str) (i : Nat) (f : Str)
    (hi : i < (parseTransactions content).length) :
    ∃ k : Nat, (nth (parseTransactions content) (i : Int)).startLine = (k : Int) ∧
      k < (getlines content).length ∧
      ((i + 1 = (parseTransactions content).length ∧
          updateContent content (parseTransactions content) (i : Int) f =
            unlines ((getlines content).take k) ++ f) ∨
       (i + 1 < (parseTransactions content).length ∧
          ∃ k2 : Nat, (nth (parseTransactions content) ((i : Int) + 1)).startLine = (k2 : Int) ∧
            k < k2 ∧ k2 < (getlines content).length ∧
            updateContent content (parseTransactions content) (i : Int) f =
              unlines ((getlines content).take k) ++ f ++
                unlines ((getlines content).drop k2))) := by
  obtain ⟨k, hk1, hk2, _, hk4⟩ := splice_positions content i hi
  refine ⟨k, hk1, hk2, ?_⟩
  rcases hk4 with ⟨hl, he⟩ | ⟨hl, k2, hq1, hq2, hq3, he, _, _⟩
  · left
    refine ⟨hl, ?_⟩
    simp [updateContent, he, hk1, linesBefore]
  · right
    refine ⟨hl, k2, hq1, hq2, hq3, ?_⟩
    have hne : ¬ ((k2 : Int) - 1 = -1) := by omega
    have hnn : ¬ ((k2 : Int) - 1 + 1 < 0) := by omega
    simp [updateContent, he, hk1, linesBefore, linesAfter, hne, hnn]

/-! ## Delete -/

theorem deleteTransaction_ok (fs : FileSystem) (content : Str) (index : Int)
    (hfs : fs.ledger = some content) (hc : fs.copyOk = true) (ho : fs.openOk = true)
    (h0 : 0 ≤ index) (h1 : index < ((parseTransactions content).length : Int)) :
    deleteTransaction fs index =
      ({ fs with backup := some content,
                 ledger := some (deleteContent content (parseTransactions content) index) },
        .ok true) := by
  have hr : ¬ (index < 0 ∨ index ≥ ((parseTransactions content).length : Int)) := by omega
  simp [deleteTransaction, parseLedgerFile, writeLedgerFile, hfs, hc, ho, hr]

theorem unlines_take_offset (content : Str) (k : Nat) (hk : k < (getlines content).length) :
    content.take (lineOffset (getlines content) k) = unlines ((getlines content).take k) ∧
    content.drop (lineOffset (getlines content) k) ++ missingNewline content =
      unlines ((getlines content).drop k) := by
  have hu : unlines ((getlines content).take k) ++ unlines ((getlines content).drop k) =
      content ++ missingNewline content := by
    rw [← unlines_append, List.take_append_drop, unlines_getlines]
    unfold missingNewline
    split <;> simp
  have hq : 1 ≤ (unlines ((getlines content).drop k)).length := by
    rw [List.drop_eq_getElem_cons hk]
    simp only [unlines, List.length_append, List.length_cons]
    omega
  have he : (missingNewline content).length ≤ 1 := by
    unfold missingNewline; split <;> simp
  have hlen := congrArg List.length hu
  simp only [List.length_append] at hlen
  have hp : lineOffset (getlines content) k ≤ content.length := by
    unfold lineOffset; omega
  constructor
  · have h1 := congrArg (List.take (lineOffset (getlines content) k)) hu
    rw [List.take_append_of_le_length hp] at h1
    rw [← h1]
    unfold lineOffset
    simp
  · have h1 := congrArg (List.drop (lineOffset (getlines content) k)) hu
    rw [List.drop_append_of_le_length hp] at h1
    rw [← h1]
    unfold lineOffset
    simp

/-- C2. Deleting the transaction at a valid index writes a content that
re-parses to the original transactions without that one, in order, each with
the same date, cleared, pending, payee and postings (so to exactly `N - 1`
transactions). -/
theorem delete_splice_reparse (fs : FileSystem) (content : Str) (index : Int)
    (hfs : fs.ledger = some content) (hc : fs.copyOk = true) (ho : fs.openOk = true)
    (h0 : 0 ≤ index) (h1 : index < ((parseTransactions content).length : Int)) :
    deleteTransaction fs index =
      ({ fs with backup := some content,
                 ledger := some (deleteContent content (parseTransactions content) index) },
        .ok true) ∧
    (parseTransactions (deleteContent content (parseTransactions content) index)).length =
      (parseTransactions content).length - 1 ∧
    (parseTransactions (deleteContent content (parseTransactions content) index)).map
        Transaction.body =
      ((parseTransactions content).eraseIdx index.toNat).map Transaction.body := by
  refine ⟨deleteTransaction_ok fs content index hfs hc ho h0 h1, ?_⟩
  obtain ⟨i, rfl⟩ := Int.eq_ofNat_of_zero_le h0
  have hi : i < (parseTransactions content).length := by omega
  have hmain : (parseTransactions (deleteContent content (parseTransactions content) i)).map
        Transaction.body =
      ((parseTransactions content).eraseIdx i).map Transaction.body := by
    obtain ⟨k, _, hk2, hk3, hk4⟩ := deleteContent_eq content i hi
    have hnl : ∀ l ∈ (getlines content).take k, '\n' ∉ l :=
      fun l hl => getlines_no_newline content l (List.mem_of_mem_take hl)
    rcases hk4 with ⟨hl, he⟩ | ⟨hl, k2, _, hq2, hq3, he, hq4, hq5⟩
    · rw [he]
      unfold parseTransactions
      rw [getlines_unlines _ hnl, hk3]
      have : (parseLoop (getlines content) 0 Transaction.default []).eraseIdx i =
          (parseLoop (getlines content) 0 Transaction.default []).take i := by
        rw [List.eraseIdx_eq_take_drop_succ, List.drop_eq_nil_of_le, List.append_nil]
        unfold parseTransactions at hl
        omega
      rw [this]
      rfl
    · rw [he]
      have hnl2 : ∀ l ∈ (getlines content).drop k2, '\n' ∉ l :=
        fun l hl => getlines_no_newline content l (List.mem_of_mem_drop hl)
      have hlines : getlines (unlines ((getlines content).take k) ++
          unlines ((getlines content).drop k2)) =
          (getlines content).take k ++ (getlines content).drop k2 := by
        rw [getlines_unlines_append _ _ hnl, getlines_unlines _ hnl2]
      unfold parseTransactions
      rw [hlines, parseLoop_append _ _ _ _ (Or.inr hq4), hk3, List.map_append,
        parseLoop_body ((getlines content).drop k2) _ k2 Transaction.default
          Transaction.default rfl Iff.rfl, hq5, List.eraseIdx_eq_take_drop_succ,
        List.map_append]
      rfl
  refine ⟨?_, by simpa using hmain⟩
  have := congrArg List.length hmain
  simp only [List.length_map, List.length_eraseIdx, hi, if_true] at this
  simpa using this

/-- Witness for C2: deleting the first transaction of `sampleLedger`. -/
theorem delete_splice_reparse_witness :
    deleteTransaction sampleFs 0 =
      ({ sampleFs with backup := some sampleLedger,
                       ledger := some (deleteContent sampleLedger
                         (parseTransactions sampleLedger) 0) },
        .ok true) ∧
    (parseTransactions (deleteContent sampleLedger (parseTransactions sampleLedger) 0)).length =
      (parseTransactions sampleLedger).length - 1 ∧
    (parseTransactions (deleteContent sampleLedger (parseTransactions sampleLedger) 0)).map
        Transaction.body =
      ((parseTransactions sampleLedger).eraseIdx (0 : Int).toNat).map Transaction.body :=
  delete_splice_reparse sampleFs sampleLedger 0 rfl rfl rfl (by decide) (by decide)

/-- C3, as stated, fails: deleting the first transaction of a ledger without a
final newline writes a content that is not the original with the byte range of
that transaction removed (a newline is added at the end). -/
theorem delete_not_byte_exact :
    (deleteTransaction
        { ledger := some unterminatedLedger, backup := none, copyOk := true, openOk := true }
        0).1.ledger = some "2024/01/02 b\n".toList ∧
    removeRange unterminatedLedger (lineOffset (getlines unterminatedLedger) 0)
        (lineOffset (getlines unterminatedLedger) 1) = "2024/01/02 b".toList ∧
    (deleteTransaction
        { ledger := some unterminatedLedger, backup := none, copyOk := true, openOk := true }
        0).1.ledger ≠
      some (removeRange unterminatedLedger (lineOffset (getlines unterminatedLedger) 0)
        (lineOffset (getlines unterminatedLedger) 1)) := by
  decide

/-- C3, amended. The content written by deleting the transaction at a valid
index is the original content with the bytes from the first byte of line
`startLine(i)` up to the first byte of the next header line removed (up to the
end of the file when `i` is the last transaction), followed, when `i` is not the
last transaction and the original content does not end with a newline, by one
added newline. -/
theorem delete_byte_range (fs : FileSystem) (content : Str) (index : Int)
    (hfs : fs.ledger = some content) (hc : fs.copyOk = true) (ho : fs.openOk = true)
    (h0 : 0 ≤ index) (h1 : index < ((parseTransactions content).length : Int)) :
    deleteTransaction fs index =
      ({ fs with backup := some content,
                 ledger := some (deleteContent content (parseTransactions content) index) },
        .ok true) ∧
    (index + 1 = ((parseTransactions content).length : Int) →
      deleteContent content (parseTransactions content) index =
        removeRange content
          (lineOffset (getlines content) (nth (parseTransactions content) index).startLine.toNat)
          content.length) ∧
    (index + 1 < ((parseTransactions content).length : Int) →
      deleteContent content (parseTransactions content) index =
        removeRange content
          (lineOffset (getlines content) (nth (parseTransactions content) index).startLine.toNat)
          (lineOffset (getlines content)
            (nth (parseTransactions content) (index + 1)).startLine.toNat) ++
        missingNewline content) := by
  refine ⟨deleteTransaction_ok fs content index hfs hc ho h0 h1, ?_⟩
  obtain ⟨i, rfl⟩ := Int.eq_ofNat_of_zero_le h0
  have hi : i < (parseTransactions content).length := by omega
  obtain ⟨k, hk1, hk2, _, hk4⟩ := deleteContent_eq content i hi
  have hkn : (nth (parseTransactions content) (i : Int)).startLine.toNat = k := by
    rw [hk1]; simp
  rw [hkn]
  obtain ⟨ht, _⟩ := unlines_take_offset content k hk2
  rcases hk4 with ⟨hl, he⟩ | ⟨hl, k2, hq1, _, hq3, he, _, _⟩
  · constructor
    · intro _
      rw [he, removeRange, ht]
      simp
    · intro hcontra
      exfalso; omega
  · constructor
    · intro hcontra
      exfalso; omega
    · intro _
      have hkn2 : (nth (parseTransactions content) ((i : Int) + 1)).startLine.toNat = k2 := by
        rw [hq1]; simp
      obtain ⟨_, hd⟩ := unlines_take_offset content k2 hq3
      rw [hkn2, he, removeRange, ht, ← hd, List.append_assoc]

/-- Witness for C3 (amended): deleting the first transaction of
`unterminatedLedger`. -/
theorem delete_byte_range_witness :
    deleteTransaction
        { ledger := some unterminatedLedger, backup := none, copyOk := true, openOk := true } 0 =
      ({ ledger := some (deleteContent unterminatedLedger
            (parseTransactions unterminatedLedger) 0),
         backup := some unterminatedLedger, copyOk := true, openOk := true },
        .ok true) ∧
    ((0 : Int) + 1 = ((parseTransactions unterminatedLedger).length : Int) →
      deleteContent unterminatedLedger (parseTransactions unterminatedLedger) 0 =
        removeRange unterminatedLedger
          (lineOffset (getlines unterminatedLedger)
            (nth (parseTransactions unterminatedLedger) 0).startLine.toNat)
          unterminatedLedger.length) ∧
    ((0 : Int) + 1 < ((parseTransactions unterminatedLedger).length : Int) →
      deleteContent unterminatedLedger (parseTransactions unterminatedLedger) 0 =
        removeRange unterminatedLedger
          (lineOffset (getlines unterminatedLedger)
            (nth (parseTransactions unterminatedLedger) 0).startLine.toNat)
          (lineOffset (getlines unterminatedLedger)
            (nth (parseTransactions unterminatedLedger) (0 + 1)).startLine.toNat) ++
        missingNewline unterminatedLedger) :=
  delete_byte_range
    { ledger := some unterminatedLedger, backup := none, copyOk := true, openOk := true }
    unterminatedLedger 0 rfl rfl rfl (by decide) (by decide)

/-! ## Update -/

theorem getlines_append_terminated (f rest : Str) (hf : f = [] ∨ f.getLast? = some '\n') :
    getlines (f ++ rest) = getlines f ++ getlines rest := by
  have h := unlines_getlines f
  rw [if_pos hf] at h
  conv_lhs => rw [← h]
  exact getlines_unlines_append _ _ (getlines_no_newline f)

theorem formatPosting_terminated (p : Posting) (s : Str) (h : formatPosting p = .ok s) :
    s.getLast? = some '\n' := by
  have key : ∀ x : Str, (x ++ ((if p.comment ≠ [] then "  ; ".toList ++ p.comment else []) ++
      ['\n'])).getLast? = some '\n' := by
    intro x
    simp [← List.append_assoc]
  unfold formatPosting at h
  by_cases ha : p.amount ≠ []
  · rw [if_pos ha] at h
    cases hs : spaces (amountPadding p.account.length) with
    | error e => rw [hs] at h; cases h
    | ok pad =>
      rw [hs] at h
      simp only [Except.ok.injEq] at h
      subst h
      exact key _
  · rw [if_neg ha] at h
    simp only [Except.ok.injEq] at h
    subst h
    exact key _

theorem formatPostings_terminated (ps : List Posting) (s : Str)
    (h : formatPostings ps = .ok s) : s = [] ∨ s.getLast? = some '\n' := by
  induction ps generalizing s with
  | nil =>
    simp only [formatPostings, Except.ok.injEq] at h
    exact Or.inl h.symm
  | cons p ps ih =>
    simp only [formatPostings] at h
    cases h1 : formatPosting p with
    | error e => simp [h1] at h
    | ok a =>
      cases h2 : formatPostings ps with
      | error e => simp [h1, h2] at h
      | ok r =>
        simp only [h1, h2, Except.ok.injEq] at h
        subst h
        right
        rcases ih r h2 with hr | hr
        · subst hr
          simpa using formatPosting_terminated p a h1
        · have hne : r ≠ [] := by intro h0; simp [h0] at hr
          rw [List.getLast?_append_of_ne_nil _ hne]
          exact hr

/-- The text of a formatted transaction ends with a newline. -/
theorem formatTransaction_terminated (t : Transaction) (f : Str)
    (h : formatTransaction t = .ok f) : f.getLast? = some '\n' := by
  unfold formatTransaction at h
  cases h2 : formatPostings t.postings with
  | error e => simp [h2] at h
  | ok r =>
    simp only [h2, Except.ok.injEq] at h
    subst h
    rcases formatPostings_terminated _ r h2 with hr | hr
    · subst hr
      simp [formatHeader, ← List.append_assoc]
    · have hne : r ≠ [] := by intro h0; simp [h0] at hr
      rw [List.getLast?_append_of_ne_nil _ hne]
      exact hr

theorem updateTransaction_ok (fs : FileSystem) (content : Str) (index : Int) (data : Json)
    (t : Transaction) (f : Str)
    (hfs : fs.ledger = some content) (hc : fs.copyOk = true) (ho : fs.openOk = true)
    (h0 : 0 ≤ index) (h1 : index < ((parseTransactions content).length : Int))
    (hv : missingRequired data = false) (hr : readTransaction data = .ok t)
    (hf : formatTransaction t = .ok f) :
    updateTransaction fs index data =
      ({ fs with backup := some content,
                 ledger := some (updateContent content (parseTransactions content) index f) },
        .ok true) := by
  have hrange : ¬ (index < 0 ∨ index ≥ ((parseTransactions content).length : Int)) := by omega
  simp [updateTransaction, parseLedgerFile, writeLedgerFile, hfs, hc, ho, hrange, hv, hr, hf]

/-- C4. The lines of the content written by `updateTransaction` at a valid
index are the original lines before `startLine(i)`, then the lines of the
formatted transaction, then the original lines from `startLine(i+1)` on (nothing
when `i` is the last transaction). -/
theorem update_replaces_line_range (fs : FileSystem) (content : Str) (index : Int)
    (data : Json) (t : Transaction) (f : Str)
    (hfs : fs.ledger = some content) (hc : fs.copyOk = true) (ho : fs.openOk = true)
    (h0 : 0 ≤ index) (h1 : index < ((parseTransactions content).length : Int))
    (hv : missingRequired data = false) (hr : readTransaction data = .ok t)
    (hf : formatTransaction t = .ok f) :
    updateTransaction fs index data =
      ({ fs with backup := some content,
                 ledger := some (updateContent content (parseTransactions content) index f) },
        .ok true) ∧
    getlines (updateContent content (parseTransactions content) index f) =
      (getlines content).take (nth (parseTransactions content) index).startLine.toNat ++
        getlines f ++
        (if index + 1 < ((parseTransactions content).length : Int) then
          (getlines content).drop (nth (parseTransactions content) (index + 1)).startLine.toNat
         else []) := by
  refine ⟨updateTransaction_ok fs content index data t f hfs hc ho h0 h1 hv hr hf, ?_⟩
  obtain ⟨i, rfl⟩ := Int.eq_ofNat_of_zero_le h0
  have hi : i < (parseTransactions content).length := by omega
  have hterm := formatTransaction_terminated t f hf
  obtain ⟨k, hk1, _, hk4⟩ := updateContent_eq content i f hi
  have hkn : (nth (parseTransactions content) (i : Int)).startLine.toNat = k := by
    rw [hk1]; simp
  have hnl : ∀ l ∈ (getlines content).take k, '\n' ∉ l :=
    fun l hl => getlines_no_newline content l (List.mem_of_mem_take hl)
  rw [hkn]
  rcases hk4 with ⟨hl, he⟩ | ⟨hl, k2, hq1, _, _, he⟩
  · have hlast : ¬ ((i : Int) + 1 < ((parseTransactions content).length : Int)) := by omega
    rw [he, if_neg hlast, getlines_unlines_append _ _ hnl]
    simp
  · have hnl2 : ∀ l ∈ (getlines content).drop k2, '\n' ∉ l :=
      fun l hl => getlines_no_newline content l (List.mem_of_mem_drop hl)
    have hmid : (i : Int) + 1 < ((parseTransactions content).length : Int) := by omega
    have hkn2 : (nth (parseTransactions content) ((i : Int) + 1)).startLine.toNat = k2 := by
      rw [hq1]; simp
    rw [he, if_pos hmid, hkn2, List.append_assoc, getlines_unlines_append _ _ hnl,
      getlines_append_terminated f _ (Or.inr hterm), getlines_unlines _ hnl2,
      List.append_assoc]

/-- Witness for C4: replacing the first transaction of `sampleLedger` (whose
trailing blank line is dropped) by `sampleTransaction`. -/
theorem update_replaces_line_range_witness :
    updateTransaction sampleFs 0 samplePayload =
      ({ sampleFs with
          backup := some sampleLedger,
          ledger := some (updateContent sampleLedger (parseTransactions sampleLedger) 0
            sampleFormatted) },
        .ok true) ∧
    getlines (updateContent sampleLedger (parseTransactions sampleLedger) 0 sampleFormatted) =
      (getlines sampleLedger).take (nth (parseTransactions sampleLedger) 0).startLine.toNat ++
        getlines sampleFormatted ++
        (if (0 : Int) + 1 < ((parseTransactions sampleLedger).length : Int) then
          (getlines sampleLedger).drop
            (nth (parseTransactions sampleLedger) (0 + 1)).startLine.toNat
         else []) :=
  update_replaces_line_range sampleFs sampleLedger 0 samplePayload sampleTransaction
    sampleFormatted rfl rfl rfl (by decide) (by decide) rfl rfl rfl

/-! ## Formatter -/

theorem amountPadding_short (len : Nat) (h : len ≤ 50) : amountPadding len = max 2 (50 - len) := by
  simp only [amountPadding, sizeModulus]
  norm_num
  omega

theorem amountPadding_long (len : Nat) (h : 50 < len) (hmax : len ≤ stringMaxSize) :
    stringMaxSize < amountPadding len := by
  simp only [amountPadding, sizeModulus, stringMaxSize] at *
  norm_num at *
  omega

theorem formatPosting_long (p : Posting) (ha : p.amount ≠ []) (hlen : 50 < p.account.length)
    (hmax : p.account.length ≤ stringMaxSize) : formatPosting p = .error .length_error := by
  have h := amountPadding_long _ hlen hmax
  unfold formatPosting
  rw [if_pos ha]
  simp [spaces, h]

theorem formatPosting_error (p : Posting) (e : Exn) (h : formatPosting p = .error e) :
    e = .length_error := by
  unfold formatPosting at h
  by_cases ha : p.amount ≠ []
  · rw [if_pos ha] at h
    by_cases hs : amountPadding p.account.length > stringMaxSize
    · simp only [spaces, hs, if_true, Except.error.injEq] at h
      exact h.symm
    · simp [spaces, hs] at h
  · rw [if_neg ha] at h
    cases h

theorem formatPostings_error (ps : List Posting) (e : Exn) (h : formatPostings ps = .error e) :
    e = .length_error := by
  induction ps with
  | nil => cases h
  | cons p ps ih =>
    simp only [formatPostings] at h
    cases h1 : formatPosting p with
    | error e1 =>
      simp only [h1, Except.error.injEq] at h
      subst h
      exact formatPosting_error p _ h1
    | ok a =>
      cases h2 : formatPostings ps with
      | error e2 =>
        simp only [h1, h2, Except.error.injEq] at h
        subst h
        exact ih h2
      | ok r => simp [h1, h2] at h

theorem formatTransaction_error (t : Transaction) (e : Exn) (h : formatTransaction t = .error e) :
    e = .length_error := by
  unfold formatTransaction at h
  cases h2 : formatPostings t.postings with
  | error e2 =>
    simp only [h2, Except.error.injEq] at h
    subst h
    exact formatPostings_error _ _ h2
  | ok r => simp [h2] at h

theorem formatPostings_long (ps : List Posting) (p : Posting) (hp : p ∈ ps)
    (ha : p.amount ≠ []) (hlen : 50 < p.account.length)
    (hmax : p.account.length ≤ stringMaxSize) :
    formatPostings ps = .error .length_error := by
  induction ps with
  | nil => simp at hp
  | cons q qs ih =>
    simp only [formatPostings]
    cases h1 : formatPosting q with
    | error e1 => rw [formatPosting_error q e1 h1]
    | ok a =>
      rcases List.mem_cons.mp hp with rfl | hq
      · rw [formatPosting_long p ha hlen hmax] at h1
        cases h1
      · simp [ih hq]

/-- C9 (evaluation of the code where it departs from the claim). A posting with
a non-empty amount and an account longer than 50 characters makes
`formatTransaction` throw `std::length_error`: the unsigned subtraction
`50 - account.length()` wraps around, so no padding of 2 spaces is emitted. -/
theorem format_long_account_throws (t : Transaction) (p : Posting) (hp : p ∈ t.postings)
    (ha : p.amount ≠ []) (hlen : 50 < p.account.length)
    (hmax : p.account.length ≤ stringMaxSize) :
    formatTransaction t = .error .length_error := by
  unfold formatTransaction
  rw [formatPostings_long t.postings p hp ha hlen hmax]

/-- Witness for C9: an account of 51 characters. -/
theorem format_long_account_throws_witness :
    formatTransaction longAccountTransaction = .error .length_error :=
  format_long_account_throws longAccountTransaction
    { account := List.replicate 51 'a', amount := "$1".toList, comment := [] }
    (by decide) (by decide) (by decide) (by decide)

/-! ## Listing -/

/-- C10. The list returned by `getAllTransactions` holds the JSON renderings
of the parsed transactions in reverse file order: it has `limit` elements when
`0 < limit < N` and `N` otherwise, and its element `k` renders transaction
`N - 1 - k`. -/
theorem list_reverse_order (fs : FileSystem) (content : Str) (limit : Int)
    (hfs : fs.ledger = some content) :
    ∃ items : List Json, getAllTransactions fs limit = .ok (.arr items) ∧
      items.length =
        (if 0 < limit ∧ limit < ((parseTransactions content).length : Int) then limit.toNat
         else (parseTransactions content).length) ∧
      ∀ k, k < items.length →
        items[k]? = ((parseTransactions content)[(parseTransactions content).length - 1 - k]?).map
          transactionToJson := by
  by_cases hl : 0 < limit ∧ limit < ((parseTransactions content).length : Int)
  · refine ⟨(((parseTransactions content).reverse.take limit.toNat).map transactionToJson),
      ?_, ?_, ?_⟩
    · simp [getAllTransactions, parseLedgerFile, hfs, hl]
    · rw [if_pos hl]
      simp only [List.length_map, List.length_take, List.length_reverse]
      omega
    · intro k hk
      simp only [List.length_map, List.length_take, List.length_reverse] at hk
      have hk1 : k < limit.toNat := by omega
      have hk2 : k < (parseTransactions content).length := by omega
      rw [List.getElem?_map, List.getElem?_take_of_lt hk1, List.getElem?_reverse hk2]
  · refine ⟨((parseTransactions content).reverse.map transactionToJson), ?_, ?_, ?_⟩
    · have hl2 : ¬ (limit > 0 ∧ limit < ((parseTransactions content).length : Int)) := hl
      simp [getAllTransactions, parseLedgerFile, hfs, hl2]
    · rw [if_neg hl]
      simp
    · intro k hk
      simp only [List.length_map, List.length_reverse] at hk
      rw [List.getElem?_map, List.getElem?_reverse hk]

/-- Witness for C10: listing `sampleLedger` with `limit = 1`. -/
theorem list_reverse_order_witness :
    ∃ items : List Json, getAllTransactions sampleFs 1 = .ok (.arr items) ∧
      items.length =
        (if 0 < (1 : Int) ∧ (1 : Int) < ((parseTransactions sampleLedger).length : Int) then
          (1 : Int).toNat
         else (parseTransactions sampleLedger).length) ∧
      ∀ k, k < items.length →
        items[k]? =
          ((parseTransactions sampleLedger)[(parseTransactions sampleLedger).length - 1 - k]?).map
            transactionToJson :=
  list_reverse_order sampleFs sampleLedger 1 rfl

/-! ## Validation and index bounds -/

theorem writeLedgerFile_error (fs : FileSystem) (c : Str) (e : Exn)
    (h : (writeLedgerFile fs c).2 = .error e) : e = .runtime_error := by
  unfold writeLedgerFile at h
  split at h
  · simp only [Except.error.injEq] at h; exact h.symm
  · split at h
    · split at h
      · cases h
      · simp only [Except.error.injEq] at h; exact h.symm
    · simp only [Except.error.injEq] at h; exact h.symm

theorem getString_error (j : Json) (e : Exn) (h : j.getString = .error e) : e = .type_error := by
  cases j <;> simp [Json.getString] at h <;> exact h.symm

theorem getBool_error (j : Json) (e : Exn) (h : j.getBool = .error e) : e = .type_error := by
  cases j <;> simp [Json.getBool] at h <;> exact h.symm

theorem valueString_error (j : Json) (key dflt : Str) (e : Exn)
    (h : j.valueString key dflt = .error e) : e = .type_error := by
  unfold Json.valueString at h
  split at h
  · split at h
    · exact getString_error _ _ h
    · cases h
  · simp only [Except.error.injEq] at h; exact h.symm

theorem valueBool_error (j : Json) (key : Str) (dflt : Bool) (e : Exn)
    (h : j.valueBool key dflt = .error e) : e = .type_error := by
  unfold Json.valueBool at h
  split at h
  · split at h
    · exact getBool_error _ _ h
    · cases h
  · simp only [Except.error.injEq] at h; exact h.symm

theorem readPosting_error (pd : Json) (e : Exn) (h : readPosting pd = .error e) :
    e = .type_error ∨ e = .invalid_argument := by
  unfold readPosting at h
  split at h
  · simp only [Except.error.injEq] at h; exact Or.inr h.symm
  · split at h
    · simp only [Except.error.injEq] at h
      subst h
      exact Or.inl (getString_error _ _ (by assumption))
    · split at h
      · simp only [Except.error.injEq] at h
        subst h
        exact Or.inl (valueString_error _ _ _ _ (by assumption))
      · split at h
        · simp only [Except.error.injEq] at h
          subst h
          exact Or.inl (valueString_error _ _ _ _ (by assumption))
        · cases h

theorem readPostings_error (ps : List Json) (e : Exn) (h : readPostings ps = .error e) :
    e = .type_error ∨ e = .invalid_argument := by
  induction ps with
  | nil => cases h
  | cons pd rest ih =>
    simp only [readPostings] at h
    cases h1 : readPosting pd with
    | error e1 =>
      simp only [h1, Except.error.injEq] at h
      subst h
      exact readPosting_error pd _ h1
    | ok a =>
      cases h2 : readPostings rest with
      | error e2 =>
        simp only [h1, h2, Except.error.injEq] at h
        subst h
        exact ih h2
      | ok r => simp [h1, h2] at h

theorem readTransaction_error (data : Json) (e : Exn) (h : readTransaction data = .error e) :
    e = .type_error ∨ e = .invalid_argument := by
  unfold readTransaction at h
  split at h
  · simp only [Except.error.injEq] at h
    subst h
    exact Or.inl (getString_error _ _ (by assumption))
  · split at h
    · simp only [Except.error.injEq] at h
      subst h
      exact Or.inl (getString_error _ _ (by assumption))
    · split at h
      · simp only [Except.error.injEq] at h
        subst h
        exact Or.inl (valueBool_error _ _ _ _ (by assumption))
      · split at h
        · simp only [Except.error.injEq] at h
          subst h
          exact readPostings_error _ _ (by assumption)
        · cases h

theorem updateTransaction_in_range (fs : FileSystem) (content : Str) (index : Int) (data : Json)
    (hfs : fs.ledger = some content) (hv : missingRequired data = false)
    (hr : ¬ (index < 0 ∨ index ≥ ((parseTransactions content).length : Int))) :
    (updateTransaction fs index data).2 ≠ .error .out_of_range := by
  simp only [updateTransaction, hv, parseLedgerFile, hfs, hr, if_false, Bool.false_eq_true]
  cases h1 : readTransaction data with
  | error e =>
    rcases readTransaction_error data e h1 with rfl | rfl <;> simp
  | ok t =>
    simp only []
    cases h2 : formatTransaction t with
    | error e =>
      have := formatTransaction_error t e h2
      subst this
      simp
    | ok f =>
      simp only []
      intro h3
      have := writeLedgerFile_error _ _ _ h3
      cases this

theorem deleteTransaction_in_range (fs : FileSystem) (content : Str) (index : Int)
    (hfs : fs.ledger = some content)
    (hr : ¬ (index < 0 ∨ index ≥ ((parseTransactions content).length : Int))) :
    (deleteTransaction fs index).2 ≠ .error .out_of_range := by
  simp only [deleteTransaction, parseLedgerFile, hfs, hr, if_false]
  intro h3
  have := writeLedgerFile_error _ _ _ h3
  cases this

/-- C6. With `count` the number of parsed transactions: `getTransaction`
returns the `index`-th parsed transaction when `0 ≤ index < count` and throws
`out_of_range` otherwise; `updateTransaction` (with a payload that passes the
required-field check) and `deleteTransaction` throw `out_of_range` exactly when
`index < 0` or `index ≥ count`, and then leave the file system unchanged. -/
theorem index_bounds (fs : FileSystem) (content : Str) (index : Int) (data : Json)
    (hfs : fs.ledger = some content) (hv : missingRequired data = false) :
    (((index < 0 ∨ index ≥ ((parseTransactions content).length : Int)) ∧
        getTransaction content index = .error .out_of_range) ∨
      (0 ≤ index ∧ index < ((parseTransactions content).length : Int) ∧
        ∃ t, (parseTransactions content)[index.toNat]? = some t ∧
          getTransaction content index = .ok t)) ∧
    ((updateTransaction fs index data).2 = .error .out_of_range ↔
      (index < 0 ∨ index ≥ ((parseTransactions content).length : Int))) ∧
    ((deleteTransaction fs index).2 = .error .out_of_range ↔
      (index < 0 ∨ index ≥ ((parseTransactions content).length : Int))) ∧
    (updateTransaction fs index data = (fs, .error .out_of_range) ↔
      (index < 0 ∨ index ≥ ((parseTransactions content).length : Int))) ∧
    (deleteTransaction fs index = (fs, .error .out_of_range) ↔
      (index < 0 ∨ index ≥ ((parseTransactions content).length : Int))) := by
  have hupd : (index < 0 ∨ index ≥ ((parseTransactions content).length : Int)) →
      updateTransaction fs index data = (fs, .error .out_of_range) := by
    intro hr
    simp [updateTransaction, hv, parseLedgerFile, hfs, hr]
  have hdel : (index < 0 ∨ index ≥ ((parseTransactions content).length : Int)) →
      deleteTransaction fs index = (fs, .error .out_of_range) := by
    intro hr
    simp [deleteTransaction, parseLedgerFile, hfs, hr]
  refine ⟨?_, ⟨?_, fun hr => by rw [hupd hr]⟩, ⟨?_, fun hr => by rw [hdel hr]⟩,
    ⟨?_, hupd⟩, ⟨?_, hdel⟩⟩
  · by_cases hr : index < 0 ∨ index ≥ ((parseTransactions content).length : Int)
    · left
      exact ⟨hr, by simp [getTransaction, hr]⟩
    · right
      have hlt : index.toNat < (parseTransactions content).length := by omega
      refine ⟨by omega, by omega, (parseTransactions content)[index.toNat], ?_, ?_⟩
      · exact List.getElem?_eq_getElem hlt
      · simp only [getTransaction, hr, if_false, List.get?_eq_getElem?,
          List.getElem?_eq_getElem hlt]
  · intro h
    by_contra hr
    exact updateTransaction_in_range fs content index data hfs hv hr h
  · intro h
    by_contra hr
    exact deleteTransaction_in_range fs content index hfs hr h
  · intro h
    by_contra hr
    exact updateTransaction_in_range fs content index data hfs hv hr (by rw [h])
  · intro h
    by_contra hr
    exact deleteTransaction_in_range fs content index hfs hr (by rw [h])

/-- Witness for C6: `index = count` on `sampleLedger`. -/
theorem index_bounds_witness :
    ((((2 : Int) < 0 ∨ (2 : Int) ≥ ((parseTransactions sampleLedger).length : Int)) ∧
        getTransaction sampleLedger 2 = .error .out_of_range) ∨
      (0 ≤ (2 : Int) ∧ (2 : Int) < ((parseTransactions sampleLedger).length : Int) ∧
        ∃ t, (parseTransactions sampleLedger)[(2 : Int).toNat]? = some t ∧
          getTransaction sampleLedger 2 = .ok t)) ∧
    ((updateTransaction sampleFs 2 samplePayload).2 = .error .out_of_range ↔
      ((2 : Int) < 0 ∨ (2 : Int) ≥ ((parseTransactions sampleLedger).length : Int))) ∧
    ((deleteTransaction sampleFs 2).2 = .error .out_of_range ↔
      ((2 : Int) < 0 ∨ (2 : Int) ≥ ((parseTransactions sampleLedger).length : Int))) ∧
    (updateTransaction sampleFs 2 samplePayload = (sampleFs, .error .out_of_range) ↔
      ((2 : Int) < 0 ∨ (2 : Int) ≥ ((parseTransactions sampleLedger).length : Int))) ∧
    (deleteTransaction sampleFs 2 = (sampleFs, .error .out_of_range) ↔
      ((2 : Int) < 0 ∨ (2 : Int) ≥ ((parseTransactions sampleLedger).length : Int))) :=
  index_bounds sampleFs sampleLedger 2 samplePayload rfl rfl

theorem readPosting_no_account (pd : Json) (h : pd.contains "account".toList = false) :
    readPosting pd = .error .invalid_argument := by
  unfold readPosting
  rw [if_pos (by rw [h]; rfl)]

theorem readPosting_ok_account (pd : Json) (a : Posting) (h : readPosting pd = .ok a) :
    pd.contains "account".toList = true := by
  cases hc : pd.contains "account".toList with
  | true => rfl
  | false =>
    rw [readPosting_no_account pd hc] at h
    cases h

theorem readPostings_missing_account (ps : List Json)
    (h : ps.any (fun p => !p.contains "account".toList) = true) :
    ∃ e, readPostings ps = .error e := by
  induction ps with
  | nil => simp at h
  | cons pd rest ih =>
    simp only [readPostings]
    cases h1 : readPosting pd with
    | error e => exact ⟨e, rfl⟩
    | ok a =>
      have hpd := readPosting_ok_account pd a h1
      rw [List.any_cons, hpd] at h
      obtain ⟨e, he⟩ := ih (by simpa using h)
      refine ⟨e, ?_⟩
      rw [he]

theorem readTransaction_missing_account (data : Json)
    (h : hasPostingWithoutAccount data = true) : ∃ e, readTransaction data = .error e := by
  obtain ⟨e, he⟩ := readPostings_missing_account _ h
  unfold readTransaction
  cases h1 : (data.at "date".toList).getString with
  | error e1 => exact ⟨e1, rfl⟩
  | ok d =>
    cases h2 : (data.at "payee".toList).getString with
    | error e2 => exact ⟨e2, rfl⟩
    | ok pa =>
      cases h3 : data.valueBool "isCleared".toList false with
      | error e3 => exact ⟨e3, rfl⟩
      | ok c =>
        refine ⟨e, ?_⟩
        simp only []
        rw [he]

theorem readPostings_reaches (ps : List Json) (h : reachesMissingAccount ps = true) :
    readPostings ps = .error .invalid_argument := by
  induction ps with
  | nil => simp [reachesMissingAccount] at h
  | cons pd rest ih =>
    simp only [readPostings]
    cases hc : pd.contains "account".toList with
    | false => rw [readPosting_no_account pd hc]
    | true =>
      unfold reachesMissingAccount at h
      rw [hc] at h
      simp only [Bool.not_true, Bool.false_eq_true, if_false] at h
      cases h1 : readPosting pd with
      | error e =>
        rw [h1] at h
        cases h
      | ok a =>
        rw [h1] at h
        simp only [] at h
        rw [ih h]

theorem readTransaction_reaches (data : Json) (ht : headerFieldsTyped data = true)
    (h : reachesMissingAccount (data.at "postings".toList).elements = true) :
    readTransaction data = .error .invalid_argument := by
  unfold headerFieldsTyped at ht
  unfold readTransaction
  cases h1 : (data.at "date".toList).getString with
  | error e1 =>
    rw [h1] at ht
    simp at ht
  | ok d =>
    cases h2 : (data.at "payee".toList).getString with
    | error e2 =>
      rw [h2] at ht
      simp at ht
    | ok pa =>
      cases h3 : data.valueBool "isCleared".toList false with
      | error e3 =>
        rw [h3] at ht
        simp at ht
      | ok c =>
        simp only []
        rw [readPostings_reaches _ h]

/-- C7, as stated, fails: a payload with a posting without `account` makes
`updateTransaction` at an out-of-range index throw `out_of_range`, and, when its
`date` is not a string, makes `addTransaction` throw a JSON `type_error`; neither
is `invalid_argument`. -/
theorem missing_account_not_always_invalid_argument :
    hasPostingWithoutAccount missingAccountPayload = true ∧
    updateTransaction sampleFs 5 missingAccountPayload = (sampleFs, .error .out_of_range) ∧
    hasPostingWithoutAccount untypedDatePayload = true ∧
    addTransaction sampleFs untypedDatePayload = (sampleFs, .error .type_error) :=
  ⟨by decide, rfl, by decide, rfl⟩

/-- C7, amended. A payload that lacks `date`, `payee` or `postings`, or whose
`postings` is not an array or is empty, makes `addTransaction` and
`updateTransaction` (any index) throw `invalid_argument` with the file system
unchanged. A payload with a posting without `account` makes both throw with the
file system unchanged as well; the exception is `invalid_argument` when the
fields read before that posting have the expected types and, for
`updateTransaction`, the ledger is readable and the index in range. -/
theorem validation_before_mutation (fs : FileSystem) (index : Int) (data : Json)
    (hbad : missingRequired data = true ∨ hasPostingWithoutAccount data = true) :
    (∃ e, addTransaction fs data = (fs, .error e)) ∧
    (∃ e, updateTransaction fs index data = (fs, .error e)) ∧
    (missingRequired data = true →
      addTransaction fs data = (fs, .error .invalid_argument) ∧
      updateTransaction fs index data = (fs, .error .invalid_argument)) ∧
    (headerFieldsTyped data = true →
      reachesMissingAccount (data.at "postings".toList).elements = true →
      addTransaction fs data = (fs, .error .invalid_argument) ∧
      ∀ content, fs.ledger = some content → 0 ≤ index →
        index < ((parseTransactions content).length : Int) →
        updateTransaction fs index data = (fs, .error .invalid_argument)) := by
  have hmiss : missingRequired data = true →
      addTransaction fs data = (fs, .error .invalid_argument) ∧
      updateTransaction fs index data = (fs, .error .invalid_argument) := by
    intro hm
    simp [addTransaction, updateTransaction, hm]
  refine ⟨?_, ?_, hmiss, ?_⟩
  · by_cases hm : missingRequired data = true
    · exact ⟨_, (hmiss hm).1⟩
    · have hacc : hasPostingWithoutAccount data = true := by
        rcases hbad with h | h
        · exact absurd h hm
        · exact h
      obtain ⟨e, he⟩ := readTransaction_missing_account data hacc
      exact ⟨e, by simp [addTransaction, hm, he]⟩
  · by_cases hm : missingRequired data = true
    · exact ⟨_, (hmiss hm).2⟩
    · have hacc : hasPostingWithoutAccount data = true := by
        rcases hbad with h | h
        · exact absurd h hm
        · exact h
      obtain ⟨e, he⟩ := readTransaction_missing_account data hacc
      cases hl : fs.ledger with
      | none => exact ⟨.runtime_error, by simp [updateTransaction, hm, parseLedgerFile, hl]⟩
      | some content =>
        by_cases hr : index < 0 ∨ index ≥ ((parseTransactions content).length : Int)
        · exact ⟨.out_of_range, by simp [updateTransaction, hm, parseLedgerFile, hl, hr]⟩
        · exact ⟨e, by simp [updateTransaction, hm, parseLedgerFile, hl, hr, he]⟩
  · intro ht hreach
    have he := readTransaction_reaches data ht hreach
    constructor
    · by_cases hm : missingRequired data = true
      · exact (hmiss hm).1
      · simp [addTransaction, hm, he]
    · intro content hl h0 h1
      by_cases hm : missingRequired data = true
      · exact (hmiss hm).2
      · have hr : ¬ (index < 0 ∨ index ≥ ((parseTransactions content).length : Int)) := by
          omega
        simp [updateTransaction, hm, parseLedgerFile, hl, hr, he]

/-- Witness for C7 (amended): `missingAccountPayload` at index 0 of
`sampleLedger`. -/
theorem validation_before_mutation_witness :
    (∃ e, addTransaction sampleFs missingAccountPayload = (sampleFs, .error e)) ∧
    (∃ e, updateTransaction sampleFs 0 missingAccountPayload = (sampleFs, .error e)) ∧
    (missingRequired missingAccountPayload = true →
      addTransaction sampleFs missingAccountPayload = (sampleFs, .error .invalid_argument) ∧
      updateTransaction sampleFs 0 missingAccountPayload =
        (sampleFs, .error .invalid_argument)) ∧
    (headerFieldsTyped missingAccountPayload = true →
      reachesMissingAccount (missingAccountPayload.at "postings".toList).elements = true →
      addTransaction sampleFs missingAccountPayload = (sampleFs, .error .invalid_argument) ∧
      ∀ content, sampleFs.ledger = some content → 0 ≤ (0 : Int) →
        (0 : Int) < ((parseTransactions content).length : Int) →
        updateTransaction sampleFs 0 missingAccountPayload =
          (sampleFs, .error .invalid_argument)) :=
  validation_before_mutation sampleFs 0 missingAccountPayload (Or.inr (by decide))

/-! ## Payloads with empty fields -/

theorem addTransaction_ok (fs : FileSystem) (content : Str) (data : Json)
    (t : Transaction) (f : Str)
    (hfs : fs.ledger = some content) (hc : fs.copyOk = true) (ho : fs.openOk = true)
    (hv : missingRequired data = false) (hr : readTransaction data = .ok t)
    (hf : formatTransaction t = .ok f) :
    addTransaction fs data =
      ({ fs with backup := some content, ledger := some (content ++ '\n' :: f) }, .ok true) := by
  simp [addTransaction, parseLedgerFile, writeLedgerFile, hfs, hc, ho, hv, hr, hf]

theorem isspace_of_isdigit (c : Char) (h : isdigit c = true) : isspace c = false := by
  cases hs : isspace c with
  | false => rfl
  | true =>
    exfalso
    simp only [isspace, Bool.or_eq_true, beq_iff_eq] at hs
    rcases hs with ((((rfl | rfl) | rfl) | rfl) | rfl) | rfl <;> revert h <;> decide

theorem dropWhile_eq_self_of_head (p : Char → Bool) (s : Str)
    (h : (s.head?.map p).getD false = false) : s.dropWhile p = s := by
  cases s with
  | nil => rfl
  | cons c cs =>
    simp only [List.head?_cons, Option.map_some', Option.getD_some] at h
    simp [List.dropWhile, h]

theorem trimLeft_eq_self (s : Str) (h : (s.head?.map isspace).getD false = false) :
    trimLeft s = s := dropWhile_eq_self_of_head isspace s h

theorem trimRight_eq_self (s : Str) (h : (s.getLast?.map isspace).getD false = false) :
    trimRight s = s := by
  unfold trimRight
  rw [dropWhile_eq_self_of_head isspace s.reverse (by simpa using h), List.reverse_reverse]

theorem noEdgeSpace_iff (s : Str) :
    noEdgeSpace s = true ↔
      (s.head?.map isspace).getD false = false ∧ (s.getLast?.map isspace).getD false = false := by
  simp [noEdgeSpace]

theorem trim_eq_self (s : Str) (h : noEdgeSpace s = true) : trim s = s := by
  obtain ⟨h1, h2⟩ := (noEdgeSpace_iff s).mp h
  unfold trim
  rw [trimRight_eq_self s h2, trimLeft_eq_self s h1]

theorem dropWhile_append_of_head (p : Char → Bool) (x y : Str)
    (h : (y.head?.map p).getD false = false) :
    (x ++ y).dropWhile p = x.dropWhile p ++ y := by
  induction x with
  | nil => simpa using dropWhile_eq_self_of_head p y h
  | cons c cs ih =>
    by_cases hc : p c = true
    · simp [List.dropWhile, hc, ih]
    · simp [List.dropWhile, hc]

/-- Trimming on the right does not go past a non-white-space character. -/
theorem trimRight_append (a b : Str)
    (hl : (a.getLast?.map isspace).getD false = false) :
    trimRight (a ++ b) = a ++ trimRight b := by
  unfold trimRight
  rw [List.reverse_append, dropWhile_append_of_head isspace b.reverse a.reverse
    (by simpa using hl)]
  simp

theorem dropWhile_replicate_space (k : Nat) (s : Str)
    (h : (s.head?.map isspace).getD false = false) :
    (List.replicate k ' ' ++ s).dropWhile isspace = s := by
  induction k with
  | zero => simpa using dropWhile_eq_self_of_head isspace s h
  | succ k ih =>
    have : isspace ' ' = true := by decide
    simp [List.replicate_succ, List.dropWhile, this, ih]

theorem trimRight_replicate_space (k : Nat) : trimRight (List.replicate k ' ') = [] := by
  unfold trimRight
  rw [List.reverse_replicate]
  have h := dropWhile_replicate_space k [] (by simp)
  simp only [List.append_nil] at h
  rw [h]
  rfl

theorem findChar_append_of_not_mem (c : Char) (a r : Str) (h : c ∉ a) :
    findChar c (a ++ r) = (findChar c r).map (· + a.length) := by
  induction a with
  | nil => simp
  | cons x xs ih =>
    have hx : x ≠ c := fun e => h (by simp [e])
    have hxs : c ∉ xs := fun e => h (by simp [e])
    have e := ih hxs
    show findChar c (x :: (xs ++ r)) = _
    simp only [findChar, hx, if_false]
    rw [e]
    cases findChar c r with
    | none => rfl
    | some n =>
      simp only [Option.map_some', Option.some.injEq, List.length_cons]
      omega

theorem findChar_none_of_not_mem (c : Char) (a : Str) (h : c ∉ a) : findChar c a = none := by
  have := findChar_append_of_not_mem c a [] h
  simpa [findChar] using this

theorem spaceRunFrom_none (i : Nat) (a : Str) (h : noAdjacentSpaces a = true) :
    spaceRunFrom i a = 0 := by
  induction a generalizing i with
  | nil => rfl
  | cons x xs ih =>
    cases xs with
    | nil => rfl
    | cons y ys =>
      simp only [noAdjacentSpaces, Bool.and_eq_true, Bool.not_eq_true'] at h
      simp only [spaceRunFrom, h.1, Bool.false_eq_true, if_false]
      exact ih (i + 1) h.2

/-- The loop stops at the first pair of spaces that follows a string without
adjacent white space and without white space at its end. -/
theorem spaceRunFrom_append (i : Nat) (a rest : Str) (ha : a ≠ [])
    (h : noAdjacentSpaces a = true) (hl : (a.getLast?.map isspace).getD false = false) :
    spaceRunFrom i (a ++ ' ' :: ' ' :: rest) = i + a.length := by
  induction a generalizing i with
  | nil => exact absurd rfl ha
  | cons x xs ih =>
    cases xs with
    | nil =>
      have hx : isspace x = false := by simpa using hl
      have hsp : isspace ' ' = true := by decide
      simp [spaceRunFrom, hx, hsp]
    | cons y ys =>
      simp only [noAdjacentSpaces, Bool.and_eq_true, Bool.not_eq_true'] at h
      have hl2 : (((y :: ys).getLast?).map isspace).getD false = false := by
        simpa [List.getLast?_cons_cons] using hl
      have := ih (i + 1) (by simp) h.2 hl2
      simp only [List.cons_append, List.length_cons] at this
      show spaceRunFrom i (x :: y :: (ys ++ ' ' :: ' ' :: rest)) = i + (x :: y :: ys).length
      simp only [spaceRunFrom, h.1, Bool.false_eq_true, if_false, this, List.length_cons]
      omega

/-! ## The date pattern -/

theorem matchDate_eq_matchClasses (s : Str) : matchDate s = matchClasses dateClasses s := by
  rcases s with _ | ⟨a, _ | ⟨b, _ | ⟨c, _ | ⟨d, _ | ⟨e, _ | ⟨f, _ | ⟨g, _ | ⟨h, _ | ⟨i, _ | ⟨j, r⟩⟩⟩⟩⟩⟩⟩⟩⟩⟩ <;>
    simp [matchDate, matchClasses, dateClasses, Bool.and_assoc]

theorem matchClasses_append (ps : List (Char → Bool)) (a r : Str) (h : ps.length ≤ a.length) :
    matchClasses ps (a ++ r) = matchClasses ps a := by
  induction ps generalizing a with
  | nil => rfl
  | cons p ps ih =>
    cases a with
    | nil => simp at h
    | cons c cs =>
      show (p c && matchClasses ps (cs ++ r)) = (p c && matchClasses ps cs)
      rw [ih cs (by simpa using h)]

theorem matchClasses_append_space (ps : List (Char → Bool)) (a r : Str)
    (h : matchClasses ps a = false) (hp : ∀ p ∈ ps, p ' ' = false)
    (hr : r = [] ∨ r.head? = some ' ') : matchClasses ps (a ++ r) = false := by
  induction ps generalizing a with
  | nil => simp [matchClasses] at h
  | cons p ps ih =>
    cases a with
    | nil =>
      rcases hr with rfl | hr
      · rfl
      · cases r with
        | nil => rfl
        | cons c cs =>
          simp only [List.head?_cons, Option.some.injEq] at hr
          subst hr
          simp [matchClasses, hp p (by simp)]
    | cons c cs =>
      simp only [List.cons_append, matchClasses, Bool.and_eq_false_iff] at h ⊢
      rcases h with h | h
      · exact Or.inl h
      · exact Or.inr (ih cs h (fun q hq => hp q (by simp [hq])))

theorem matchClasses_mem (ps : List (Char → Bool)) (a : Str) (h : matchClasses ps a = true)
    (hlen : a.length = ps.length) : ∀ c ∈ a, ∃ p ∈ ps, p c = true := by
  induction ps generalizing a with
  | nil =>
    cases a with
    | nil => simp
    | cons c cs => simp at hlen
  | cons p ps ih =>
    cases a with
    | nil => simp
    | cons c cs =>
      simp only [matchClasses, Bool.and_eq_true] at h
      intro x hx
      rcases List.mem_cons.mp hx with rfl | hx
      · exact ⟨p, by simp, h.1⟩
      · obtain ⟨q, hq, hqx⟩ := ih cs h.2 (by simpa using hlen) x hx
        exact ⟨q, by simp [hq], hqx⟩

theorem dateClasses_space : ∀ p ∈ dateClasses, p ' ' = false := by
  intro p hp
  simp only [dateClasses, List.mem_cons, List.mem_singleton, List.not_mem_nil, or_false] at hp
  rcases hp with rfl | rfl | rfl | rfl | rfl | rfl | rfl | rfl | rfl | rfl <;> decide

theorem date_no_space (d : Str) (hl : d.length = 10) (hm : matchDate d = true) :
    ∀ c ∈ d, isspace c = false := by
  intro c hc
  rw [matchDate_eq_matchClasses] at hm
  obtain ⟨p, hp, hpc⟩ := matchClasses_mem dateClasses d hm (by simpa [dateClasses] using hl) c hc
  simp only [dateClasses, List.mem_cons, List.mem_singleton, List.not_mem_nil, or_false] at hp
  have hslash : ∀ x : Char, (x == '/') = true → isspace x = false := by
    intro x hx
    have : x = '/' := by simpa using hx
    subst this
    decide
  rcases hp with rfl | rfl | rfl | rfl | rfl | rfl | rfl | rfl | rfl | rfl
  all_goals first | exact isspace_of_isdigit c hpc | exact hslash c hpc

theorem date_no_newline (d : Str) (hl : d.length = 10) (hm : matchDate d = true) : '\n' ∉ d := by
  intro h
  have := date_no_space d hl hm '\n' h
  revert this
  decide

theorem matchDate_append (d r : Str) (hl : d.length = 10) : matchDate (d ++ r) = matchDate d := by
  rw [matchDate_eq_matchClasses, matchDate_eq_matchClasses,
    matchClasses_append _ _ _ (by simp [dateClasses, hl])]

theorem matchDate_append_space (a r : Str) (h : matchDate a = false)
    (hr : r = [] ∨ r.head? = some ' ') : matchDate (a ++ r) = false := by
  rw [matchDate_eq_matchClasses] at h ⊢
  exact matchClasses_append_space _ _ _ h dateClasses_space hr

/-! ## The header line of a formatted transaction -/

theorem matchHeader_marker (d payee : Str) (m : Char) (hl : d.length = 10)
    (hm : matchDate d = true) (hmk : m = '*' ∨ m = '!')
    (hh : (payee.head?.map isspace).getD false = false)
    (ht : payee.any isLineTerminator = false) :
    matchHeader (d ++ ' ' :: m :: ' ' :: payee) = some (d, [m], payee) := by
  have hsp : isspace ' ' = true := by decide
  have hms : isspace m = false := by rcases hmk with rfl | rfl <;> decide
  unfold matchHeader
  rw [matchDate_append d _ hl, hm, if_pos rfl, List.drop_left' hl, List.take_left' hl]
  simp only [hsp, if_true, List.dropWhile_cons_of_pos, List.dropWhile_cons_of_neg, hms,
    Bool.false_eq_true, not_false_eq_true, hmk, dropWhile_eq_self_of_head isspace payee hh, ht,
    if_false]

theorem matchHeader_plain (d payee : Str) (hl : d.length = 10) (hm : matchDate d = true)
    (hne : payee ≠ []) (hh : (payee.head?.map isspace).getD false = false)
    (hs1 : payee.head? ≠ some '*') (hs2 : payee.head? ≠ some '!')
    (ht : payee.any isLineTerminator = false) :
    matchHeader (d ++ ' ' :: payee) = some (d, [], payee) := by
  have hsp : isspace ' ' = true := by decide
  unfold matchHeader
  rw [matchDate_append d _ hl, hm, if_pos rfl, List.drop_left' hl, List.take_left' hl]
  cases payee with
  | nil => exact absurd rfl hne
  | cons m r2 =>
    have hms : isspace m = false := by simpa using hh
    have h1 : ¬ (m = '*' ∨ m = '!') := by
      intro h
      rcases h with rfl | rfl
      · exact hs1 rfl
      · exact hs2 rfl
    simp only [hsp, if_true, List.dropWhile_cons_of_pos, List.dropWhile_cons_of_neg, hms,
      Bool.false_eq_true, not_false_eq_true, h1, ht, if_false]

/-! ## The posting lines of a formatted transaction -/

theorem parsePosting_plain (a : Str) (hd : '$' ∉ a) (hadj : noAdjacentSpaces a = true) :
    parsePosting a = { account := a, amount := [], comment := [] } := by
  unfold parsePosting
  rw [findChar_none_of_not_mem '$' a hd, spaceRunFrom_none 0 a hadj]
  rfl

theorem parsePosting_split (a rest : Str) (hne : a ≠ []) (he : noEdgeSpace a = true)
    (hd : '$' ∉ a) (hadj : noAdjacentSpaces a = true) :
    parsePosting (a ++ ' ' :: ' ' :: rest) =
      { account := a, amount := trim (cutComment (' ' :: ' ' :: rest)), comment := [] } := by
  obtain ⟨_, hlast⟩ := (noEdgeSpace_iff a).mp he
  have hlen : 0 < a.length := List.length_pos.mpr hne
  have hsplit : splitPos (findChar '$' (a ++ ' ' :: ' ' :: rest))
      (spaceRunFrom 0 (a ++ ' ' :: ' ' :: rest)) = some a.length := by
    rw [findChar_append_of_not_mem '$' a _ hd, spaceRunFrom_append 0 a rest hne hadj hlast,
      Nat.zero_add]
    have h0 : a.length ≠ 0 := by omega
    cases findChar '$' (' ' :: ' ' :: rest) with
    | none =>
      simp only [Option.map_none', splitPos]
      rw [if_pos h0]
    | some d =>
      have h1 : ¬ (a.length = 0 ∨ d + a.length < a.length) := by omega
      simp only [Option.map_some', splitPos]
      rw [if_neg h1, if_pos h0]
  unfold parsePosting
  rw [hsplit]
  simp only [List.take_left' rfl, List.drop_left' rfl, trim_eq_self a he]
  rfl

theorem trim_pad_amount (k : Nat) (amount : Str) (he : noEdgeSpace amount = true) :
    trim (List.replicate k ' ' ++ amount) = amount := by
  obtain ⟨hh, hl⟩ := (noEdgeSpace_iff amount).mp he
  unfold trim
  have h := trimRight_append (List.replicate k ' ' ++ amount) []
  by_cases hne : amount = []
  · subst hne
    simp only [List.append_nil]
    rw [trimRight_replicate_space]
    rfl
  · have hl2 : (((List.replicate k ' ' ++ amount).getLast?).map isspace).getD false = false := by
      rw [List.getLast?_append_of_ne_nil _ hne]
      exact hl
    rw [trimRight_eq_self _ hl2]
    exact dropWhile_replicate_space k amount hh

theorem trim_pad_amount_spaces (k : Nat) (amount : Str) (he : noEdgeSpace amount = true) :
    trim (List.replicate k ' ' ++ amount ++ [' ', ' ']) = amount := by
  obtain ⟨hh, hl⟩ := (noEdgeSpace_iff amount).mp he
  by_cases hne : amount = []
  · subst hne
    have : List.replicate k ' ' ++ [] ++ [' ', ' '] = List.replicate (k + 2) ' ' := by
      simp [List.replicate_add]
    rw [this]
    have h := trim_pad_amount (k + 2) [] (by decide)
    simpa using h
  · have hl2 : (((List.replicate k ' ' ++ amount).getLast?).map isspace).getD false = false := by
      rw [List.getLast?_append_of_ne_nil _ hne]
      exact hl
    unfold trim
    rw [trimRight_append _ _ hl2]
    have : trimRight [' ', ' '] = [] := by decide
    rw [this, List.append_nil]
    exact dropWhile_replicate_space k amount hh

/-- What follows the account on the trimmed line: nothing, or at least two
spaces and a text from which the parser recovers the amount. -/
theorem postingRest_cases (p : Posting) (he : noEdgeSpace p.amount = true)
    (hsemi : ';' ∉ p.amount) :
    (p.amount = [] ∧ trimRight (postingRest p) = []) ∨
    (∃ rest, trimRight (postingRest p) = ' ' :: ' ' :: rest ∧
      trim (cutComment (' ' :: ' ' :: rest)) = p.amount) := by
  obtain ⟨_, hl⟩ := (noEdgeSpace_iff p.amount).mp he
  have hsemi3 : ((([' ', ' ', ';'] : Str).getLast?).map isspace).getD false = false := by decide
  have hpad : ∀ n, List.replicate (max 2 n) ' ' = ' ' :: ' ' :: List.replicate (max 2 n - 2) ' ' := by
    intro n
    obtain ⟨m, hm⟩ : ∃ m, max 2 n = m + 2 := ⟨max 2 n - 2, by omega⟩
    rw [hm]
    simp [List.replicate_succ]
  have hnosemi : ∀ k, ';' ∉ List.replicate k ' ' ++ p.amount := by
    intro k h
    rcases List.mem_append.mp h with h | h
    · have := List.eq_of_mem_replicate h
      revert this
      decide
    · exact hsemi h
  unfold postingRest
  by_cases ha : p.amount = []
  · by_cases hc : p.comment = []
    · left
      refine ⟨ha, ?_⟩
      simp [ha, hc, trimRight]
    · right
      refine ⟨';' :: trimRight (' ' :: p.comment), ?_, ?_⟩
      · have h := trimRight_append [' ', ' ', ';'] (' ' :: p.comment) hsemi3
        simpa [ha, hc] using h
      · have hcut : cutComment (' ' :: ' ' :: ';' :: trimRight (' ' :: p.comment)) =
            [' ', ' '] := by
          simp [cutComment, findChar]
        rw [hcut, ha]
        decide
  · right
    rw [if_pos ha]
    by_cases hc : p.comment = []
    · refine ⟨List.replicate (max 2 (50 - p.account.length) - 2) ' ' ++ p.amount, ?_, ?_⟩
      · have hl2 : (((List.replicate (max 2 (50 - p.account.length)) ' ' ++
            p.amount).getLast?).map isspace).getD false = false := by
          rw [List.getLast?_append_of_ne_nil _ ha]
          exact hl
        simp only [hc, ne_eq, not_true_eq_false, if_false, List.append_nil]
        rw [trimRight_eq_self _ hl2, hpad]
        rfl
      · have hcut : cutComment (' ' :: ' ' ::
            (List.replicate (max 2 (50 - p.account.length) - 2) ' ' ++ p.amount)) =
            List.replicate (max 2 (50 - p.account.length)) ' ' ++ p.amount := by
          rw [hpad]
          unfold cutComment
          have := findChar_none_of_not_mem ';' _ (hnosemi (max 2 (50 - p.account.length)))
          rw [hpad] at this
          simp only [List.cons_append] at this
          rw [this]
          rfl
        rw [hcut]
        exact trim_pad_amount _ _ he
    · refine ⟨List.replicate (max 2 (50 - p.account.length) - 2) ' ' ++ p.amount ++
        ' ' :: ' ' :: ';' :: trimRight (' ' :: p.comment), ?_, ?_⟩
      · have hl2 : (((List.replicate (max 2 (50 - p.account.length)) ' ' ++ p.amount ++
            [' ', ' ', ';']).getLast?).map isspace).getD false = false := by
          rw [List.getLast?_append_of_ne_nil _ (by simp)]
          exact hsemi3
        have h := trimRight_append (List.replicate (max 2 (50 - p.account.length)) ' ' ++
          p.amount ++ [' ', ' ', ';']) (' ' :: p.comment) hl2
        simp only [hc, ne_eq, not_false_eq_true, if_true]
        have e1 : List.replicate (max 2 (50 - p.account.length)) ' ' ++ p.amount ++
            ("  ; ".toList ++ p.comment) =
            List.replicate (max 2 (50 - p.account.length)) ' ' ++ p.amount ++ [' ', ' ', ';'] ++
              (' ' :: p.comment) := by
          simp
        rw [e1, h, hpad]
        simp
      · have hnot : ';' ∉ List.replicate (max 2 (50 - p.account.length)) ' ' ++ p.amount ++
            [' ', ' '] := by
          intro h
          rcases List.mem_append.mp h with h | h
          · exact hnosemi _ h
          · revert h
            decide
        have hfind := findChar_append_of_not_mem ';' _ (';' :: trimRight (' ' :: p.comment)) hnot
        have hcut : cutComment (' ' :: ' ' ::
            (List.replicate (max 2 (50 - p.account.length) - 2) ' ' ++ p.amount ++
              ' ' :: ' ' :: ';' :: trimRight (' ' :: p.comment))) =
            List.replicate (max 2 (50 - p.account.length)) ' ' ++ p.amount ++ [' ', ' '] := by
          have e2 : ' ' :: ' ' :: (List.replicate (max 2 (50 - p.account.length) - 2) ' ' ++
              p.amount ++ ' ' :: ' ' :: ';' :: trimRight (' ' :: p.comment)) =
              (List.replicate (max 2 (50 - p.account.length)) ' ' ++ p.amount ++ [' ', ' ']) ++
                ';' :: trimRight (' ' :: p.comment) := by
            rw [hpad]
            simp
          rw [e2]
          unfold cutComment
          rw [hfind]
          simp only [findChar, if_true, Option.map_some', Nat.zero_add]
          exact List.take_left' rfl
        rw [hcut]
        exact trim_pad_amount_spaces _ _ he

theorem wellFormedPosting_iff (p : Posting) :
    wellFormedPosting p = true ↔
      p.account ≠ [] ∧ noEdgeSpace p.account = true ∧ '$' ∉ p.account ∧ '\n' ∉ p.account ∧
      noAdjacentSpaces p.account = true ∧ p.account.head? ≠ some ';' ∧
      matchDate p.account = false ∧ (p.amount = [] ∨ p.account.length ≤ 50) ∧
      noEdgeSpace p.amount = true ∧ ';' ∉ p.amount ∧ '\n' ∉ p.amount ∧ '\n' ∉ p.comment := by
  have hc : ∀ (l : Str) (c : Char), l.contains c = false ↔ c ∉ l := by
    intro l c
    rw [← Bool.not_eq_true, List.contains_iff_exists_mem_beq]
    simp
  simp only [wellFormedPosting, Bool.and_eq_true, Bool.not_eq_true', Bool.or_eq_true,
    decide_eq_true_eq, List.isEmpty_eq_false, List.isEmpty_iff, bne_iff_ne, ne_eq,
    hc, and_assoc]

theorem postingLine_eq (p : Posting) :
    postingLine p = ([' ', ' '] ++ p.account) ++ postingRest p := by
  simp [postingLine, postingRest]

theorem trim_postingLine (p : Posting) (hne : p.account ≠ [])
    (he : noEdgeSpace p.account = true) :
    trim (postingLine p) = p.account ++ trimRight (postingRest p) := by
  obtain ⟨hh, hl⟩ := (noEdgeSpace_iff p.account).mp he
  have hl2 : ((([' ', ' '] ++ p.account).getLast?).map isspace).getD false = false := by
    rw [List.getLast?_append_of_ne_nil _ hne]
    exact hl
  have hh2 : (((p.account ++ trimRight (postingRest p)).head?).map isspace).getD false =
      false := by
    rw [List.head?_append_of_ne_nil _ hne]
    exact hh
  have hsp : isspace ' ' = true := by decide
  unfold trim
  rw [postingLine_eq, trimRight_append _ _ hl2]
  unfold trimLeft
  simp only [List.cons_append, List.nil_append, List.dropWhile_cons_of_pos, hsp]
  exact dropWhile_eq_self_of_head isspace _ hh2

/-- A formatted posting line is read back by the parser as the posting without
its comment. -/
theorem addLine_postingLine (cur : Transaction) (p : Posting)
    (hw : wellFormedPosting p = true) (hopen : cur.startLine ≠ -1) :
    matchHeader (trim (postingLine p)) = none ∧
    addLine cur (postingLine p) =
      { cur with postings := cur.postings ++ [p.stripComment] } := by
  obtain ⟨hne, he, hd, _, hadj, hsemi, hdate, _, hea, hsa, _, _⟩ :=
    (wellFormedPosting_iff p).mp hw
  have htrim := trim_postingLine p hne he
  have hcases := postingRest_cases p hea hsa
  have hhead : (postingLine p).head? = some ' ' := by simp [postingLine]
  have hthead : (trim (postingLine p)).head? = p.account.head? := by
    rw [htrim, List.head?_append_of_ne_nil _ hne]
  have htne : trim (postingLine p) ≠ [] := by
    rw [htrim]
    simp [hne]
  have hmd : matchDate (trim (postingLine p)) = false := by
    rw [htrim]
    apply matchDate_append_space _ _ hdate
    rcases hcases with ⟨_, h⟩ | ⟨rest, h, _⟩
    · exact Or.inl h
    · right
      rw [h]
      rfl
  have hparse : parsePosting (trim (postingLine p)) = p.stripComment := by
    rw [htrim]
    rcases hcases with ⟨ha, h⟩ | ⟨rest, h, hamount⟩
    · rw [h, List.append_nil, parsePosting_plain _ hd hadj]
      simp [Posting.stripComment, ha]
    · rw [h, parsePosting_split _ _ hne he hd hadj, hamount]
      rfl
  constructor
  · unfold matchHeader
    rw [hmd]
    rfl
  · have hsp : isspace ' ' = true := by decide
    unfold addLine
    rw [if_neg htne, hhead, hthead, hparse]
    simp only [Option.map_some', Option.getD_some, hsp, if_true, hopen, if_false, hsemi]

theorem parseLoop_postingLines (ps : List Posting) (n : Nat) (cur : Transaction)
    (hopen : cur.startLine ≠ -1) (hw : ∀ p ∈ ps, wellFormedPosting p = true) :
    parseLoop (ps.map postingLine) n cur [] =
      [{ cur with postings := cur.postings ++ ps.map Posting.stripComment }] := by
  induction ps generalizing n cur with
  | nil => simp [parseLoop, pushOpen, hopen]
  | cons p ps ih =>
    obtain ⟨h1, h2⟩ := addLine_postingLine cur p (hw p (by simp)) hopen
    rw [List.map_cons, parseLoop_cons_other _ _ _ _ _ h1, h2,
      ih (n + 1) { cur with postings := cur.postings ++ [p.stripComment] } hopen
        (fun q hq => hw q (by simp [hq]))]
    simp

theorem formatPosting_wellFormed (p : Posting) (hw : wellFormedPosting p = true) :
    formatPosting p = .ok (postingLine p ++ ['\n']) := by
  obtain ⟨_, _, _, _, _, _, _, hlen, _, _, _, _⟩ := (wellFormedPosting_iff p).mp hw
  unfold formatPosting
  by_cases ha : p.amount ≠ []
  · have h50 : p.account.length ≤ 50 := by
      rcases hlen with h | h
      · exact absurd h ha
      · exact h
    have hpad : ¬ (amountPadding p.account.length > stringMaxSize) := by
      rw [amountPadding_short _ h50]
      simp only [stringMaxSize]
      omega
    have hspaces : spaces (amountPadding p.account.length) =
        .ok (List.replicate (max 2 (50 - p.account.length)) ' ') := by
      unfold spaces
      rw [if_neg hpad, amountPadding_short _ h50]
    rw [if_pos ha, hspaces]
    simp [postingLine, ha]
  · rw [if_neg ha]
    simp [postingLine, ha]

theorem formatPostings_wellFormed (ps : List Posting)
    (hw : ∀ p ∈ ps, wellFormedPosting p = true) :
    formatPostings ps = .ok (unlines (ps.map postingLine)) := by
  induction ps with
  | nil => rfl
  | cons p ps ih =>
    simp only [formatPostings]
    rw [formatPosting_wellFormed p (hw p (by simp)), ih (fun q hq => hw q (by simp [hq]))]
    simp [unlines]

theorem postingLine_no_newline (p : Posting) (hw : wellFormedPosting p = true) :
    '\n' ∉ postingLine p := by
  obtain ⟨_, _, _, hn1, _, _, _, _, _, _, hn2, hn3⟩ := (wellFormedPosting_iff p).mp hw
  have hrep : ∀ k, '\n' ∉ List.replicate k ' ' := by
    intro k h
    have := List.eq_of_mem_replicate h
    revert this
    decide
  unfold postingLine
  intro h
  simp only [List.mem_append] at h
  rcases h with (((h | h) | h) | h)
  · revert h; decide
  · exact hn1 h
  · split at h
    · rcases List.mem_append.mp h with h | h
      · exact hrep _ h
      · exact hn2 h
    · simp at h
  · split at h
    · rcases List.mem_append.mp h with h | h
      · revert h; decide
      · exact hn3 h
    · simp at h

/-! ## Round trip of a well-formed transaction -/

theorem wellFormedTransaction_iff (t : Transaction) :
    wellFormedTransaction t = true ↔
      t.date.length = 10 ∧ matchDate t.date = true ∧ ¬ (t.cleared = true ∧ t.pending = true) ∧
      t.payee ≠ [] ∧ noEdgeSpace t.payee = true ∧ t.payee.any isLineTerminator = false ∧
      (t.cleared = true ∨ t.pending = true ∨
        (t.payee.head? ≠ some '*' ∧ t.payee.head? ≠ some '!')) ∧
      ∀ p ∈ t.postings, wellFormedPosting p = true := by
  simp only [wellFormedTransaction, Bool.and_eq_true, Bool.not_eq_true', Bool.or_eq_true,
    decide_eq_true_eq, List.isEmpty_eq_false, List.isEmpty_iff, bne_iff_ne, ne_eq,
    List.all_eq_true, Bool.and_eq_false_iff, and_assoc, or_assoc]
  constructor
  · rintro ⟨h1, h2, h3, h4, h5, h6, h7, h8⟩
    refine ⟨h1, h2, ?_, h4, h5, h6, h7, h8⟩
    rintro ⟨hc, hp⟩
    rcases h3 with h | h
    · rw [hc] at h; cases h
    · rw [hp] at h; cases h
  · rintro ⟨h1, h2, h3, h4, h5, h6, h7, h8⟩
    refine ⟨h1, h2, ?_, h4, h5, h6, h7, h8⟩
    cases hc : t.cleared with
    | false => exact Or.inl rfl
    | true =>
      cases hp : t.pending with
      | false => exact Or.inr rfl
      | true => exact absurd ⟨hc, hp⟩ h3

theorem headerLine_eq (t : Transaction) :
    headerLine t = t.date ++ ' ' ::
      ((if t.cleared then "* ".toList else if t.pending then "! ".toList else []) ++ t.payee) := by
  simp [headerLine]

/-- The header line of a formatted well-formed transaction is trimmed, matches
the header pattern, and gives back the date, the flags and the payee. -/
theorem headerLine_parse (t : Transaction) (hw : wellFormedTransaction t = true) :
    trim (headerLine t) = headerLine t ∧
    ∃ g, matchHeader (headerLine t) = some g ∧
      ∀ n, newTransaction n g =
        { startLine := (n : Int), date := t.date, cleared := t.cleared, pending := t.pending,
          payee := t.payee, postings := [] } := by
  obtain ⟨hl, hm, hboth, hne, he, hterm, hstar, _⟩ := (wellFormedTransaction_iff t).mp hw
  obtain ⟨hh, hlast⟩ := (noEdgeSpace_iff t.payee).mp he
  have hdne : t.date ≠ [] := by
    intro h0
    rw [h0] at hl
    simp at hl
  constructor
  · apply trim_eq_self
    rw [noEdgeSpace_iff]
    constructor
    · rw [headerLine_eq, List.head?_append_of_ne_nil _ hdne]
      cases hd : t.date with
      | nil => exact absurd hd hdne
      | cons c cs =>
        have := date_no_space t.date hl hm c (by simp [hd])
        simpa using this
    · have : headerLine t = (t.date ++ " ".toList ++
          (if t.cleared then "* ".toList else if t.pending then "! ".toList else [])) ++
          t.payee := rfl
      rw [this, List.getLast?_append_of_ne_nil _ hne]
      exact hlast
  · rw [headerLine_eq]
    cases hc : t.cleared with
    | true =>
      have hp : t.pending = false := by
        cases hp : t.pending with
        | false => rfl
        | true => exact absurd ⟨hc, hp⟩ hboth
      refine ⟨(t.date, ['*'], t.payee), ?_, ?_⟩
      · exact matchHeader_marker t.date t.payee '*' hl hm (Or.inl rfl) hh hterm
      · intro n
        simp [newTransaction, hp]
    | false =>
      cases hp : t.pending with
      | true =>
        refine ⟨(t.date, ['!'], t.payee), ?_, ?_⟩
        · exact matchHeader_marker t.date t.payee '!' hl hm (Or.inr rfl) hh hterm
        · intro n
          simp [newTransaction]
      | false =>
        have hs : t.payee.head? ≠ some '*' ∧ t.payee.head? ≠ some '!' := by
          rcases hstar with h | h | h
          · rw [hc] at h; cases h
          · rw [hp] at h; cases h
          · exact h
        refine ⟨(t.date, [], t.payee), ?_, ?_⟩
        · exact matchHeader_plain t.date t.payee hl hm hne hh hs.1 hs.2 hterm
        · intro n
          simp [newTransaction]

theorem headerLine_no_newline (t : Transaction) (hw : wellFormedTransaction t = true) :
    '\n' ∉ headerLine t := by
  obtain ⟨hl, hm, _, _, _, hterm, _, _⟩ := (wellFormedTransaction_iff t).mp hw
  have hd := date_no_newline t.date hl hm
  have hp : '\n' ∉ t.payee := by
    intro h
    have : t.payee.any isLineTerminator = true := List.any_eq_true.mpr ⟨'\n', h, by decide⟩
    rw [hterm] at this
    cases this
  rw [headerLine_eq]
  intro h
  rcases List.mem_append.mp h with h | h
  · exact hd h
  · rcases List.mem_cons.mp h with h | h
    · revert h; decide
    · rcases List.mem_append.mp h with h | h
      · split at h
        · revert h; decide
        · split at h
          · revert h; decide
          · simp at h
      · exact hp h

/-- The text of a well-formed transaction: its header line and one line per
posting, each ended by a newline. -/
theorem formatTransaction_wellFormed (t : Transaction) (hw : wellFormedTransaction t = true) :
    formatTransaction t = .ok (unlines (headerLine t :: t.postings.map postingLine)) := by
  obtain ⟨_, _, _, _, _, _, _, hps⟩ := (wellFormedTransaction_iff t).mp hw
  unfold formatTransaction
  rw [formatPostings_wellFormed t.postings hps]
  simp [unlines, formatHeader, headerLine]

theorem getlines_formatted (t : Transaction) (hw : wellFormedTransaction t = true) :
    getlines (unlines (headerLine t :: t.postings.map postingLine)) =
      headerLine t :: t.postings.map postingLine := by
  obtain ⟨_, _, _, _, _, _, _, hps⟩ := (wellFormedTransaction_iff t).mp hw
  apply getlines_unlines
  intro l hl
  rcases List.mem_cons.mp hl with rfl | hl
  · exact headerLine_no_newline t hw
  · obtain ⟨p, hp, rfl⟩ := List.mem_map.mp hl
    exact postingLine_no_newline p (hps p hp)

/-- Parsing the lines of a formatted well-formed transaction, from any line
number, yields that transaction alone, without its posting comments. -/
theorem parseLoop_formatted (t : Transaction) (n : Nat) (hw : wellFormedTransaction t = true) :
    parseLoop (headerLine t :: t.postings.map postingLine) n Transaction.default [] =
      [reparsed n t] := by
  obtain ⟨_, _, _, _, _, _, _, hps⟩ := (wellFormedTransaction_iff t).mp hw
  obtain ⟨htrim, g, hg, hnew⟩ := headerLine_parse t hw
  have hg2 : matchHeader (trim (headerLine t)) = some g := by rw [htrim]; exact hg
  have hopen : (newTransaction n g).startLine ≠ -1 := by
    rw [hnew n]
    simp only [ne_eq]
    omega
  rw [parseLoop_cons_header _ _ _ _ _ g hg2, pushOpen_default,
    parseLoop_postingLines t.postings (n + 1) _ hopen hps, hnew n]
  simp [reparsed]

theorem formatted_round_trip (t : Transaction) (n : Nat) (hw : wellFormedTransaction t = true) :
    formatTransaction t = .ok (unlines (headerLine t :: t.postings.map postingLine)) ∧
    parseLoop (getlines (unlines (headerLine t :: t.postings.map postingLine))) n
      Transaction.default [] = [reparsed n t] := by
  refine ⟨formatTransaction_wellFormed t hw, ?_⟩
  rw [getlines_formatted t hw]
  exact parseLoop_formatted t n hw

/-- C1, as stated, fails: with a well-formed date and one posting, an empty
payee makes the formatted text parse to no transaction at all, and a `$` in the
account moves the split point, so the parsed account and amount differ. -/
theorem round_trip_fails :
    (formatTransaction emptyPayeeTransaction = .ok "2024/01/01 \n  A\n".toList ∧
      parseTransactions "2024/01/01 \n  A\n".toList = []) ∧
    (∃ f, formatTransaction dollarAccountTransaction = .ok f ∧
      (parseTransactions f).map (fun u => u.postings.map Posting.accountAmount) ≠
        [dollarAccountTransaction.postings.map Posting.accountAmount]) := by
  refine ⟨⟨rfl, by decide⟩, ?_⟩
  refine ⟨_, rfl, ?_⟩
  decide

/-- C1, amended. For every well-formed transaction `T` (date `dddd/dd/dd`;
not both flags; payee non-empty, without white space at its ends or line
terminator, not starting with `*` or `!` when no flag is set; accounts
non-empty, without white space at the ends, `$`, line break or adjacent white
space, not starting with `;` or a date, at most 50 characters when an amount
follows; amounts without white space at the ends, `;` or line break; comments
without line break), `formatTransaction` succeeds and its text parses to exactly
one transaction with the date, cleared, pending and payee of `T` and, position
by position, the accounts and amounts of its postings. -/
theorem round_trip (t : Transaction) (hw : wellFormedTransaction t = true) :
    ∃ f u, formatTransaction t = .ok f ∧ parseTransactions f = [u] ∧
      u.date = t.date ∧ u.cleared = t.cleared ∧ u.pending = t.pending ∧ u.payee = t.payee ∧
      u.postings.map Posting.accountAmount = t.postings.map Posting.accountAmount := by
  obtain ⟨hf, hp⟩ := formatted_round_trip t 0 hw
  refine ⟨_, reparsed 0 t, hf, hp, rfl, rfl, rfl, rfl, ?_⟩
  simp only [reparsed, List.map_map]
  rfl

/-- Witness for C1 (amended): `sampleTransaction`. -/
theorem round_trip_witness :
    ∃ f u, formatTransaction sampleTransaction = .ok f ∧ parseTransactions f = [u] ∧
      u.date = sampleTransaction.date ∧ u.cleared = sampleTransaction.cleared ∧
      u.pending = sampleTransaction.pending ∧ u.payee = sampleTransaction.payee ∧
      u.postings.map Posting.accountAmount =
        sampleTransaction.postings.map Posting.accountAmount :=
  round_trip sampleTransaction (by decide)

/-! ## Add -/

theorem parseLoop_blank_end (a : List Str) (n : Nat) (cur : Transaction)
    (txs : List Transaction) : parseLoop (a ++ [[]]) n cur txs = parseLoop a n cur txs := by
  induction a generalizing n cur txs with
  | nil => simp [parseLoop, trim, trimLeft, trimRight]
  | cons l ls ih =>
    cases h : matchHeader (trim l) with
    | none =>
      rw [List.cons_append, parseLoop_cons_other _ _ _ _ _ h, parseLoop_cons_other _ _ _ _ _ h,
        ih]
    | some g =>
      rw [List.cons_append, parseLoop_cons_header _ _ _ _ _ g h,
        parseLoop_cons_header _ _ _ _ _ g h, ih]

theorem getlines_newline_end (c : Str) :
    getlines (c ++ ['\n']) = getlines c ∨ getlines (c ++ ['\n']) = getlines c ++ [[]] := by
  have hu := unlines_getlines c
  by_cases hc : c = [] ∨ c.getLast? = some '\n'
  · right
    rw [if_pos hc] at hu
    have h2 : c ++ ['\n'] = unlines (getlines c ++ [[]]) := by
      rw [unlines_append, hu]
      rfl
    rw [h2]
    apply getlines_unlines
    intro l hl
    rcases List.mem_append.mp hl with hl | hl
    · exact getlines_no_newline c l hl
    · simp only [List.mem_singleton] at hl
      subst hl
      simp
  · left
    rw [if_neg hc] at hu
    rw [← hu]
    exact getlines_unlines _ (getlines_no_newline c)

/-- Appending a newline and the text of a well-formed transaction appends one
transaction to the parse. -/
theorem parse_append_formatted (content : Str) (t : Transaction)
    (hw : wellFormedTransaction t = true) :
    ∃ n : Nat, parseTransactions
        (content ++ '\n' :: unlines (headerLine t :: t.postings.map postingLine)) =
      parseTransactions content ++ [reparsed n t] := by
  obtain ⟨htrim, g, hg, _⟩ := headerLine_parse t hw
  have hhead : isHeaderLine (headerLine t) = true := by
    rw [isHeaderLine_iff]
    exact ⟨g, by rw [htrim]; exact hg⟩
  have hsplit : content ++ '\n' :: unlines (headerLine t :: t.postings.map postingLine) =
      (content ++ ['\n']) ++ unlines (headerLine t :: t.postings.map postingLine) := by
    simp
  have hterm : content ++ ['\n'] = [] ∨ (content ++ ['\n']).getLast? = some '\n' := by
    right
    simp
  unfold parseTransactions
  rw [hsplit, getlines_append_terminated _ _ hterm, getlines_formatted t hw,
    parseLoop_append _ _ _ _ (Or.inr ⟨_, _, rfl, hhead⟩), parseLoop_formatted t _ hw]
  refine ⟨0 + (getlines (content ++ ['\n'])).length, ?_⟩
  congr 1
  rcases getlines_newline_end content with h | h
  · rw [h]
  · rw [h, parseLoop_blank_end]

/-- C5, as stated, fails: a payload that passes the validation with a date
that is not `dddd/dd/dd` is appended to `sampleLedger`, but the new content
parses to 2 transactions, not 3, and the last one has gained a posting. -/
theorem add_fails_on_bad_date :
    missingRequired badDatePayload = false ∧
    (addTransaction sampleFs badDatePayload).2 = .ok true ∧
    (addTransaction sampleFs badDatePayload).1.ledger.map
      (fun c => (parseTransactions c).length) ≠ some ((parseTransactions sampleLedger).length + 1) ∧
    (addTransaction sampleFs badDatePayload).1.ledger.map
      (fun c => (parseTransactions c).map (fun u => u.postings.length)) = some [2, 3] ∧
    (parseTransactions sampleLedger).map (fun u => u.postings.length) = [2, 2] := by
  refine ⟨rfl, rfl, ?_, ?_, ?_⟩ <;> decide

/-- C5, amended. For every ledger content and every payload accepted by the
validation whose transaction is well formed (as in the round trip), the content
written by `addTransaction` is the old content, a newline, then the formatted
transaction, and it parses to the transactions of the old content, unchanged,
followed by one transaction with the date, payee, flags and postings (account
and amount) of the payload. -/
theorem add_appends_transaction (fs : FileSystem) (content : Str) (data : Json)
    (t : Transaction)
    (hfs : fs.ledger = some content) (hc : fs.copyOk = true) (ho : fs.openOk = true)
    (hv : missingRequired data = false) (hr : readTransaction data = .ok t)
    (hw : wellFormedTransaction t = true) :
    ∃ f, formatTransaction t = .ok f ∧
      addTransaction fs data =
        ({ fs with backup := some content, ledger := some (content ++ '\n' :: f) }, .ok true) ∧
      (parseTransactions (content ++ '\n' :: f)).length =
        (parseTransactions content).length + 1 ∧
      ∃ n : Nat, parseTransactions (content ++ '\n' :: f) =
        parseTransactions content ++ [reparsed n t] := by
  have hf := formatTransaction_wellFormed t hw
  obtain ⟨n, hn⟩ := parse_append_formatted content t hw
  refine ⟨_, hf, addTransaction_ok fs content data t _ hfs hc ho hv hr hf, ?_, n, hn⟩
  rw [hn]
  simp

/-- Witness for C5 (amended): adding `samplePayload` to `sampleLedger`. -/
theorem add_appends_transaction_witness :
    ∃ f, formatTransaction sampleTransaction = .ok f ∧
      addTransaction sampleFs samplePayload =
        ({ sampleFs with backup := some sampleLedger,
                         ledger := some (sampleLedger ++ '\n' :: f) }, .ok true) ∧
      (parseTransactions (sampleLedger ++ '\n' :: f)).length =
        (parseTransactions sampleLedger).length + 1 ∧
      ∃ n : Nat, parseTransactions (sampleLedger ++ '\n' :: f) =
        parseTransactions sampleLedger ++ [reparsed n sampleTransaction] :=
  add_appends_transaction sampleFs sampleLedger samplePayload sampleTransaction
    rfl rfl rfl rfl rfl (by decide)

/-! ## Transaction boundaries -/

theorem pushOpen_addLine_startLine (cur : Transaction) (line : Str) :
    (pushOpen [] (addLine cur line)).map Transaction.startLine =
      (pushOpen [] cur).map Transaction.startLine := by
  have h := addLine_startLine cur line
  unfold pushOpen
  rw [h]
  split <;> simp [h]

theorem parseLoop_startLines (lines : List Str) (n : Nat) (cur : Transaction) :
    (parseLoop lines n cur []).map Transaction.startLine =
      (pushOpen [] cur).map Transaction.startLine ++
        (headerIndices n lines).map Int.ofNat := by
  induction lines generalizing n cur with
  | nil => simp [parseLoop, headerIndices]
  | cons l ls ih =>
    cases h : matchHeader (trim l) with
    | none =>
      have hh : isHeaderLine l = false := (isHeaderLine_false l).mpr h
      rw [parseLoop_cons_other _ _ _ _ _ h, ih, pushOpen_addLine_startLine]
      simp [headerIndices, hh]
    | some g =>
      have hh : isHeaderLine l = true := (isHeaderLine_iff l).mpr ⟨g, h⟩
      rw [parseLoop_cons_header _ _ _ _ _ g h, parseLoop_acc, List.map_append, ih,
        pushOpen_newTransaction]
      simp [headerIndices, hh, newTransaction]

theorem headerIndices_mem (lines : List Str) (n k : Nat) :
    k ∈ headerIndices n lines ↔
      ∃ j l, k = n + j ∧ lines[j]? = some l ∧ isHeaderLine l = true := by
  induction lines generalizing n with
  | nil => simp [headerIndices]
  | cons x xs ih =>
    have hstep : (∃ j l, k = n + j ∧ (x :: xs)[j]? = some l ∧ isHeaderLine l = true) ↔
        ((k = n ∧ isHeaderLine x = true) ∨
          ∃ j l, k = n + 1 + j ∧ xs[j]? = some l ∧ isHeaderLine l = true) := by
      constructor
      · rintro ⟨j, l, hk, hl, hh⟩
        cases j with
        | zero =>
          simp only [List.getElem?_cons_zero, Option.some.injEq] at hl
          subst hl
          exact Or.inl ⟨by omega, hh⟩
        | succ j =>
          simp only [List.getElem?_cons_succ] at hl
          exact Or.inr ⟨j, l, by omega, hl, hh⟩
      · rintro (⟨hk, hh⟩ | ⟨j, l, hk, hl, hh⟩)
        · exact ⟨0, x, by omega, by simp, hh⟩
        · exact ⟨j + 1, l, by omega, by simpa using hl, hh⟩
    rw [hstep]
    by_cases hx : isHeaderLine x = true
    · simp only [headerIndices, hx, if_true, List.mem_cons, ih (n + 1), and_true]
    · simp only [headerIndices, hx, if_false, ih (n + 1), and_false, false_or,
        Bool.false_eq_true]

theorem headerIndices_sorted (lines : List Str) (n : Nat) :
    (headerIndices n lines).Pairwise (· < ·) := by
  induction lines generalizing n with
  | nil => simp [headerIndices]
  | cons x xs ih =>
    unfold headerIndices
    split
    · rw [List.pairwise_cons]
      refine ⟨?_, ih (n + 1)⟩
      intro k hk
      obtain ⟨j, _, hj, _, _⟩ := (headerIndices_mem xs (n + 1) k).mp hk
      omega
    · exact ih (n + 1)

theorem headerIndices_length (lines : List Str) (n : Nat) :
    (headerIndices n lines).length = (lines.filter isHeaderLine).length := by
  induction lines generalizing n with
  | nil => rfl
  | cons x xs ih =>
    by_cases hx : isHeaderLine x = true
    · simp [headerIndices, hx, ih (n + 1)]
    · simp [headerIndices, hx, ih (n + 1)]

theorem parseTransactions_startLines (content : Str) :
    (parseTransactions content).map Transaction.startLine =
      (headerIndices 0 (getlines content)).map Int.ofNat := by
  unfold parseTransactions
  rw [parseLoop_startLines, pushOpen_default]
  rfl

/-- C11. `parseTransactions` returns one transaction per header line (a line
whose trimmed text matches the header pattern), in file order: the `startLine`
values are the indices of the header lines, strictly increasing (hence pairwise
distinct); a number is a `startLine` exactly when the line of that index is a
header line; and a content without header line parses to the empty list. -/
theorem parser_transaction_boundaries (content : Str) :
    (parseTransactions content).map Transaction.startLine =
      (headerIndices 0 (getlines content)).map Int.ofNat ∧
    (parseTransactions content).length = ((getlines content).filter isHeaderLine).length ∧
    ((parseTransactions content).map Transaction.startLine).Pairwise (· < ·) ∧
    (∀ k : Nat, (k : Int) ∈ (parseTransactions content).map Transaction.startLine ↔
      ∃ l, (getlines content)[k]? = some l ∧ isHeaderLine l = true) ∧
    (∀ s ∈ (parseTransactions content).map Transaction.startLine, (0 : Int) ≤ s) ∧
    ((∀ l ∈ getlines content, isHeaderLine l = false) → parseTransactions content = []) := by
  have hs := parseTransactions_startLines content
  have hlen : (parseTransactions content).length =
      ((getlines content).filter isHeaderLine).length := by
    have := congrArg List.length hs
    simpa [headerIndices_length] using this
  refine ⟨hs, hlen, ?_, ?_, ?_, ?_⟩
  · rw [hs, List.pairwise_map]
    exact (headerIndices_sorted _ 0).imp (fun h => Int.ofNat_lt.mpr h)
  · intro k
    rw [hs]
    constructor
    · intro hk
      obtain ⟨m, hm, hmk⟩ := List.mem_map.mp hk
      have : m = k := Int.ofNat.inj hmk
      subst this
      obtain ⟨j, l, hj, hl, hh⟩ := (headerIndices_mem _ 0 m).mp hm
      have : m = j := by omega
      subst this
      exact ⟨l, hl, hh⟩
    · rintro ⟨l, hl, hh⟩
      exact List.mem_map.mpr ⟨k, (headerIndices_mem _ 0 k).mpr ⟨k, l, by omega, hl, hh⟩, rfl⟩
  · intro s hsm
    rw [hs] at hsm
    obtain ⟨m, _, rfl⟩ := List.mem_map.mp hsm
    exact Int.ofNat_nonneg m
  · intro hno
    have hf : (getlines content).filter isHeaderLine = [] := by
      rw [List.filter_eq_nil_iff]
      intro l hl
      rw [hno l hl]
      simp
    rw [hf] at hlen
    exact List.length_eq_zero.mp hlen

/-! ## The posting split rule -/

theorem spaceRunFrom_eq (i : Nat) (s : Str) :
    spaceRunFrom i s = match specFirstSpaceRun s with
      | none => 0
      | some w => i + w := by
  induction s generalizing i with
  | nil => rfl
  | cons a t ih =>
    cases t with
    | nil => rfl
    | cons b rest =>
      by_cases hab : (isspace a && isspace b) = true
      · simp [spaceRunFrom, specFirstSpaceRun, hab]
      · simp only [spaceRunFrom, specFirstSpaceRun, hab, if_false, Bool.false_eq_true]
        rw [ih (i + 1)]
        cases specFirstSpaceRun (b :: rest) with
        | none => rfl
        | some w =>
          show i + 1 + w = i + (w + 1)
          omega

theorem specFirstSpaceRun_pos (s : Str) (h : (s.head?.map isspace).getD false = false) :
    specFirstSpaceRun s ≠ some 0 := by
  cases s with
  | nil => simp [specFirstSpaceRun]
  | cons a t =>
    cases t with
    | nil => simp [specFirstSpaceRun]
    | cons b rest =>
      have ha : isspace a = false := by simpa using h
      simp only [specFirstSpaceRun, ha, Bool.false_and, Bool.false_eq_true, if_false]
      cases specFirstSpaceRun (b :: rest) <;> simp

theorem splitPos_eq_spec (s : Str) (h : (s.head?.map isspace).getD false = false) :
    splitPos (findChar '$' s) (spaceRunFrom 0 s) = specSplitPoint s := by
  have hpos := specFirstSpaceRun_pos s h
  rw [spaceRunFrom_eq]
  unfold specSplitPoint splitPos
  cases hw : specFirstSpaceRun s with
  | none =>
    cases findChar '$' s <;> simp
  | some w =>
    have hw0 : w ≠ 0 := by
      intro h0
      rw [hw, h0] at hpos
      exact hpos rfl
    cases findChar '$' s with
    | none => simp [hw0]
    | some d =>
      simp only [Nat.zero_add, hw0, false_or, ne_eq, not_false_eq_true, if_true]

theorem cutComment_eq_takeWhile (r : Str) : cutComment r = r.takeWhile (· != ';') := by
  unfold cutComment
  induction r with
  | nil => rfl
  | cons x xs ih =>
    by_cases hx : x = ';'
    · subst hx
      simp [findChar]
    · have hne : (x != ';') = true := by simpa using hx
      simp only [findChar, hx, if_false, List.takeWhile_cons, hne, if_true]
      cases hf : findChar ';' xs with
      | none =>
        rw [hf] at ih
        simp only [Option.map_none']
        rw [← ih]
      | some n =>
        rw [hf] at ih
        simp only [Option.map_some', List.take_succ_cons]
        rw [← ih]

theorem trim_head_not_space (s : Str) : ((trim s).head?.map isspace).getD false = false := by
  unfold trim trimLeft
  have h := List.head?_dropWhile_not isspace (trimRight s)
  cases hd : (List.dropWhile isspace (trimRight s)).head? with
  | none => rfl
  | some c =>
    rw [hd] at h
    simpa using h

theorem parsePosting_eq_spec (s : Str) (h : (s.head?.map isspace).getD false = false) :
    parsePosting s = specPosting s := by
  unfold parsePosting specPosting
  rw [splitPos_eq_spec s h]
  cases specSplitPoint s with
  | none => rfl
  | some p =>
    have := cutComment_eq_takeWhile (s.drop p)
    unfold cutComment at this
    simp only [this]

/-- C12, amended. The posting built from a line with trimmed text `s` is the
one the split rule describes (split at the first `$` if it comes before the
first pair of adjacent white-space characters or there is no such pair, else at
that pair; account `trim(s[0..p))`, amount `trim` of `s[p..]` cut before its
first `;`; the whole of `s` as account and an empty amount without split point),
and this is the posting the loop appends for every indented, non-comment line
under an open transaction whose trimmed text is non-empty and does not match
the header pattern. -/
theorem posting_split_rule (line : Str) :
    parsePosting (trim line) = specPosting (trim line) ∧
    ∀ (rest : List Str) (n : Nat) (cur : Transaction) (txs : List Transaction),
      trim line ≠ [] → matchHeader (trim line) = none →
      (line.head?.map isspace).getD false = true → cur.startLine ≠ -1 →
      (trim line).head? ≠ some ';' →
      parseLoop (line :: rest) n cur txs =
        parseLoop rest (n + 1)
          { cur with postings := cur.postings ++ [specPosting (trim line)] } txs := by
  have hspec := parsePosting_eq_spec (trim line) (trim_head_not_space line)
  refine ⟨hspec, ?_⟩
  intro rest n cur txs hne hm hsp hopen hsemi
  rw [parseLoop_cons_other _ _ _ _ _ hm]
  unfold addLine
  rw [if_neg hne, if_pos hsp, if_neg hopen, if_neg hsemi, hspec]

/-- The two posting lines of the specification's scenarios A and B. -/
theorem posting_split_rule_examples :
    parsePosting (trim "  Expenses:Food  $50".toList) =
      { account := "Expenses:Food".toList, amount := "$50".toList, comment := [] } ∧
    specPosting (trim "  Expenses:Food  $50".toList) =
      { account := "Expenses:Food".toList, amount := "$50".toList, comment := [] } ∧
    parsePosting (trim "  Expenses:Food".toList) =
      { account := "Expenses:Food".toList, amount := [], comment := [] } ∧
    specPosting (trim "  Expenses:Food".toList) =
      { account := "Expenses:Food".toList, amount := [], comment := [] } := by
  decide

/-- Witness for C12 (amended): the posting line of scenario A under an open
transaction. -/
theorem posting_split_rule_witness :
    parsePosting (trim "  Expenses:Food  $50".toList) =
      specPosting (trim "  Expenses:Food  $50".toList) ∧
    parseLoop ["  Expenses:Food  $50".toList] 1
        (newTransaction 0 ("2024/01/01".toList, ['*'], "Grocery".toList)) [] =
      parseLoop [] (1 + 1)
        { newTransaction 0 ("2024/01/01".toList, ['*'], "Grocery".toList) with
          postings := (newTransaction 0 ("2024/01/01".toList, ['*'], "Grocery".toList)).postings ++
            [specPosting (trim "  Expenses:Food  $50".toList)] } [] :=
  ⟨(posting_split_rule "  Expenses:Food  $50".toList).1,
    (posting_split_rule "  Expenses:Food  $50".toList).2 [] 1
      (newTransaction 0 ("2024/01/01".toList, ['*'], "Grocery".toList)) []
      (by decide) (by decide) (by decide) (by decide) (by decide)⟩

/-! ## Invariants of the parsed transactions -/

theorem addLine_cases (cur : Transaction) (line : Str) :
    addLine cur line = cur ∨
    (trim line ≠ [] ∧
      addLine cur line =
        { cur with postings := cur.postings ++ [parsePosting (trim line)] }) := by
  unfold addLine
  by_cases h0 : trim line = []
  · left; rw [if_pos h0]
  · rw [if_neg h0]
    split
    · split
      · left; rfl
      · split
        · left; rfl
        · right; exact ⟨h0, rfl⟩
    · left; rfl

/-- A property of transactions that holds for every freshly started
transaction and is kept by every non-header line holds for all parsed
transactions. -/
theorem parseLoop_invariant (Q : Transaction → Prop) (lines : List Str)
    (hnew : ∀ n s g, matchHeader s = some g → Q (newTransaction n g))
    (hadd : ∀ cur, ∀ line ∈ lines, Q cur → Q (addLine cur line))
    (n : Nat) (cur : Transaction) (txs : List Transaction)
    (hcur : Q cur) (htxs : ∀ t ∈ txs, Q t) :
    ∀ t ∈ parseLoop lines n cur txs, Q t := by
  induction lines generalizing n cur txs with
  | nil =>
    intro t ht
    simp only [parseLoop, pushOpen] at ht
    split at ht
    · rcases List.mem_append.mp ht with h | h
      · exact htxs t h
      · simp only [List.mem_singleton] at h
        subst h
        exact hcur
    · exact htxs t ht
  | cons l ls ih =>
    have hadd2 : ∀ cur, ∀ line ∈ ls, Q cur → Q (addLine cur line) :=
      fun c line hl hc => hadd c line (by simp [hl]) hc
    cases h : matchHeader (trim l) with
    | none =>
      rw [parseLoop_cons_other _ _ _ _ _ h]
      exact ih hadd2 (n + 1) _ txs (hadd cur l (by simp) hcur) htxs
    | some g =>
      rw [parseLoop_cons_header _ _ _ _ _ g h]
      apply ih hadd2 (n + 1) _ _ (hnew n _ g h)
      intro t ht
      unfold pushOpen at ht
      split at ht
      · rcases List.mem_append.mp ht with h1 | h1
        · exact htxs t h1
        · simp only [List.mem_singleton] at h1
          subst h1
          exact hcur
      · exact htxs t ht

/-- A property of postings that holds for every posting built from the trimmed
text of a line of the content holds for all postings of all parsed
transactions. -/
theorem parseTransactions_postings (P : Posting → Prop) (content : Str)
    (hP : ∀ line ∈ getlines content, trim line ≠ [] → P (parsePosting (trim line))) :
    ∀ t ∈ parseTransactions content, ∀ p ∈ t.postings, P p := by
  unfold parseTransactions
  apply parseLoop_invariant (fun t => ∀ p ∈ t.postings, P p)
  · intro n s g _ p hp
    simp [newTransaction] at hp
  · intro cur line hline hcur p hp
    rcases addLine_cases cur line with h | ⟨hne, h⟩
    · rw [h] at hp
      exact hcur p hp
    · rw [h] at hp
      rcases List.mem_append.mp hp with h1 | h1
      · exact hcur p h1
      · simp only [List.mem_singleton] at h1
        subst h1
        exact hP line hline hne
  · intro p hp
    simp [Transaction.default] at hp
  · intro t ht
    simp at ht

theorem trim_cons_of_not_space (c : Char) (cs : Str) (hc : isspace c = false) :
    trim (c :: cs) = c :: trimRight cs := by
  unfold trim
  have h := trimRight_append [c] cs (by simpa using hc)
  have e : c :: cs = [c] ++ cs := rfl
  rw [e, h]
  exact trimLeft_eq_self _ (by simpa using hc)

theorem specSplitPoint_pos (c : Char) (cs : Str) (hc : isspace c = false) (hd : c ≠ '$')
    (p : Nat) (hp : specSplitPoint (c :: cs) = some p) : p ≠ 0 := by
  have hw := specFirstSpaceRun_pos (c :: cs) (by simpa using hc)
  have hf : findChar '$' (c :: cs) ≠ some 0 := by
    simp only [findChar, hd, if_false]
    cases findChar '$' cs <;> simp
  unfold specSplitPoint at hp
  intro h0
  subst h0
  cases hfd : findChar '$' (c :: cs) with
  | none =>
    cases hws : specFirstSpaceRun (c :: cs) with
    | none => simp [hfd, hws] at hp
    | some w =>
      simp only [hfd, hws, Option.some.injEq] at hp
      rw [hws, hp] at hw
      exact hw rfl
  | some d =>
    cases hws : specFirstSpaceRun (c :: cs) with
    | none =>
      simp only [hfd, hws, Option.some.injEq] at hp
      rw [hfd, hp] at hf
      exact hf rfl
    | some w =>
      simp only [hfd, hws] at hp
      split at hp
      · simp only [Option.some.injEq] at hp
        rw [hfd, hp] at hf
        exact hf rfl
      · simp only [Option.some.injEq] at hp
        rw [hws, hp] at hw
        exact hw rfl

/-- The account built by the parser is empty exactly for a text that begins
with `$`. -/
theorem parsePosting_account (s : Str) (hne : s ≠ [])
    (h : (s.head?.map isspace).getD false = false) :
    (s.head? ≠ some '$' ∧ trim (parsePosting s).account ≠ []) ∨
    (s.head? = some '$' ∧ (parsePosting s).account = [] ∧
      (parsePosting s).amount.head? = some '$') := by
  rw [parsePosting_eq_spec s h]
  cases s with
  | nil => exact absurd rfl hne
  | cons c cs =>
    have hc : isspace c = false := by simpa using h
    by_cases hd : c = '$'
    · right
      subst hd
      have hsp : specSplitPoint ('$' :: cs) = some 0 := by
        have hw := specFirstSpaceRun_pos ('$' :: cs) h
        unfold specSplitPoint
        have hf : findChar '$' ('$' :: cs) = some 0 := by simp [findChar]
        rw [hf]
        cases hws : specFirstSpaceRun ('$' :: cs) with
        | none => rfl
        | some w =>
          have hw0 : 0 < w := by
            rcases Nat.eq_zero_or_pos w with h0 | h0
            · rw [hws, h0] at hw
              exact absurd rfl hw
            · exact h0
          simp [hw0]
      refine ⟨rfl, ?_, ?_⟩
      · unfold specPosting
        rw [hsp]
        rfl
      · unfold specPosting
        rw [hsp]
        have hne2 : ('$' != ';') = true := by decide
        simp only [List.drop_zero, List.takeWhile_cons, hne2, if_true]
        rw [trim_cons_of_not_space '$' _ hc]
        rfl
    · left
      refine ⟨by simpa using hd, ?_⟩
      unfold specPosting
      cases hsp : specSplitPoint (c :: cs) with
      | none =>
        simp only []
        rw [trim_cons_of_not_space c cs hc]
        simp
      | some p =>
        have hp := specSplitPoint_pos c cs hc hd p hsp
        obtain ⟨q, rfl⟩ := Nat.exists_eq_succ_of_ne_zero hp
        simp only [List.take_succ_cons]
        rw [trim_cons_of_not_space c _ hc, trim_cons_of_not_space c _ hc]
        simp

/-- C13, as stated, fails: a posting line whose trimmed text begins with `$`
is parsed to a posting with an empty account. -/
theorem posting_account_can_be_empty :
    (parseTransactions dollarFirstLedger).map (fun t => t.postings) =
      [[{ account := [], amount := "$50".toList, comment := [] }]] := by
  decide

/-- C13, amended. Every posting of every parsed transaction has an account
that is non-empty after trimming, except that a posting line whose trimmed text
begins with `$` gives an empty account (and an amount that begins with `$`); so
when no line of the content has a trimmed text beginning with `$`, every account
is non-empty after trimming. -/
theorem posting_account_nonempty_unless_dollar (content : Str) :
    (∀ t ∈ parseTransactions content, ∀ p ∈ t.postings,
      trim p.account ≠ [] ∨ (p.account = [] ∧ p.amount.head? = some '$')) ∧
    ((∀ l ∈ getlines content, (trim l).head? ≠ some '$') →
      ∀ t ∈ parseTransactions content, ∀ p ∈ t.postings, trim p.account ≠ []) := by
  constructor
  · apply parseTransactions_postings
    intro line _ hne
    rcases parsePosting_account (trim line) hne (trim_head_not_space line) with
      ⟨_, h⟩ | ⟨_, h1, h2⟩
    · exact Or.inl h
    · exact Or.inr ⟨h1, h2⟩
  · intro hno
    apply parseTransactions_postings
    intro line hl hne
    rcases parsePosting_account (trim line) hne (trim_head_not_space line) with
      ⟨_, h⟩ | ⟨h0, _, _⟩
    · exact h
    · exact absurd h0 (hno line hl)

/-- Witness for C13 (amended): `sampleLedger`, no line of which begins with `$`. -/
theorem posting_account_nonempty_unless_dollar_witness :
    ∀ t ∈ parseTransactions sampleLedger, ∀ p ∈ t.postings, trim p.account ≠ [] :=
  (posting_account_nonempty_unless_dollar sampleLedger).2 (by decide)

theorem addLine_flags (cur : Transaction) (line : Str) :
    (addLine cur line).cleared = cur.cleared ∧ (addLine cur line).pending = cur.pending := by
  rcases addLine_cases cur line with h | ⟨_, h⟩ <;> rw [h] <;> exact ⟨rfl, rfl⟩

theorem newTransaction_flags (n : Nat) (g : Str × Str × Str) :
    ¬ ((newTransaction n g).cleared = true ∧ (newTransaction n g).pending = true) := by
  rintro ⟨h1, h2⟩
  simp only [newTransaction, beq_iff_eq] at h1 h2
  rw [h1] at h2
  revert h2
  decide

theorem readTransaction_fields (data : Json) (t : Transaction)
    (h : readTransaction data = .ok t) : t.pending = false ∧ t.startLine = -1 := by
  unfold readTransaction at h
  split at h
  · cases h
  · split at h
    · cases h
    · split at h
      · cases h
      · split at h
        · cases h
        · simp only [Except.ok.injEq] at h
          subst h
          exact ⟨rfl, rfl⟩

/-- C14. Every transaction the program constructs has at most one of
`cleared` and `pending` set: those returned by `parseTransactions` for any
content, the one `addTransaction` and `updateTransaction` build from any write
payload (its `pending` is never set), and the default-constructed one. -/
theorem status_flags_exclusive (content : Str) (data : Json) :
    (∀ t ∈ parseTransactions content, ¬ (t.cleared = true ∧ t.pending = true)) ∧
    (∀ t, readTransaction data = .ok t → ¬ (t.cleared = true ∧ t.pending = true)) ∧
    ¬ (Transaction.default.cleared = true ∧ Transaction.default.pending = true) := by
  refine ⟨?_, ?_, by decide⟩
  · unfold parseTransactions
    apply parseLoop_invariant (fun t => ¬ (t.cleared = true ∧ t.pending = true))
    · intro n _ g _
      exact newTransaction_flags n g
    · intro cur line _ hcur
      obtain ⟨h1, h2⟩ := addLine_flags cur line
      rw [h1, h2]
      exact hcur
    · decide
    · intro t ht
      simp at ht
  · intro t ht
    obtain ⟨hp, _⟩ := readTransaction_fields data t ht
    rw [hp]
    simp

/-- Witness for C14: `sampleLedger` and `samplePayload`. -/
theorem status_flags_exclusive_witness :
    (∀ t ∈ parseTransactions sampleLedger, ¬ (t.cleared = true ∧ t.pending = true)) ∧
    (∀ t, readTransaction samplePayload = .ok t → ¬ (t.cleared = true ∧ t.pending = true)) ∧
    ¬ (Transaction.default.cleared = true ∧ Transaction.default.pending = true) :=
  status_flags_exclusive sampleLedger samplePayload

/-! ## Backup before overwrite -/

/-- C15. When `writeLedgerFile(content)` succeeds on a ledger file that held
`previous`, the ledger file then holds `content` and the `.bak` file holds
`previous`; it succeeds exactly when both the copy and the opening succeed;
when the copy fails the file system is left unchanged (the ledger file is not
opened for writing); and whenever the ledger file changes, the `.bak` file holds
its previous content. -/
theorem backup_before_overwrite (fs : FileSystem) (content previous : Str)
    (hprev : fs.ledger = some previous) :
    ((writeLedgerFile fs content).2 = .ok true →
      (writeLedgerFile fs content).1.ledger = some content ∧
      (writeLedgerFile fs content).1.backup = some previous) ∧
    ((writeLedgerFile fs content).2 = .ok true ↔ (fs.copyOk = true ∧ fs.openOk = true)) ∧
    (fs.copyOk = false → writeLedgerFile fs content = (fs, .error .runtime_error)) ∧
    ((writeLedgerFile fs content).1.ledger ≠ fs.ledger →
      (writeLedgerFile fs content).1.backup = some previous) := by
  unfold writeLedgerFile
  rw [hprev]
  cases hc : fs.copyOk <;> cases ho : fs.openOk <;> simp [hprev]

/-- Witness for C15: writing to `sampleFs`. -/
theorem backup_before_overwrite_witness :
    ((writeLedgerFile sampleFs sampleFormatted).2 = .ok true →
      (writeLedgerFile sampleFs sampleFormatted).1.ledger = some sampleFormatted ∧
      (writeLedgerFile sampleFs sampleFormatted).1.backup = some sampleLedger) ∧
    ((writeLedgerFile sampleFs sampleFormatted).2 = .ok true ↔
      (sampleFs.copyOk = true ∧ sampleFs.openOk = true)) ∧
    (sampleFs.copyOk = false →
      writeLedgerFile sampleFs sampleFormatted = (sampleFs, .error .runtime_error)) ∧
    ((writeLedgerFile sampleFs sampleFormatted).1.ledger ≠ sampleFs.ledger →
      (writeLedgerFile sampleFs sampleFormatted).1.backup = some sampleLedger) :=
  backup_before_overwrite sampleFs sampleFormatted sampleLedger rfl

/-! ## Posting comments -/

theorem mem_trim (c : Char) (s : Str) (h : c ∈ trim s) : c ∈ s := by
  unfold trim trimLeft trimRight at h
  have h1 := (List.dropWhile_suffix isspace).mem h
  rw [List.mem_reverse] at h1
  have h2 := (List.dropWhile_suffix isspace).mem h1
  simpa using h2

theorem parsePosting_comment (s : Str) :
    (parsePosting s).comment = [] ∧ ';' ∉ (parsePosting s).amount := by
  unfold parsePosting
  split
  · exact ⟨rfl, by simp⟩
  · refine ⟨rfl, ?_⟩
    intro h
    have h1 := mem_trim _ _ h
    have h2 := cutComment_eq_takeWhile
    unfold cutComment at h2
    rw [h2] at h1
    have := List.mem_takeWhile_imp h1
    simp at this

/-- C17. Every posting returned by `parseTransactions` has an empty comment
and an amount without `;`; so the postings parsed from the text of any
formatted transaction have empty comments, whatever comments it carried. -/
theorem comments_never_recovered (content : Str) (t : Transaction) :
    (∀ u ∈ parseTransactions content, ∀ p ∈ u.postings, p.comment = [] ∧ ';' ∉ p.amount) ∧
    (∀ f, formatTransaction t = .ok f →
      ∀ u ∈ parseTransactions f, ∀ p ∈ u.postings, p.comment = []) := by
  have hall : ∀ c : Str, ∀ u ∈ parseTransactions c, ∀ p ∈ u.postings,
      p.comment = [] ∧ ';' ∉ p.amount := by
    intro c
    apply parseTransactions_postings
    intro line _ _
    exact parsePosting_comment (trim line)
  exact ⟨hall content, fun f _ u hu p hp => (hall f u hu p hp).1⟩

/-- Witness for C17: `sampleLedger` and a transaction with a comment. -/
theorem comments_never_recovered_witness :
    (∀ u ∈ parseTransactions sampleLedger, ∀ p ∈ u.postings,
      p.comment = [] ∧ ';' ∉ p.amount) ∧
    (∀ f, formatTransaction commentedTransaction = .ok f →
      ∀ u ∈ parseTransactions f, ∀ p ∈ u.postings, p.comment = []) :=
  comments_never_recovered sampleLedger commentedTransaction

/-! ## Round trip under the stated conditions -/

theorem contains_eq_false_iff (l : Str) (c : Char) : l.contains c = false ↔ c ∉ l := by
  rw [← Bool.not_eq_true, List.contains_iff_exists_mem_beq]
  simp

theorem statedPostingConditions_wellFormed (p : Posting)
    (h : statedPostingConditions p = true) : wellFormedPosting p = true := by
  simp only [statedPostingConditions, Bool.and_eq_true, Bool.not_eq_true',
    decide_eq_true_eq, List.isEmpty_eq_false, List.isEmpty_iff, bne_iff_ne, ne_eq,
    contains_eq_false_iff, and_assoc] at h
  obtain ⟨h1, h2, h3, h4, h5, h6, h7, h8, h9, h10, h11, h12⟩ := h
  rw [wellFormedPosting_iff]
  exact ⟨h1, h3, h4, h6, h5, h7, h8, Or.inr h2, h9, h10, h11, h12⟩

theorem statedConditions_wellFormed (t : Transaction) (h : statedConditions t = true)
    (hr : '\r' ∉ t.payee) : wellFormedTransaction t = true := by
  simp only [statedConditions, Bool.and_eq_true, Bool.not_eq_true', Bool.or_eq_true,
    decide_eq_true_eq, List.isEmpty_eq_false, List.isEmpty_iff, bne_iff_ne, ne_eq,
    List.all_eq_true, Bool.and_eq_false_iff, contains_eq_false_iff, and_assoc,
    or_assoc] at h
  obtain ⟨h1, h2, h3, h4, h5, h6, h7, h8⟩ := h
  rw [wellFormedTransaction_iff]
  refine ⟨h1, h2, ?_, h4, h5, ?_, h7, fun p hp => statedPostingConditions_wellFormed p (h8 p hp)⟩
  · rintro ⟨hc, hp⟩
    rcases h3 with h | h
    · rw [hc] at h; cases h
    · rw [hp] at h; cases h
  · rw [List.any_eq_false]
    intro x hx hterm
    simp only [isLineTerminator, Bool.or_eq_true, beq_iff_eq] at hterm
    rcases hterm with rfl | rfl
    · exact h6 hx
    · exact hr hx

/-- C18, as stated, fails: a carriage return inside the payee meets every
stated condition (it is not a line break of the file, nor at an end of the
payee), but the header line then does not match the header pattern and the
formatted text parses to no transaction. -/
theorem stated_round_trip_fails :
    statedConditions carriageReturnTransaction = true ∧
    (∃ f, formatTransaction carriageReturnTransaction = .ok f ∧ parseTransactions f = []) := by
  refine ⟨by decide, _, rfl, by decide⟩

/-- C18, amended. For every transaction `T` that meets the stated conditions
(1) to (6) and whose payee moreover contains no carriage return,
`formatTransaction` succeeds and `parseTransactions` of its text is exactly the
one-element list holding `T` with `startLine` 0 and every posting comment
replaced by the empty string. -/
theorem stated_round_trip (t : Transaction) (h : statedConditions t = true)
    (hr : '\r' ∉ t.payee) :
    ∃ f, formatTransaction t = .ok f ∧ parseTransactions f = [reparsed 0 t] := by
  obtain ⟨hf, hp⟩ := formatted_round_trip t 0 (statedConditions_wellFormed t h hr)
  exact ⟨_, hf, hp⟩

/-- Witness for C18 (amended): `commentedTransaction`, whose comment is dropped. -/
theorem stated_round_trip_witness :
    ∃ f, formatTransaction commentedTransaction = .ok f ∧
      parseTransactions f = [reparsed 0 commentedTransaction] :=
  stated_round_trip commentedTransaction (by decide) (by decide)

/-! ## Update re-parses compositionally -/

/-- A text that parses to a single transaction starting at line 0 begins with a
header line. -/
theorem single_parse_header (f : Str) (t : Transaction) (hp : parseTransactions f = [t])
    (hs : t.startLine = 0) : ∃ h r, getlines f = h :: r ∧ isHeaderLine h = true := by
  have ht : (parseLoop (getlines f) 0 Transaction.default [])[0]? = some t := by
    have : parseLoop (getlines f) 0 Transaction.default [] = [t] := hp
    rw [this]
    rfl
  obtain ⟨k, hk1, _, ⟨h, r, hk3, hk3b⟩, _, _⟩ := parse_split_at (getlines f) 0 t ht
  have hk0 : k = 0 := by
    rw [hs] at hk1
    exact_mod_cast hk1.symm
  subst hk0
  exact ⟨h, r, by simpa using hk3, hk3b⟩

theorem parse_spliced (a b : List Str) (f : Str) (t : Transaction) (m : Nat)
    (hp : parseTransactions f = [t]) (hs : t.startLine = 0)
    (hb : b = [] ∨ ∃ h r, b = h :: r ∧ isHeaderLine h = true) :
    (parseLoop (a ++ (getlines f ++ b)) 0 Transaction.default []).map Transaction.body =
      (parseLoop a 0 Transaction.default []).map Transaction.body ++
        t.body :: (parseLoop b m Transaction.default []).map Transaction.body := by
  obtain ⟨h, r, hfr, hh⟩ := single_parse_header f t hp hs
  have hfb : getlines f ++ b = [] ∨ ∃ h' r', getlines f ++ b = h' :: r' ∧
      isHeaderLine h' = true := by
    right
    exact ⟨h, r ++ b, by rw [hfr]; rfl, hh⟩
  have hF : (parseLoop (getlines f) (0 + a.length) Transaction.default []).map
      Transaction.body = [t.body] := by
    rw [parseLoop_body (getlines f) _ 0 Transaction.default Transaction.default rfl Iff.rfl]
    have : parseLoop (getlines f) 0 Transaction.default [] = [t] := hp
    rw [this]
    rfl
  rw [parseLoop_append a _ 0 _ hfb, parseLoop_append (getlines f) b _ _ hb, List.map_append,
    List.map_append, hF,
    parseLoop_body b _ m Transaction.default Transaction.default rfl Iff.rfl]
  rfl

/-- C19. When the text of `T` parses to exactly one transaction `t` with
`startLine` 0, the content computed by `updateTransaction` at a valid index `i`
re-parses to exactly `N` transactions: the `i`-th has the date, cleared,
pending, payee and postings of `t`, every other one those of the transaction at
the same index before the update. -/
theorem update_reparse (fs : FileSystem) (content : Str) (index : Int) (data : Json)
    (T t : Transaction) (f : Str)
    (hfs : fs.ledger = some content) (hc : fs.copyOk = true) (ho : fs.openOk = true)
    (h0 : 0 ≤ index) (h1 : index < ((parseTransactions content).length : Int))
    (hv : missingRequired data = false) (hr : readTransaction data = .ok T)
    (hf : formatTransaction T = .ok f)
    (hp : parseTransactions f = [t]) (hs : t.startLine = 0) :
    updateTransaction fs index data =
      ({ fs with backup := some content,
                 ledger := some (updateContent content (parseTransactions content) index f) },
        .ok true) ∧
    (parseTransactions (updateContent content (parseTransactions content) index f)).length =
      (parseTransactions content).length ∧
    (parseTransactions (updateContent content (parseTransactions content) index f)).map
        Transaction.body =
      ((parseTransactions content).map Transaction.body).set index.toNat t.body := by
  refine ⟨updateTransaction_ok fs content index data T f hfs hc ho h0 h1 hv hr hf, ?_⟩
  obtain ⟨i, rfl⟩ := Int.eq_ofNat_of_zero_le h0
  have hi : i < (parseTransactions content).length := by omega
  have hterm := formatTransaction_terminated T f hf
  have hmain : (parseTransactions (updateContent content (parseTransactions content) i f)).map
        Transaction.body =
      ((parseTransactions content).map Transaction.body).set i t.body := by
    obtain ⟨k, hk1, _, hk3, hk4⟩ := splice_positions content i hi
    have hnl : ∀ l ∈ (getlines content).take k, '\n' ∉ l :=
      fun l hl => getlines_no_newline content l (List.mem_of_mem_take hl)
    rw [List.set_eq_take_append_cons_drop, if_pos (by simpa using hi), ← List.map_take,
      ← List.map_drop]
    rcases hk4 with ⟨hl, he⟩ | ⟨hl, k2, hq1, _, _, he, hq4, hq5⟩
    · have hcontent : updateContent content (parseTransactions content) (i : Int) f =
          unlines ((getlines content).take k) ++ f := by
        simp [updateContent, he, hk1, linesBefore]
      have hlines : getlines (unlines ((getlines content).take k) ++ f) =
          (getlines content).take k ++ (getlines f ++ []) := by
        rw [getlines_unlines_append _ _ hnl, List.append_nil]
      rw [hcontent]
      unfold parseTransactions
      rw [hlines, parse_spliced _ [] f t 0 hp hs (Or.inl rfl), hk3]
      have hd : (parseLoop (getlines content) 0 Transaction.default []).drop (i + 1) = [] := by
        apply List.drop_eq_nil_of_le
        unfold parseTransactions at hl
        omega
      rw [hd]
      simp [parseLoop, pushOpen_default, parseTransactions]
    · have hne : ¬ ((k2 : Int) - 1 = -1) := by omega
      have hnn : ¬ ((k2 : Int) - 1 + 1 < 0) := by omega
      have hcontent : updateContent content (parseTransactions content) (i : Int) f =
          unlines ((getlines content).take k) ++ (f ++ unlines ((getlines content).drop k2)) := by
        simp [updateContent, he, hk1, linesBefore, linesAfter, hne, hnn]
      have hnl2 : ∀ l ∈ (getlines content).drop k2, '\n' ∉ l :=
        fun l hl => getlines_no_newline content l (List.mem_of_mem_drop hl)
      have hlines : getlines (unlines ((getlines content).take k) ++
          (f ++ unlines ((getlines content).drop k2))) =
          (getlines content).take k ++ (getlines f ++ (getlines content).drop k2) := by
        rw [getlines_unlines_append _ _ hnl, getlines_append_terminated f _ (Or.inr hterm),
          getlines_unlines _ hnl2]
      rw [hcontent]
      unfold parseTransactions
      rw [hlines, parse_spliced _ _ f t k2 hp hs (Or.inr hq4), hk3, hq5]
      rfl
  refine ⟨?_, by simpa using hmain⟩
  have := congrArg List.length hmain
  simpa using this

/-- Witness for C19: replacing the first transaction of `sampleLedger` by
`sampleTransaction`. -/
theorem update_reparse_witness :
    updateTransaction sampleFs 0 samplePayload =
      ({ sampleFs with
          backup := some sampleLedger,
          ledger := some (updateContent sampleLedger (parseTransactions sampleLedger) 0
            sampleFormatted) },
        .ok true) ∧
    (parseTransactions (updateContent sampleLedger (parseTransactions sampleLedger) 0
        sampleFormatted)).length = (parseTransactions sampleLedger).length ∧
    (parseTransactions (updateContent sampleLedger (parseTransactions sampleLedger) 0
        sampleFormatted)).map Transaction.body =
      ((parseTransactions sampleLedger).map Transaction.body).set (0 : Int).toNat
        (reparsed 0 sampleTransaction).body :=
  update_reparse sampleFs sampleLedger 0 samplePayload sampleTransaction
    (reparsed 0 sampleTransaction) sampleFormatted rfl rfl rfl (by decide) (by decide)
    rfl rfl rfl (by decide) rfl

/-! ## Line indexing of the splice -/

theorem copyLinesChecked_in_bounds (lines : List Str) (i count : Nat)
    (h : i + count ≤ lines.length) :
    copyLinesChecked lines i count = some (unlines ((lines.drop i).take count)) := by
  induction count generalizing i with
  | zero => simp [copyLinesChecked, unlines]
  | succ c ih =>
    have hi : i < lines.length := by omega
    simp only [copyLinesChecked, List.getElem?_eq_getElem hi]
    rw [ih (i + 1) (by omega), List.drop_eq_getElem_cons hi]
    simp [unlines]

theorem copyLinesChecked_some (lines : List Str) (i count : Nat) (r : Str)
    (h : copyLinesChecked lines i count = some r) : count = 0 ∨ i + count ≤ lines.length := by
  induction count generalizing i r with
  | zero => exact Or.inl rfl
  | succ c ih =>
    right
    simp only [copyLinesChecked] at h
    cases hl : lines[i]? with
    | none => simp [hl] at h
    | some l =>
      have hi : i < lines.length := by
        by_contra hcon
        rw [List.getElem?_eq_none (by omega)] at hl
        cases hl
      simp only [hl, Option.map_eq_some'] at h
      obtain ⟨r2, hr2, _⟩ := h
      rcases ih (i + 1) r2 hr2 with h0 | h0 <;> omega

/-- C20. For an index accepted by the range check, `startLine(i)` is the index
of an existing line; for a non-last `i`, `endLine = startLine(i+1) - 1` with
`startLine(i) ≤ endLine < lines.size()`, and for the last one `endLine = -1`; so
the two copying loops of `updateTransaction` and `deleteTransaction` only access
existing lines (run with checked accesses they complete, with the same result). -/
theorem splice_indexing_in_bounds (content : Str) (index : Int)
    (h0 : 0 ≤ index) (h1 : index < ((parseTransactions content).length : Int)) :
    0 ≤ (nth (parseTransactions content) index).startLine ∧
    (nth (parseTransactions content) index).startLine < ((getlines content).length : Int) ∧
    ((index + 1 < ((parseTransactions content).length : Int) ∧
        endLineOf (parseTransactions content) index =
          (nth (parseTransactions content) (index + 1)).startLine - 1 ∧
        (nth (parseTransactions content) index).startLine ≤
          endLineOf (parseTransactions content) index ∧
        endLineOf (parseTransactions content) index < ((getlines content).length : Int)) ∨
      (index + 1 = ((parseTransactions content).length : Int) ∧
        endLineOf (parseTransactions content) index = -1)) ∧
    linesBeforeChecked (getlines content) (nth (parseTransactions content) index).startLine =
      some (linesBefore (getlines content) (nth (parseTransactions content) index).startLine) ∧
    linesAfterChecked (getlines content) (endLineOf (parseTransactions content) index) =
      some (linesAfter (getlines content) (endLineOf (parseTransactions content) index)) := by
  obtain ⟨i, rfl⟩ := Int.eq_ofNat_of_zero_le h0
  have hi : i < (parseTransactions content).length := by omega
  obtain ⟨k, hk1, hk2, _, hk4⟩ := splice_positions content i hi
  have hbefore : linesBeforeChecked (getlines content) (k : Int) =
      some (linesBefore (getlines content) (k : Int)) := by
    unfold linesBeforeChecked linesBefore
    rw [copyLinesChecked_in_bounds _ 0 _ (by simp; omega)]
    simp
  have hafter : ∀ e : Int, linesAfterChecked (getlines content) e =
      some (linesAfter (getlines content) e) := by
    intro e
    unfold linesAfterChecked linesAfter
    split
    · rfl
    · by_cases hle : (e + 1).toNat ≤ (getlines content).length
      · rw [copyLinesChecked_in_bounds _ _ _ (by omega)]
        congr 2
        apply List.take_of_length_le
        simp
      · have hd : (getlines content).drop (e + 1).toNat = [] :=
          List.drop_eq_nil_of_le (by omega)
        have hz : (getlines content).length - (e + 1).toNat = 0 := by omega
        rw [hd, hz]
        rfl
  rw [hk1]
  refine ⟨by omega, by omega, ?_, hbefore, hafter _⟩
  rcases hk4 with ⟨hl, he⟩ | ⟨hl, k2, hq1, hq2, hq3, he, _, _⟩
  · right
    exact ⟨by omega, he⟩
  · left
    rw [he, hq1]
    exact ⟨by omega, rfl, by omega, by omega⟩

/-- Witness for C20: the first transaction of `sampleLedger`. -/
theorem splice_indexing_in_bounds_witness :
    0 ≤ (nth (parseTransactions sampleLedger) 0).startLine ∧
    (nth (parseTransactions sampleLedger) 0).startLine <
      ((getlines sampleLedger).length : Int) ∧
    (((0 : Int) + 1 < ((parseTransactions sampleLedger).length : Int) ∧
        endLineOf (parseTransactions sampleLedger) 0 =
          (nth (parseTransactions sampleLedger) (0 + 1)).startLine - 1 ∧
        (nth (parseTransactions sampleLedger) 0).startLine ≤
          endLineOf (parseTransactions sampleLedger) 0 ∧
        endLineOf (parseTransactions sampleLedger) 0 < ((getlines sampleLedger).length : Int)) ∨
      ((0 : Int) + 1 = ((parseTransactions sampleLedger).length : Int) ∧
        endLineOf (parseTransactions sampleLedger) 0 = -1)) ∧
    linesBeforeChecked (getlines sampleLedger)
        (nth (parseTransactions sampleLedger) 0).startLine =
      some (linesBefore (getlines sampleLedger)
        (nth (parseTransactions sampleLedger) 0).startLine) ∧
    linesAfterChecked (getlines sampleLedger) (endLineOf (parseTransactions sampleLedger) 0) =
      some (linesAfter (getlines sampleLedger)
        (endLineOf (parseTransactions sampleLedger) 0)) :=
  splice_indexing_in_bounds sampleLedger 0 (by decide) (by decide)

/-! ## CORS headers -/

theorem hasCors_jsonResponse (code : Nat) (body : Body) :
    hasCors (jsonResponse code body) = true := by
  rfl

theorem hasCors_notFoundResponse : hasCors notFoundResponse = false := by
  rfl

theorem hasCors_caughtResponse (code : Nat) (e : Exn) :
    hasCors (caughtResponse code e) = false := by
  rfl

/-- Every response a handler returns carries the CORS headers. -/
theorem handler_responses_have_cors (fs : FileSystem) (index limit : Int)
    (body : Option Json) (res : Response) :
    (ApiHandler.getTransaction fs index = .ok res → hasCors res = true) ∧
    (ApiHandler.getTransactions fs limit = .ok res → hasCors res = true) ∧
    ((ApiHandler.addTransaction fs body).2 = .ok res → hasCors res = true) ∧
    ((ApiHandler.updateTransaction fs index body).2 = .ok res → hasCors res = true) ∧
    ((ApiHandler.deleteTransaction fs index).2 = .ok res → hasCors res = true) ∧
    hasCors routeOptions = true := by
  refine ⟨?_, ?_, ?_, ?_, ?_, rfl⟩
  · intro h
    unfold ApiHandler.getTransaction at h
    split at h
    · cases h
    · split at h
      · cases h
      · simp only [Except.ok.injEq] at h
        subst h
        rfl
  · intro h
    unfold ApiHandler.getTransactions at h
    split at h
    · cases h
    · simp only [Except.ok.injEq] at h
      subst h
      rfl
  · intro h
    unfold ApiHandler.addTransaction at h
    split at h
    · simp only [Except.ok.injEq] at h
      subst h
      rfl
    · split at h
      · simp only [Except.ok.injEq] at h
        subst h
        rfl
      · simp only [Except.ok.injEq] at h
        subst h
        rfl
      · split at h
        · simp only [Except.ok.injEq] at h
          subst h
          rfl
        · cases h
  · intro h
    unfold ApiHandler.updateTransaction at h
    split at h
    · simp only [Except.ok.injEq] at h
      subst h
      rfl
    · split at h
      · simp only [Except.ok.injEq] at h
        subst h
        rfl
      · simp only [Except.ok.injEq] at h
        subst h
        rfl
      · split at h
        · simp only [Except.ok.injEq] at h
          subst h
          rfl
        · cases h
  · intro h
    unfold ApiHandler.deleteTransaction at h
    split at h
    · simp only [Except.ok.injEq] at h
      subst h
      rfl
    · simp only [Except.ok.injEq] at h
      subst h
      rfl
    · cases h

/-- C16 (evaluation of the code where it departs from the claim). For an
out-of-range index the routes `GET`, `PUT` (with a payload that passes the
required-field check) and `DELETE /api/transactions/<int>` answer 404, for a
payload with a missing required field the route `POST /api/transactions`
answers 400, and a report route whose command fails answers 500; these responses
are built in the `catch` blocks of `initRoutes` and carry no CORS header. -/
theorem error_responses_lack_cors (fs : FileSystem) (content : Str) (index : Int)
    (data bad : Json) (e : Exn)
    (hfs : fs.ledger = some content)
    (hout : index < 0 ∨ index ≥ ((parseTransactions content).length : Int))
    (hv : missingRequired data = false) (hbad : missingRequired bad = true) :
    routeGetTransaction fs index = notFoundResponse ∧
    routePutTransaction fs index (some data) = (fs, notFoundResponse) ∧
    routeDeleteTransaction fs index = (fs, notFoundResponse) ∧
    routePostTransaction fs (some bad) = (fs, caughtResponse 400 .invalid_argument) ∧
    routeReport (.error e) = caughtResponse 500 e ∧
    hasCors notFoundResponse = false ∧
    hasCors (caughtResponse 400 .invalid_argument) = false ∧
    hasCors (caughtResponse 500 e) = false := by
  have hg : getTransaction content index = .error .out_of_range := by
    simp [getTransaction, hout]
  have hu : updateTransaction fs index data = (fs, .error .out_of_range) := by
    simp [updateTransaction, hv, parseLedgerFile, hfs, hout]
  have hd : deleteTransaction fs index = (fs, .error .out_of_range) := by
    simp [deleteTransaction, parseLedgerFile, hfs, hout]
  have ha : addTransaction fs bad = (fs, .error .invalid_argument) := by
    simp [addTransaction, hbad]
  refine ⟨?_, ?_, ?_, ?_, rfl, rfl, rfl, rfl⟩
  · simp [routeGetTransaction, ApiHandler.getTransaction, parseLedgerFile, hfs, hg]
  · simp [routePutTransaction, ApiHandler.updateTransaction, hu]
  · simp [routeDeleteTransaction, ApiHandler.deleteTransaction, hd]
  · simp [routePostTransaction, ApiHandler.addTransaction, ha]

/-- Witness for C16: index 5 on `sampleLedger`, which has two transactions. -/
theorem error_responses_lack_cors_witness :
    routeGetTransaction sampleFs 5 = notFoundResponse ∧
    routePutTransaction sampleFs 5 (some samplePayload) = (sampleFs, notFoundResponse) ∧
    routeDeleteTransaction sampleFs 5 = (sampleFs, notFoundResponse) ∧
    routePostTransaction sampleFs (some noPostingsPayload) =
      (sampleFs, caughtResponse 400 .invalid_argument) ∧
    routeReport (.error .runtime_error) = caughtResponse 500 .runtime_error ∧
    hasCors notFoundResponse = false ∧
    hasCors (caughtResponse 400 .invalid_argument) = false ∧
    hasCors (caughtResponse 500 .runtime_error) = false :=
  error_responses_lack_cors sampleFs sampleLedger 5 samplePayload noPostingsPayload
    .runtime_error rfl (by decide) rfl rfl

/-- Witness for C11: the two transactions of `sampleLedger` start at lines 0
and 4. -/
theorem parser_transaction_boundaries_witness :
    ((parseTransactions sampleLedger).map Transaction.startLine =
      (headerIndices 0 (getlines sampleLedger)).map Int.ofNat ∧
    (parseTransactions sampleLedger).length =
      ((getlines sampleLedger).filter isHeaderLine).length ∧
    ((parseTransactions sampleLedger).map Transaction.startLine).Pairwise (· < ·) ∧
    (∀ k : Nat, (k : Int) ∈ (parseTransactions sampleLedger).map Transaction.startLine ↔
      ∃ l, (getlines sampleLedger)[k]? = some l ∧ isHeaderLine l = true) ∧
    (∀ s ∈ (parseTransactions sampleLedger).map Transaction.startLine, (0 : Int) ≤ s) ∧
    ((∀ l ∈ getlines sampleLedger, isHeaderLine l = false) →
      parseTransactions sampleLedger = [])) ∧
    (parseTransactions sampleLedger).map Transaction.startLine = [0, 4] :=
  ⟨parser_transaction_boundaries sampleLedger, by decide⟩

/-! ## Report indentation level -/

theorem findFirstNotSpace_trim (line : Str) (h : trim line ≠ []) :
    findFirstNotSpace (trim line) = some 0 := by
  have hh := trim_head_not_space line
  cases ht : trim line with
  | nil => exact absurd ht h
  | cons c cs =>
    rw [ht] at hh
    have hc : isspace c = false := by simpa using hh
    have hne : c ≠ ' ' := by
      intro e
      subst e
      revert hc
      decide
    simp [findFirstNotSpace, hne]

theorem splitCompressed_no_separator (pred : Char → Bool) (after : Bool) (s : Str) :
    ∀ t ∈ splitCompressed pred after s, ∀ c ∈ t, pred c = false := by
  induction s generalizing after with
  | nil =>
    intro t ht c hc
    simp only [splitCompressed, List.mem_singleton] at ht
    subst ht
    simp at hc
  | cons x xs ih =>
    intro t ht c hc
    by_cases hx : pred x = true
    · cases after with
      | true =>
        simp only [splitCompressed, hx, if_true] at ht
        exact ih true t ht c hc
      | false =>
        simp only [splitCompressed, hx, if_true, Bool.false_eq_true, if_false,
          List.mem_cons] at ht
        rcases ht with rfl | ht
        · simp at hc
        · exact ih true t ht c hc
    · have hxf : pred x = false := by simpa using hx
      simp only [splitCompressed, hxf, Bool.false_eq_true, if_false] at ht
      cases hs : splitCompressed pred false xs with
      | nil =>
        simp only [hs, List.mem_singleton] at ht
        subst ht
        simp only [List.mem_singleton] at hc
        subst hc
        exact hxf
      | cons u us =>
        simp only [hs, List.mem_cons] at ht
        rcases ht with rfl | ht
        · rcases List.mem_cons.mp hc with rfl | hc
          · exact hxf
          · exact ih false u (by simp [hs]) c hc
        · exact ih false t (by simp [hs, ht]) c hc

theorem serializeLine_item (line : Str) (item : AccountItem)
    (h : serializeLine line = some item) :
    item.level = 0 ∧ ' ' ∉ item.amount ∧ ' ' ∉ item.account := by
  unfold serializeLine at h
  by_cases h0 : trim line = []
  · simp [h0] at h
  · simp only [h0, if_false, findFirstNotSpace_trim line h0] at h
    have hno := splitCompressed_no_separator isAnyOfTwoSpaces false (trim line)
    have hsp : ∀ t ∈ splitCompressed isAnyOfTwoSpaces false (trim line), ' ' ∉ trim t := by
      intro t ht hmem
      have := hno t ht ' ' (mem_trim _ _ hmem)
      revert this
      decide
    split at h
    · rename_i p0 p1 rest heq
      simp only [Option.some.injEq] at h
      subst h
      refine ⟨rfl, hsp p0 (by rw [heq]; simp), hsp p1 (by rw [heq]; simp)⟩
    · cases h

/-- C21 (evaluation of the code where it departs from the claim). Every item
`serializeAccountData` builds has `level` 0, whatever the indentation of its
line (the line is trimmed before its leading spaces are counted), and neither
its amount nor its account contains a space (the line is split at every run of
one or more spaces, not only at runs of two or more). -/
theorem report_level_always_zero (ledgerOutput : Str) :
    serializeAccountData ledgerOutput =
      .arr ((serializeAccountItems ledgerOutput).map accountItemToJson) ∧
    ∀ item ∈ serializeAccountItems ledgerOutput,
      item.level = 0 ∧ ' ' ∉ item.amount ∧ ' ' ∉ item.account := by
  refine ⟨rfl, ?_⟩
  intro item hitem
  unfold serializeAccountItems at hitem
  obtain ⟨line, _, hline⟩ := List.mem_filterMap.mp hitem
  exact serializeLine_item line item hline

/-- Witness for C21: a line with four leading spaces and an account name with
a space gives level 0, not 2, and the account cut at the single space. -/
theorem report_level_always_zero_witness :
    (serializeAccountData indentedReportLine =
      .arr ((serializeAccountItems indentedReportLine).map accountItemToJson) ∧
    ∀ item ∈ serializeAccountItems indentedReportLine,
      item.level = 0 ∧ ' ' ∉ item.amount ∧ ' ' ∉ item.account) ∧
    serializeAccountItems indentedReportLine =
      [{ amount := "$50".toList, account := "Assets:My".toList, level := 0 }] ∧
    leadingSpaces indentedReportLine / 2 = 2 :=
  ⟨report_level_always_zero indentedReportLine, by decide, by decide⟩

/-! ## Indented lines that are not posting lines -/

/-- C12, as stated, fails: `indentedHeaderLine` is indented, is not a comment
and comes under an open transaction, and the split rule gives it the account
`2024/01/02 Rent` with an empty amount; but its trimmed text matches the header
pattern, which the loop tests first, so no posting is appended: the open
transaction is pushed without posting and a new transaction starts. Likewise
`indentedBlankLine` is indented, is not a comment and comes under an open
transaction, and the split rule gives it an empty account and an empty amount;
but the loop skips a line whose trimmed text is empty, so no posting is
appended. -/
theorem indented_header_not_posting :
    ((indentedHeaderLine.head?.map isspace).getD false = true ∧
     (trim indentedHeaderLine).head? ≠ some ';' ∧
     openTransaction.startLine ≠ -1 ∧
     openTransaction.postings = [] ∧
     specPosting (trim indentedHeaderLine) =
       { account := "2024/01/02 Rent".toList, amount := [], comment := [] } ∧
     parseLoop [indentedHeaderLine] 1 openTransaction [] =
       [openTransaction,
        { startLine := 1, date := "2024/01/02".toList, cleared := false, pending := false,
          payee := "Rent".toList, postings := [] }] ∧
     parseLoop [indentedHeaderLine] 1 openTransaction [] ≠
       parseLoop [] (1 + 1)
         { openTransaction with
           postings := openTransaction.postings ++ [specPosting (trim indentedHeaderLine)] }
         []) ∧
    ((indentedBlankLine.head?.map isspace).getD false = true ∧
     (trim indentedBlankLine).head? ≠ some ';' ∧
     specPosting (trim indentedBlankLine) = { account := [], amount := [], comment := [] } ∧
     parseLoop [indentedBlankLine] 1 openTransaction [] = [openTransaction] ∧
     parseLoop [indentedBlankLine] 1 openTransaction [] ≠
       parseLoop [] (1 + 1)
         { openTransaction with
           postings := openTransaction.postings ++ [specPosting (trim indentedBlankLine)] }
         []) := by
  decide

end Ledger
